import Mathlib

/-!
Verification of the grid-car path-planning core (`backend/app/algo.py`).

The embedding is a direct translation of the Python source:
* `Option` layers model Python runtime faults (`KeyError`, `IndexError`,
  non-termination of a `while` loop, modelled with explicit fuel);
* `Except SolveErr` models the four `ValueError` conditions the core raises;
* Python dictionaries become association lists with insertion-order
  semantics (`dget?` / `dset`);
* machine integers are `Nat` / `Int` (Python integers are unbounded, so no
  wrap-around modelling is needed).
-/

namespace GridCar

abbrev Tile := String
abbrev Grid := List (List Tile)
abbrev Pos := Int × Int

/-- The sentinel "infinite" distance `10 ** 9` used throughout `algo.py`. -/
def INF : Nat := 10 ^ 9

/-- The four error conditions raised by the core (`ValueError`s in the source). -/
inductive SolveErr where
  | missingStart
  | malformedTeleport (label : Tile)
  | unreachableFlag
  | infeasible
deriving DecidableEq, Repr

/-! ### Association-list dictionaries (Python `dict`, insertion ordered) -/

/-- Dictionary lookup, first binding wins (a dict has at most one binding per key). -/
def dget? {α β : Type} [DecidableEq α] : List (α × β) → α → Option β
  | [], _ => none
  | (k, v) :: rest, a => if k = a then some v else dget? rest a

/-- Dictionary assignment: update in place if the key is present, else append
(Python dicts keep the original key position and append new keys at the end). -/
def dset {α β : Type} [DecidableEq α] : List (α × β) → α → β → List (α × β)
  | [], a, b => [(a, b)]
  | (k, v) :: rest, a, b => if k = a then (k, b) :: rest else (k, v) :: dset rest a b

/-! ### Basic grid helpers -/

/-- `_is_drivable` from the source: every tile other than `"0"` is drivable. -/
def _is_drivable (cell : Tile) : Bool := cell ≠ "0"

/-- `cell.startswith("T")` from the source: first character is `'T'`. -/
def startsWithT (cell : Tile) : Bool :=
  match cell.data with
  | c :: _ => c = 'T'
  | [] => false

/-- `_in_bounds` from the source. -/
def _in_bounds (r c : Int) (g : Grid) : Bool :=
  decide (0 ≤ r) && decide (r < (g.length : Int)) &&
  decide (0 ≤ c) && decide (c < ((g.headD []).length : Int))

/-- Row-major scan coordinates `(r, c)` for `r in range(len(grid))`,
`c in range(len(grid[0]))`, as in `_find_key_points` and the BFS init loop. -/
def scanCells (g : Grid) : List (Nat × Nat) :=
  (List.range g.length).flatMap fun r =>
    (List.range (g.headD []).length).map fun c => (r, c)

/-- `grid[r][c]`: `none` models Python's `IndexError` (possible on a ragged row). -/
def cellAt? (g : Grid) (rc : Nat × Nat) : Option Tile :=
  (g.get? rc.1).bind fun row => row.get? rc.2

/-! ### `_find_key_points` -/

/-- Mutable state of the `_find_key_points` scan. -/
structure KeyPoints where
  start : Option Pos
  flags : List Pos
  teleports : List (Tile × List Pos)
deriving DecidableEq, Repr

/-- `teleports.setdefault(cell, []).append((r, c))` from the source. -/
def addTeleport : List (Tile × List Pos) → Tile → Pos → List (Tile × List Pos)
  | [], lbl, p => [(lbl, [p])]
  | (k, ps) :: rest, lbl, p =>
    if k = lbl then (k, ps ++ [p]) :: rest else (k, ps) :: addTeleport rest lbl p

/-- Processing of a single scanned cell in `_find_key_points`. -/
def scanCell (st : KeyPoints) (rc : Nat × Nat) (cell : Tile) : KeyPoints :=
  let p : Pos := ((rc.1 : Int), (rc.2 : Int))
  if cell = "S" then { st with start := some p }
  else if cell = "F" then { st with flags := st.flags ++ [p] }
  else if startsWithT cell then { st with teleports := addTeleport st.teleports cell p }
  else st

/-- `_find_key_points` from the source: scan every cell once; fail with
`missingStart` when no `"S"` was seen. -/
def _find_key_points (g : Grid) :
    Option (Except SolveErr (Pos × List Pos × List (Tile × List Pos))) :=
  match (scanCells g).foldlM (fun st rc => (cellAt? g rc).map (scanCell st rc))
      (⟨none, [], []⟩ : KeyPoints) with
  | none => none
  | some st =>
    match st.start with
    | none => some (.error .missingStart)
    | some s => some (.ok (s, st.flags, st.teleports))

/-! ### `_teleport_partner_map` -/

/-- Loop body of `_teleport_partner_map`: walk the label groups in insertion
order; the first label without exactly two positions raises. -/
def tpLoop : List (Tile × List Pos) → List (Pos × Pos) →
    Except SolveErr (List (Pos × Pos))
  | [], partner => .ok partner
  | (lbl, ps) :: rest, partner =>
    match ps with
    | [a, b] => tpLoop rest (dset (dset partner a b) b a)
    | _ => .error (.malformedTeleport lbl)

/-- `_teleport_partner_map` from the source. -/
def _teleport_partner_map (teleports : List (Tile × List Pos)) :
    Except SolveErr (List (Pos × Pos)) :=
  tpLoop teleports []

/-! ### `_zero_one_bfs` -/

/-- The four axis directions with their move labels, as in the source. -/
def dirs : List (Int × Int × Char) := [(-1, 0, 'U'), (1, 0, 'D'), (0, -1, 'L'), (0, 1, 'R')]

/-- One relaxation attempt (the body of the `for dr, dc, mv in dirs` loop).
`none` models a `KeyError` on the unchecked `dist[u]` / `dist[v]` accesses or
an `IndexError` on the (bounds-guarded, but possibly ragged) cell access. -/
def bfsRelax (g : Grid) (partner : List (Pos × Pos)) (u : Pos)
    (st : List (Pos × Nat) × List (Pos × (Pos × Char)) × List Pos)
    (d : Int × Int × Char) :
    Option (List (Pos × Nat) × List (Pos × (Pos × Char)) × List Pos) :=
  let (dist, parent, q) := st
  let vr : Int := u.1 + d.1
  let vc : Int := u.2 + d.2.1
  if _in_bounds vr vc g then
    match cellAt? g (vr.toNat, vc.toNat) with
    | none => none
    | some cell_v =>
      if _is_drivable cell_v then
        let v : Pos :=
          if startsWithT cell_v then
            match dget? partner (vr, vc) with
            | some p => p
            | none => (vr, vc)
          else (vr, vc)
        match dget? dist u, dget? dist v with
        | some du, some dv =>
          if du + 1 < dv then
            some (dset dist v (du + 1), dset parent v (u, d.2.2), q ++ [v])
          else some (dist, parent, q)
        | _, _ => none
      else some (dist, parent, q)
  else some (dist, parent, q)

/-- The `while q:` loop of `_zero_one_bfs`, with explicit fuel; running out of
fuel is `none` (the loop in fact always terminates, see `bfsLoop_total`). -/
def bfsLoop (g : Grid) (partner : List (Pos × Pos)) :
    Nat → List Pos → List (Pos × Nat) → List (Pos × (Pos × Char)) →
    Option (List (Pos × Nat) × List (Pos × (Pos × Char)))
  | _, [], dist, parent => some (dist, parent)
  | 0, _ :: _, _, _ => none
  | fuel + 1, u :: q, dist, parent =>
    match dirs.foldlM (bfsRelax g partner u) (dist, parent, q) with
    | none => none
    | some (dist', parent', q') => bfsLoop g partner fuel q' dist' parent'

/-- The distance-initialisation loop of `_zero_one_bfs`: every drivable cell
gets distance `INF`, in row-major insertion order. -/
def bfsInit (g : Grid) : Option (List (Pos × Nat)) :=
  (scanCells g).foldlM (fun dist rc =>
    (cellAt? g rc).map fun cell =>
      if _is_drivable cell then dset dist ((rc.1 : Int), (rc.2 : Int)) INF else dist) []

/-- Fuel that always suffices for `bfsLoop` (proved where needed): every
iteration either shortens the queue or strictly decreases the stored distance
sum, which starts below `(rows * cols + 1) * INF`. -/
def bfsFuel (g : Grid) : Nat := 5 * ((g.length * (g.headD []).length + 1) * INF) + 2

/-- `_zero_one_bfs` from the source. -/
def _zero_one_bfs (g : Grid) (src : Pos) (partner : List (Pos × Pos)) :
    Option (List (Pos × Nat) × List (Pos × (Pos × Char))) :=
  match bfsInit g with
  | none => none
  | some dist => bfsLoop g partner (bfsFuel g) [src] (dset dist src 0) []

/-! ### `_reconstruct_moves` -/

/-- The `while cur != src:` loop of `_reconstruct_moves`, with explicit fuel;
parent chains strictly decrease the stored distance, so `len(parent) + 1`
steps always suffice (proved where needed). -/
def recMovesLoop (parent : List (Pos × (Pos × Char))) (src : Pos) :
    Nat → Pos → List Char → Option (List Char)
  | 0, _, _ => none
  | fuel + 1, cur, moves_rev =>
    if cur = src then some moves_rev.reverse
    else
      match dget? parent cur with
      | none => some []
      | some pm => recMovesLoop parent src fuel pm.1 (moves_rev ++ [pm.2])

/-- `_reconstruct_moves` from the source. -/
def _reconstruct_moves (parent : List (Pos × (Pos × Char))) (src dst : Pos) :
    Option (List Char) :=
  recMovesLoop parent src (parent.length + 1) dst []

/-! ### `_pairwise_shortest_paths` -/

/-- `_pairwise_shortest_paths` from the source: one BFS per key point; the
distance matrix row and the move table are filled in index order. -/
def _pairwise_shortest_paths (g : Grid) (points : List Pos)
    (partner : List (Pos × Pos)) :
    Option (List (List Nat) × List ((Nat × Nat) × List Char)) :=
  points.enum.foldlM (fun acc ip => do
      let (dist, parent) ← _zero_one_bfs g ip.2 partner
      let rm ← points.enum.foldlM (fun rm jq =>
          if ip.1 = jq.1 then some (rm.1 ++ [0], dset rm.2 (ip.1, jq.1) [])
          else
            match dget? dist jq.2 with
            | some dv =>
              if dv < INF then
                match _reconstruct_moves parent ip.2 jq.2 with
                | none => none
                | some moves => some (rm.1 ++ [dv], dset rm.2 (ip.1, jq.1) moves)
              else some (rm.1 ++ [INF], dset rm.2 (ip.1, jq.1) [])
            | none => some (rm.1 ++ [INF], dset rm.2 (ip.1, jq.1) []))
          (([] : List Nat), acc.2)
      some (acc.1 ++ [rm.1], rm.2))
    (([] : List (List Nat)), ([] : List ((Nat × Nat) × List Char)))

/-! ### `_held_karp_tsp` -/

/-- A `dp[mask]` row: entry `j` is `some (cost, prev)` exactly when the Python
dict `dp[mask]` has key `j` (dict iteration over the small integer keys and
iteration in index order give the same final table, since each entry keeps the
`(cost, predecessor)` pair that is minimal in lexicographic order, a choice
independent of iteration order). -/
abbrev DPRow := List (Option (Nat × Int))
abbrev DPTable := List DPRow

def dpGetEntry (dp : DPTable) (mask j : Nat) : Option (Nat × Int) :=
  (dp.getD mask []).getD j none

def dpSetEntry (dp : DPTable) (mask j : Nat) (v : Nat × Int) : DPTable :=
  dp.set mask ((dp.getD mask []).set j (some v))

/-- `dist[j][k]` (always accessed in range inside the solver). -/
def matGet (m : List (List Nat)) (i j : Nat) : Nat := (m.getD i []).getD j 0

/-- The update condition of `_held_karp_tsp`:
`existing is None or cand < existing[0] or (cand == existing[0] and j < existing[1])`. -/
def hkBetter : Option (Nat × Int) → Nat → Nat → Bool
  | none, _, _ => true
  | some ev, cand, j => decide (cand < ev.1) || (decide (cand = ev.1) && decide ((j : Int) < ev.2))

/-- Processing of one `mask` in the dynamic program (the outer `for mask` body). -/
def hkStep (dist : List (List Nat)) (n : Nat) (dp : DPTable) (mask : Nat) : DPTable :=
  if mask &&& 1 = 0 then dp
  else
    (List.range n).foldl (fun dp' j =>
        match dpGetEntry dp mask j with
        | none => dp'
        | some cj =>
          (List.range n).foldl (fun dp'' k =>
              if mask &&& (1 <<< k) ≠ 0 then dp''
              else
                let new_mask := mask ||| (1 <<< k)
                let cand := cj.1 + matGet dist j k
                if hkBetter (dpGetEntry dp'' new_mask k) cand j then
                  dpSetEntry dp'' new_mask k (cand, (j : Int))
                else dp'')
            dp')
      dp

/-- One step of the final selection loop of `_held_karp_tsp`:
`if cost_j < best_cost or (cost_j == best_cost and j < end_idx)`. -/
def hkBestStep (dp : DPTable) (full : Nat) (be : Nat × Nat) (j : Nat) : Nat × Nat :=
  if j = 0 then be
  else
    match dpGetEntry dp full j with
    | none => be
    | some cj =>
      if cj.1 < be.1 ∨ (cj.1 = be.1 ∧ j < be.2) then (cj.1, j) else be

/-- The final selection loop of `_held_karp_tsp`: smallest cost over the
full-mask states with `j ≠ 0`, ties broken by the smaller end index; the
accumulator starts at `(INF, n)` and `end_idx = n` means "none found". -/
def hkBest (dp : DPTable) (n : Nat) : Nat × Nat :=
  (List.range n).foldl (hkBestStep dp ((1 <<< n) - 1)) (INF, n)

/-- The order-reconstruction loop (`while j != -1`), with explicit fuel;
predecessor chains remove one bit of `mask` per step, so `n + 1` iterations
always suffice (proved where needed).  `none` also models the unchecked
`dp[mask][j]` dict access. -/
def hkRecon (dp : DPTable) : Nat → Nat → Int → List Nat → Option (List Nat)
  | 0, _, _, _ => none
  | fuel + 1, mask, j, order =>
    if j = -1 then some order.reverse
    else
      match dpGetEntry dp mask j.toNat with
      | none => none
      | some cp => hkRecon dp fuel (mask ^^^ (1 <<< j.toNat)) cp.2 (order ++ [j.toNat])

/-- `_held_karp_tsp` from the source. -/
def _held_karp_tsp (dist : List (List Nat)) : Option (Except SolveErr (Nat × List Nat)) :=
  let n := dist.length
  let ALL := 1 <<< n
  let dp0 := dpSetEntry (List.replicate ALL (List.replicate n none)) 1 0 (0, -1)
  let dp := (List.range ALL).foldl (hkStep dist n) dp0
  let be := hkBest dp n
  if be.2 = n then some (.error .infeasible)
  else
    match hkRecon dp (n + 1) ((1 <<< n) - 1) (be.2 : Int) [] with
    | none => none
    | some order => some (.ok (be.1, order))

/-! ### `solve_grid_to_moves` -/

/-- Translation of one internal direction code in the move-assembly loop:
`'T'` is skipped, the four directions get their outward names, anything else
falls off the `if`/`elif` chain and is silently dropped. -/
def dirName (mv : Char) : List String :=
  if mv = 'T' then []
  else if mv = 'U' then ["up"]
  else if mv = 'D' then ["down"]
  else if mv = 'L' then ["left"]
  else if mv = 'R' then ["right"]
  else []

/-- `solve_grid_to_moves` from the source: the full pipeline. -/
def solve_grid_to_moves (g : Grid) : Option (Except SolveErr (List String)) :=
  match _find_key_points g with
  | none => none
  | some (.error e) => some (.error e)
  | some (.ok kp) =>
    match _teleport_partner_map kp.2.2 with
    | .error e => some (.error e)
    | .ok partner =>
      let points : List Pos := kp.1 :: kp.2.1
      match _pairwise_shortest_paths g points partner with
      | none => none
      | some dm =>
        if ((List.range points.length).drop 1).any (fun i => decide (INF ≤ matGet dm.1 0 i)) then
          some (.error .unreachableFlag)
        else
          match _held_karp_tsp dm.1 with
          | none => none
          | some (.error e) => some (.error e)
          | some (.ok co) =>
            match (co.2.zip co.2.tail).foldlM (fun moves ab =>
                match dget? dm.2 ab with
                | none => none
                | some segment => some (moves ++ segment.flatMap dirName))
              ([] : List String) with
            | none => none
            | some moves => some (.ok moves)

/-! ### Claim-side notions (domain of quantification and expected behaviour) -/

/-- Rows all have the length of the first row (the spec's rectangularity). -/
def Rect (g : Grid) : Prop := ∀ row ∈ g, row.length = (g.headD []).length

/-- A structurally valid grid in the sense of the spec's data model (§3) and
the service-side validator `_validate_grid`: rectangular and non-empty, legal
tokens, exactly one start, at least one flag, every teleport label appearing
exactly twice. -/
def StructValid (g : Grid) : Prop :=
  g ≠ [] ∧ g.headD [] ≠ [] ∧ Rect g ∧
  (∀ row ∈ g, ∀ t ∈ row, t = "0" ∨ t = "1" ∨ t = "S" ∨ t = "F" ∨ startsWithT t = true) ∧
  (g.flatMap id).count "S" = 1 ∧ 1 ≤ (g.flatMap id).count "F" ∧
  (∀ t : Tile, startsWithT t = true →
    (g.flatMap id).count t = 0 ∨ (g.flatMap id).count t = 2)

/-- Total cost of a visiting order: the sum of the pairwise distances over
consecutive index pairs. -/
def pathCost (d : List (List Nat)) (order : List Nat) : Nat :=
  (order.zip order.tail).foldl (fun s ab => s + matGet d ab.1 ab.2) 0

/-- Strict lexicographic order on `(cost, index)` pairs, the order in which
the solver keeps dynamic-programming entries. -/
def entryLt (a b : Nat × Int) : Prop := a.1 < b.1 ∨ (a.1 = b.1 ∧ a.2 < b.2)

/-! ### Dictionary lemmas -/

theorem dget?_dset_self {α β : Type} [DecidableEq α] (m : List (α × β)) (a : α) (b : β) :
    dget? (dset m a b) a = some b := by
  induction m with
  | nil => simp [dset, dget?]
  | cons kv rest ih =>
    obtain ⟨k, v⟩ := kv
    by_cases h : k = a <;> simp [dset, dget?, h, ih]

theorem dget?_dset_ne {α β : Type} [DecidableEq α] (m : List (α × β)) (a a' : α) (b : β)
    (h : a' ≠ a) : dget? (dset m a b) a' = dget? m a' := by
  induction m with
  | nil => simp [dset, dget?, Ne.symm h]
  | cons kv rest ih =>
    obtain ⟨k, v⟩ := kv
    by_cases hk : k = a
    · have hka' : k ≠ a' := by rw [hk]; exact Ne.symm h
      simp [dset, dget?, hk, hka', Ne.symm h]
    · simp [dset, dget?, hk, ih]

theorem dget?_mem {α β : Type} [DecidableEq α] (m : List (α × β)) (a : α) (b : β)
    (h : dget? m a = some b) : (a, b) ∈ m := by
  induction m with
  | nil => simp [dget?] at h
  | cons kv rest ih =>
    obtain ⟨k, v⟩ := kv
    by_cases hk : k = a
    · subst hk
      simp [dget?] at h
      simp [h]
    · simp [dget?, hk] at h
      exact List.mem_cons_of_mem _ (ih h)

theorem mem_dset {α β : Type} [DecidableEq α] (m : List (α × β)) (a : α) (b : β) :
    ∀ e ∈ dset m a b, e = (a, b) ∨ e ∈ m := by
  induction m with
  | nil => simp [dset]
  | cons kv rest ih =>
    obtain ⟨k, v⟩ := kv
    intro e he
    by_cases hk : k = a
    · subst hk
      simp [dset] at he
      rcases he with he | he
      · exact Or.inl (by simp [he])
      · exact Or.inr (List.mem_cons_of_mem _ he)
    · simp [dset, hk] at he
      rcases he with he | he
      · exact Or.inr (by simp [he])
      · rcases ih e he with h | h
        · exact Or.inl h
        · exact Or.inr (List.mem_cons_of_mem _ h)

/-! ### Totalisation of `Option`-valued folds -/

theorem foldlM_option_total {α σ : Type} (f? : σ → α → Option σ) (f : σ → α → σ)
    (l : List α) (h : ∀ s : σ, ∀ a ∈ l, f? s a = some (f s a)) :
    ∀ s : σ, l.foldlM f? s = some (l.foldl f s) := by
  induction l with
  | nil => intro s; rfl
  | cons a rest ih =>
    intro s
    have ha := h s a (List.mem_cons_self _ _)
    simp only [List.foldlM, ha, Option.bind_eq_bind, Option.some_bind, List.foldl_cons]
    exact ih (fun s' a' ha' => h s' a' (List.mem_cons_of_mem _ ha')) (f s a)

/-! ### The grid scan, characterised -/

/-- Total cell access (used to characterise the scan on rectangular grids). -/
def cellAt (g : Grid) (rc : Nat × Nat) : Tile := (g.getD rc.1 []).getD rc.2 "0"

def posOf (rc : Nat × Nat) : Pos := ((rc.1 : Int), (rc.2 : Int))

/-- Scan-order positions of the cells holding tile `t`. -/
def occs (g : Grid) (l : List (Nat × Nat)) (t : Tile) : List Pos :=
  (l.filter (fun rc => decide (cellAt g rc = t))).map posOf

/-- The pure (`Option`-free) scan fold. -/
def scanFold (g : Grid) (l : List (Nat × Nat)) (st : KeyPoints) : KeyPoints :=
  l.foldl (fun st rc => scanCell st rc (cellAt g rc)) st

theorem mem_scanCells {g : Grid} {r c : Nat} :
    (r, c) ∈ scanCells g ↔ r < g.length ∧ c < (g.headD []).length := by
  simp only [scanCells, List.mem_flatMap, List.mem_map, List.mem_range]
  constructor
  · rintro ⟨r', hr', c', hc', heq⟩
    cases heq
    exact ⟨hr', hc'⟩
  · rintro ⟨h1, h2⟩
    exact ⟨r, h1, c, h2, rfl⟩

theorem cellAt?_eq_some {g : Grid} (hre : Rect g) {rc : Nat × Nat}
    (h : rc ∈ scanCells g) : cellAt? g rc = some (cellAt g rc) := by
  obtain ⟨r, c⟩ := rc
  rw [mem_scanCells] at h
  obtain ⟨hr, hc⟩ := h
  have hgr : g.getD r [] = g[r] := by
    simp [List.getD_eq_getElem?_getD, List.getElem?_eq_getElem hr]
  have hmem : g[r] ∈ g := List.getElem_mem hr
  have hlen : c < (g[r]).length := by rw [hre _ hmem]; exact hc
  have hrc : (g[r]).getD c "0" = (g[r])[c] := by
    simp [List.getD_eq_getElem?_getD, List.getElem?_eq_getElem hlen]
  simp [cellAt?, cellAt, hgr, hrc, List.get?_eq_getElem?,
    List.getElem?_eq_getElem hr, List.getElem?_eq_getElem hlen]

theorem occs_nil (g : Grid) (t : Tile) : occs g [] t = [] := rfl

theorem occs_cons (g : Grid) (rc : Nat × Nat) (l : List (Nat × Nat)) (t : Tile) :
    occs g (rc :: l) t =
      if cellAt g rc = t then posOf rc :: occs g l t else occs g l t := by
  simp only [occs, List.filter_cons]
  by_cases h : cellAt g rc = t <;> simp [h]

theorem scanFold_nil (g : Grid) (st : KeyPoints) : scanFold g [] st = st := rfl

theorem scanFold_cons (g : Grid) (rc : Nat × Nat) (l : List (Nat × Nat)) (st : KeyPoints) :
    scanFold g (rc :: l) st = scanFold g l (scanCell st rc (cellAt g rc)) := rfl

/-- What a single scan step does to each component, by cases on the tile. -/
theorem scanCell_cases (st : KeyPoints) (rc : Nat × Nat) (cell : Tile) :
    (cell = "S" ∧ scanCell st rc cell = { st with start := some (posOf rc) }) ∨
    (cell = "F" ∧ scanCell st rc cell = { st with flags := st.flags ++ [posOf rc] }) ∨
    (startsWithT cell = true ∧
      scanCell st rc cell = { st with teleports := addTeleport st.teleports cell (posOf rc) }) ∨
    (cell ≠ "S" ∧ cell ≠ "F" ∧ startsWithT cell = false ∧ scanCell st rc cell = st) := by
  by_cases hs : cell = "S"
  · exact Or.inl ⟨hs, by simp [scanCell, hs, posOf]⟩
  · by_cases hf : cell = "F"
    · refine Or.inr (Or.inl ⟨hf, ?_⟩)
      simp [scanCell, hs, hf, posOf]
    · by_cases ht : startsWithT cell = true
      · exact Or.inr (Or.inr (Or.inl ⟨ht, by simp [scanCell, hs, hf, ht, posOf]⟩))
      · exact Or.inr (Or.inr (Or.inr ⟨hs, hf, by simpa using ht,
          by simp [scanCell, hs, hf, ht]⟩))

/-- The flags component of the scan: the `"F"` positions in scan order. -/
theorem scanFold_flags (g : Grid) (l : List (Nat × Nat)) :
    ∀ st, (scanFold g l st).flags = st.flags ++ occs g l "F" := by
  induction l with
  | nil => intro st; simp [scanFold_nil, occs_nil]
  | cons rc l ih =>
    intro st
    rw [scanFold_cons, ih, occs_cons]
    rcases scanCell_cases st rc (cellAt g rc) with ⟨hc, he⟩ | ⟨hc, he⟩ | ⟨hc, he⟩ | ⟨h1, h2, h3, he⟩
    · rw [he]
      have : cellAt g rc ≠ "F" := by rw [hc]; decide
      simp [this]
    · rw [he, hc]
      simp
    · rw [he]
      have : cellAt g rc ≠ "F" := by
        intro h
        rw [h] at hc
        exact absurd hc (by decide)
      simp [this]
    · rw [he]
      simp [h2]

/-- The start component never goes from `some` back to `none`. -/
theorem scanFold_start_isSome (g : Grid) (l : List (Nat × Nat)) :
    ∀ st, st.start.isSome = true → (scanFold g l st).start.isSome = true := by
  induction l with
  | nil => intro st h; simpa [scanFold_nil] using h
  | cons rc l ih =>
    intro st h
    rw [scanFold_cons]
    rcases scanCell_cases st rc (cellAt g rc) with ⟨_, he⟩ | ⟨_, he⟩ | ⟨_, he⟩ | ⟨_, _, _, he⟩ <;>
      rw [he] <;> exact ih _ (by simp [h])

/-- If some scanned cell holds `"S"`, the scan ends with a start recorded. -/
theorem scanFold_start_of_occs (g : Grid) (l : List (Nat × Nat)) :
    ∀ st, occs g l "S" ≠ [] → (scanFold g l st).start.isSome = true := by
  induction l with
  | nil => intro st h; exact absurd (occs_nil g "S") h
  | cons rc l ih =>
    intro st h
    rw [scanFold_cons]
    rcases scanCell_cases st rc (cellAt g rc) with ⟨hc, he⟩ | ⟨hc, he⟩ | ⟨hc, he⟩ | ⟨h1, h2, h3, he⟩
    · rw [he]
      exact scanFold_start_isSome g l _ (by simp)
    · rw [occs_cons] at h
      have : cellAt g rc ≠ "S" := by rw [hc]; decide
      rw [he]
      exact ih _ (by simpa [this] using h)
    · rw [occs_cons] at h
      have : cellAt g rc ≠ "S" := by
        intro hx; rw [hx] at hc; exact absurd hc (by decide)
      rw [he]
      exact ih _ (by simpa [this] using h)
    · rw [occs_cons] at h
      rw [he]
      exact ih _ (by simpa [h1] using h)

/-- The recorded start, when present, is one of the scanned `"S"` positions
(or was already there before the fold). -/
theorem scanFold_start_mem (g : Grid) (l : List (Nat × Nat)) :
    ∀ st, (scanFold g l st).start = st.start ∨
      ∃ p ∈ occs g l "S", (scanFold g l st).start = some p := by
  induction l with
  | nil => intro st; exact Or.inl (by rw [scanFold_nil])
  | cons rc l ih =>
    intro st
    rw [scanFold_cons, occs_cons]
    rcases scanCell_cases st rc (cellAt g rc) with ⟨hc, he⟩ | ⟨hc, he⟩ | ⟨hc, he⟩ | ⟨h1, h2, h3, he⟩
    · rw [he, hc]
      rcases ih { st with start := some (posOf rc) } with h | ⟨p, hp, h⟩
      · exact Or.inr ⟨posOf rc, by simp, by simpa using h⟩
      · exact Or.inr ⟨p, by simp [hp], h⟩
    · have hns : cellAt g rc ≠ "S" := by rw [hc]; decide
      rw [he]
      rcases ih { st with flags := st.flags ++ [posOf rc] } with h | ⟨p, hp, h⟩
      · exact Or.inl (by simpa [hns] using h)
      · exact Or.inr ⟨p, by simp [hns, hp], h⟩
    · have hns : cellAt g rc ≠ "S" := by
        intro hx; rw [hx] at hc; exact absurd hc (by decide)
      rw [he]
      rcases ih { st with teleports := addTeleport st.teleports (cellAt g rc) (posOf rc) } with
        h | ⟨p, hp, h⟩
      · exact Or.inl (by simpa [hns] using h)
      · exact Or.inr ⟨p, by simp [hns, hp], h⟩
    · rw [he]
      rcases ih st with h | ⟨p, hp, h⟩
      · exact Or.inl (by simpa [h1] using h)
      · exact Or.inr ⟨p, by simp [h1, hp], h⟩

theorem dget?_addTeleport_self (m : List (Tile × List Pos)) (lbl : Tile) (p : Pos) :
    dget? (addTeleport m lbl p) lbl = some ((dget? m lbl).getD [] ++ [p]) := by
  induction m with
  | nil => simp [addTeleport, dget?]
  | cons kv rest ih =>
    obtain ⟨k, v⟩ := kv
    by_cases hk : k = lbl
    · simp [addTeleport, dget?, hk]
    · simp [addTeleport, dget?, hk, ih]

theorem dget?_addTeleport_ne (m : List (Tile × List Pos)) (lbl : Tile) (p : Pos) (t : Tile)
    (h : t ≠ lbl) : dget? (addTeleport m lbl p) t = dget? m t := by
  induction m with
  | nil => simp [addTeleport, dget?, Ne.symm h]
  | cons kv rest ih =>
    obtain ⟨k, v⟩ := kv
    by_cases hk : k = lbl
    · have hkt : k ≠ t := by rw [hk]; exact Ne.symm h
      simp [addTeleport, dget?, hk, hkt, Ne.symm h]
    · by_cases hkt : k = t <;> simp [addTeleport, dget?, hk, hkt, ih, h]

theorem mem_addTeleport (m : List (Tile × List Pos)) (lbl : Tile) (p : Pos) :
    ∀ e ∈ addTeleport m lbl p, (e.1 = lbl ∧ e.2 ≠ []) ∨ e ∈ m := by
  induction m with
  | nil =>
    intro e he
    simp [addTeleport] at he
    exact Or.inl (by simp [he])
  | cons kv rest ih =>
    obtain ⟨k, v⟩ := kv
    intro e he
    by_cases hk : k = lbl
    · simp [addTeleport, hk] at he
      rcases he with he | he
      · exact Or.inl (by simp [he, hk])
      · exact Or.inr (List.mem_cons_of_mem _ he)
    · simp [addTeleport, hk] at he
      rcases he with he | he
      · exact Or.inr (by simp [he])
      · rcases ih e he with h | h
        · exact Or.inl h
        · exact Or.inr (List.mem_cons_of_mem _ h)

theorem keys_addTeleport (m : List (Tile × List Pos)) (lbl : Tile) (p : Pos) :
    (addTeleport m lbl p).map Prod.fst = m.map Prod.fst ∨
      (addTeleport m lbl p).map Prod.fst = m.map Prod.fst ++ [lbl] := by
  induction m with
  | nil => exact Or.inr (by simp [addTeleport])
  | cons kv rest ih =>
    obtain ⟨k, v⟩ := kv
    by_cases hk : k = lbl
    · exact Or.inl (by simp [addTeleport, hk])
    · rcases ih with h | h
      · exact Or.inl (by simp [addTeleport, hk, h])
      · exact Or.inr (by simp [addTeleport, hk, h])

theorem dget?_eq_none_iff {α β : Type} [DecidableEq α] (m : List (α × β)) (a : α) :
    dget? m a = none ↔ a ∉ m.map Prod.fst := by
  induction m with
  | nil => simp [dget?]
  | cons kv rest ih =>
    obtain ⟨k, v⟩ := kv
    by_cases hk : k = a
    · simp [dget?, hk]
    · simp [dget?, hk, ih, Ne.symm hk]

theorem keys_addTeleport_mem (m : List (Tile × List Pos)) (lbl : Tile) (p : Pos) (ps : List Pos)
    (h : dget? m lbl = some ps) : (addTeleport m lbl p).map Prod.fst = m.map Prod.fst := by
  induction m with
  | nil => simp [dget?] at h
  | cons kv rest ih =>
    obtain ⟨k, v⟩ := kv
    by_cases hk : k = lbl
    · simp [addTeleport, hk]
    · simp only [dget?, if_neg hk] at h
      simp [addTeleport, hk, ih h]

theorem keys_addTeleport_notMem (m : List (Tile × List Pos)) (lbl : Tile) (p : Pos)
    (h : dget? m lbl = none) : (addTeleport m lbl p).map Prod.fst = m.map Prod.fst ++ [lbl] := by
  induction m with
  | nil => simp [addTeleport]
  | cons kv rest ih =>
    obtain ⟨k, v⟩ := kv
    by_cases hk : k = lbl
    · simp [dget?, hk] at h
    · simp only [dget?, if_neg hk] at h
      simp [addTeleport, hk, ih h]

/-- The teleport component of the scan, per teleport label: the scan appends
the label's occurrences in scan order to whatever was already recorded. -/
theorem scanFold_teleports_dget? (g : Grid) (l : List (Nat × Nat)) (t : Tile)
    (ht : startsWithT t = true) : ∀ st,
    dget? (scanFold g l st).teleports t =
      match dget? st.teleports t, occs g l t with
      | some ps, o => some (ps ++ o)
      | none, [] => none
      | none, o => some o := by
  induction l with
  | nil =>
    intro st
    rw [scanFold_nil, occs_nil]
    cases h : dget? st.teleports t <;> simp [h]
  | cons rc l ih =>
    intro st
    rw [scanFold_cons, occs_cons]
    rcases scanCell_cases st rc (cellAt g rc) with ⟨hc, he⟩ | ⟨hc, he⟩ | ⟨hc, he⟩ | ⟨h1, h2, h3, he⟩
    · have hne : cellAt g rc ≠ t := by
        rw [hc]; intro hx; rw [← hx] at ht; exact absurd ht (by decide)
      rw [he, if_neg hne]
      simpa using ih _
    · have hne : cellAt g rc ≠ t := by
        rw [hc]; intro hx; rw [← hx] at ht; exact absurd ht (by decide)
      rw [he, if_neg hne]
      simpa using ih _
    · by_cases hct : cellAt g rc = t
      · rw [he, if_pos hct, hct]
        have hih := ih { st with teleports := addTeleport st.teleports t (posOf rc) }
        simp only [KeyPoints.teleports] at hih ⊢
        rw [hih, dget?_addTeleport_self]
        cases hd : dget? st.teleports t <;> cases ho : occs g l t <;> simp [hd, ho]
      · rw [he, if_neg hct]
        have hih := ih { st with teleports := addTeleport st.teleports (cellAt g rc) (posOf rc) }
        simp only [KeyPoints.teleports] at hih ⊢
        rw [hih, dget?_addTeleport_ne _ _ _ _ (Ne.symm hct)]
    · have hne : cellAt g rc ≠ t := by
        intro hx; rw [hx, ht] at h3; exact absurd h3 (by decide)
      rw [he, if_neg hne]
      exact ih st

/-- Every recorded teleport entry has a `T`-label and a non-empty position list. -/
theorem scanFold_teleports_entries (g : Grid) (l : List (Nat × Nat)) :
    ∀ st, (∀ e ∈ st.teleports, startsWithT e.1 = true ∧ e.2 ≠ []) →
    ∀ e ∈ (scanFold g l st).teleports, startsWithT e.1 = true ∧ e.2 ≠ [] := by
  induction l with
  | nil => intro st h; rw [scanFold_nil]; exact h
  | cons rc l ih =>
    intro st h
    rw [scanFold_cons]
    rcases scanCell_cases st rc (cellAt g rc) with ⟨hc, he⟩ | ⟨hc, he⟩ | ⟨hc, he⟩ | ⟨_, _, _, he⟩ <;>
      rw [he]
    · exact ih _ (by simpa using h)
    · exact ih _ (by simpa using h)
    · refine ih _ ?_
      intro e he'
      simp only [KeyPoints.teleports] at he'
      rcases mem_addTeleport _ _ _ e he' with ⟨hl1, hl2⟩ | hm
      · exact ⟨hl1 ▸ hc, hl2⟩
      · exact h e hm
    · exact ih _ h

/-- The teleport label groups have pairwise distinct labels. -/
theorem scanFold_teleports_nodup (g : Grid) (l : List (Nat × Nat)) :
    ∀ st, ((st.teleports.map Prod.fst).Nodup) →
    (((scanFold g l st).teleports.map Prod.fst).Nodup) := by
  induction l with
  | nil => intro st h; rw [scanFold_nil]; exact h
  | cons rc l ih =>
    intro st h
    rw [scanFold_cons]
    rcases scanCell_cases st rc (cellAt g rc) with ⟨hc, he⟩ | ⟨hc, he⟩ | ⟨hc, he⟩ | ⟨_, _, _, he⟩ <;>
      rw [he]
    · exact ih _ (by simpa using h)
    · exact ih _ (by simpa using h)
    · refine ih _ ?_
      simp only [KeyPoints.teleports]
      cases hd : dget? st.teleports (cellAt g rc) with
      | some ps => rw [keys_addTeleport_mem _ _ _ _ hd]; exact h
      | none =>
        rw [keys_addTeleport_notMem _ _ _ hd]
        rw [List.nodup_append]
        refine ⟨h, List.nodup_singleton _, ?_⟩
        intro a ha hb
        rw [List.mem_singleton] at hb
        subst hb
        exact absurd hd ((dget?_eq_none_iff _ _).not.mpr (by simpa using ha))
    · exact ih _ h

/-- If keys are distinct, membership determines the lookup. -/
theorem dget?_of_mem_nodup {α β : Type} [DecidableEq α] (m : List (α × β))
    (h : (m.map Prod.fst).Nodup) (e : α × β) (he : e ∈ m) : dget? m e.1 = some e.2 := by
  induction m with
  | nil => simp at he
  | cons kv rest ih =>
    obtain ⟨k, v⟩ := kv
    simp only [List.map_cons, List.nodup_cons] at h
    rcases List.mem_cons.mp he with rfl | hm
    · simp [dget?]
    · have hk : k ≠ e.1 := by
        intro hx
        exact h.1 (hx ▸ List.mem_map_of_mem Prod.fst hm)
      simp only [dget?, if_neg hk]
      exact ih h.2 hm

/-- If some group has a bad length, the partner-map loop raises for one of the
bad labels (the first such group). -/
theorem tpLoop_error_of_bad (tps : List (Tile × List Pos)) :
    ∀ acc, (∃ e ∈ tps, e.2.length ≠ 2) →
    ∃ e ∈ tps, e.2.length ≠ 2 ∧ tpLoop tps acc = .error (.malformedTeleport e.1) := by
  induction tps with
  | nil => rintro acc ⟨e, he, _⟩; simp at he
  | cons lp rest ih =>
    rintro acc ⟨e, he, hlen⟩
    obtain ⟨lbl, ps⟩ := lp
    match hps : ps with
    | [a, b] =>
      have hbad : ∃ x ∈ rest, x.2.length ≠ 2 := by
        rcases List.mem_cons.mp he with rfl | hm
        · subst hps
          exact absurd rfl hlen
        · exact ⟨e, hm, hlen⟩
      obtain ⟨e', he', hlen', herr⟩ := ih _ hbad
      exact ⟨e', List.mem_cons_of_mem _ he', hlen', by simpa [tpLoop] using herr⟩
    | [] => exact ⟨(lbl, []), by simp, by simp, by simp [tpLoop]⟩
    | [a] => exact ⟨(lbl, [a]), by simp, by simp, by simp [tpLoop]⟩
    | a :: b :: c :: ps' =>
      exact ⟨(lbl, a :: b :: c :: ps'), by simp, by simp, by simp [tpLoop]⟩

/-- If every group has exactly two positions, the partner-map loop succeeds. -/
theorem tpLoop_ok_of_good (tps : List (Tile × List Pos)) :
    ∀ acc, (∀ e ∈ tps, e.2.length = 2) → ∃ m, tpLoop tps acc = .ok m := by
  induction tps with
  | nil => intro acc _; exact ⟨acc, rfl⟩
  | cons lp rest ih =>
    intro acc h
    obtain ⟨lbl, ps⟩ := lp
    have h2 : ps.length = 2 := by simpa using h (lbl, ps) (by simp)
    match ps, h2 with
    | [a, b], _ =>
      obtain ⟨m, hm⟩ := ih (dset (dset acc a b) b a)
        (fun e he => h e (List.mem_cons_of_mem _ he))
      exact ⟨m, by simpa [tpLoop] using hm⟩

/-- On a rectangular grid the key-point extraction is the pure scan fold. -/
theorem find_key_points_eq (g : Grid) (hre : Rect g) :
    _find_key_points g =
      some (match (scanFold g (scanCells g) ⟨none, [], []⟩).start with
        | none => .error .missingStart
        | some s => .ok (s, (scanFold g (scanCells g) ⟨none, [], []⟩).flags,
            (scanFold g (scanCells g) ⟨none, [], []⟩).teleports)) := by
  unfold _find_key_points
  rw [foldlM_option_total _ (fun st rc => scanCell st rc (cellAt g rc)) _
    (fun s rc hrc => by rw [cellAt?_eq_some hre hrc]; rfl)]
  simp only [scanFold]
  cases h : (List.foldl (fun st rc => scanCell st rc (cellAt g rc))
      (⟨none, [], []⟩ : KeyPoints) (scanCells g)).start <;> simp [h]

/-! ### Tile counts versus scan occurrences -/

theorem map_getD_range {α : Type} (l : List α) (d : α) :
    (List.range l.length).map (fun i => l.getD i d) = l := by
  induction l with
  | nil => rfl
  | cons a l ih =>
    rw [List.length_cons, List.range_succ_eq_map, List.map_cons, List.map_map,
      List.getD_cons_zero]
    have h2 : List.map ((fun i => (a :: l).getD i d) ∘ Nat.succ) (List.range l.length)
        = List.map (fun i => l.getD i d) (List.range l.length) :=
      List.map_congr_left (fun i _ => by simp [Function.comp, List.getD_cons_succ])
    rw [h2, ih]

theorem flatMap_id_eq_range (g : Grid) :
    g.flatMap id = (List.range g.length).flatMap (fun r => g.getD r []) := by
  induction g with
  | nil => rfl
  | cons row rest ih =>
    rw [List.length_cons, List.range_succ_eq_map, List.flatMap_cons, List.flatMap_cons]
    rw [List.flatMap_map]
    simp only [Function.comp, List.getD_cons_succ, List.getD_cons_zero, id]
    rw [ih]

/-- On a rectangular grid, reading every scanned cell yields exactly the
flattened grid. -/
theorem map_cellAt_scanCells (g : Grid) (hre : Rect g) :
    (scanCells g).map (cellAt g) = g.flatMap id := by
  rw [flatMap_id_eq_range]
  unfold scanCells
  rw [List.map_flatMap]
  refine List.flatMap_congr ?_
  intro r hr
  rw [List.mem_range] at hr
  rw [List.map_map]
  have hmem : g.getD r [] ∈ g := by
    have : g.getD r [] = g[r] := by
      simp [List.getD_eq_getElem?_getD, List.getElem?_eq_getElem hr]
    rw [this]
    exact List.getElem_mem hr
  have hlen : (g.headD []).length = (g.getD r []).length := (hre _ hmem).symm
  rw [hlen]
  have h2 : List.map (cellAt g ∘ fun c => (r, c)) (List.range (g.getD r []).length)
      = List.map (fun i => (g.getD r []).getD i "0") (List.range (g.getD r []).length) :=
    List.map_congr_left (fun c _ => by simp [Function.comp, cellAt])
  rw [h2, map_getD_range]

/-- Tile count in the grid equals the number of scan occurrences. -/
theorem count_eq_occs_length (g : Grid) (hre : Rect g) (t : Tile) :
    (g.flatMap id).count t = (occs g (scanCells g) t).length := by
  rw [← map_cellAt_scanCells g hre, occs, List.length_map, List.count, List.countP_map,
    List.countP_eq_length_filter]
  have h3 : List.filter ((fun x => x == t) ∘ cellAt g) (scanCells g)
      = List.filter (fun rc => decide (cellAt g rc = t)) (scanCells g) :=
    List.filter_congr (fun rc _ => by
      show (cellAt g rc == t) = decide (cellAt g rc = t)
      by_cases h : cellAt g rc = t
      · rw [h]
        simp
      · simp [h])
  rw [h3]

/-! ### Claim C7 -/

/-- C7: on a rectangular grid containing a start cell, if some teleport label
occurs a number of times other than exactly two, `Solve` fails during
extraction with the MalformedTeleport condition identifying an offending
label (the first offending label in scan order); the `Except` short-circuit
of the pipeline means the path computation is never reached. -/
theorem C7_malformed_teleport (g : Grid) (hre : Rect g)
    (hs : (g.flatMap id).count "S" ≠ 0)
    (t : Tile) (ht : startsWithT t = true)
    (hc2 : (g.flatMap id).count t ≠ 2) (hc0 : (g.flatMap id).count t ≠ 0) :
    ∃ lbl : Tile, startsWithT lbl = true ∧
      (g.flatMap id).count lbl ≠ 2 ∧ (g.flatMap id).count lbl ≠ 0 ∧
      solve_grid_to_moves g = some (.error (.malformedTeleport lbl)) := by
  obtain ⟨st, hstdef⟩ : ∃ st, scanFold g (scanCells g) ⟨none, [], []⟩ = st := ⟨_, rfl⟩
  have hOccS : occs g (scanCells g) "S" ≠ [] := by
    intro hx
    apply hs
    rw [count_eq_occs_length g hre, hx]
    rfl
  have hstart : st.start.isSome = true := by
    have h1 := scanFold_start_of_occs g (scanCells g) ⟨none, [], []⟩ hOccS
    rwa [hstdef] at h1
  obtain ⟨s, hsome⟩ := Option.isSome_iff_exists.mp hstart
  have hfk : _find_key_points g = some (.ok (s, st.flags, st.teleports)) := by
    rw [find_key_points_eq g hre, hstdef, hsome]
  have hocc_t : dget? st.teleports t = some (occs g (scanCells g) t) := by
    have h2 := scanFold_teleports_dget? g (scanCells g) t ht ⟨none, [], []⟩
    rw [hstdef] at h2
    cases ho : occs g (scanCells g) t with
    | nil =>
      exfalso
      apply hc0
      rw [count_eq_occs_length g hre, ho]
      rfl
    | cons x xs =>
      rw [ho] at h2
      simpa [dget?] using h2
  have hmem_t : (t, occs g (scanCells g) t) ∈ st.teleports := dget?_mem _ _ _ hocc_t
  have hlen_t : (occs g (scanCells g) t).length ≠ 2 := by
    rw [← count_eq_occs_length g hre]
    exact hc2
  obtain ⟨e, hemem, helen, herr⟩ := tpLoop_error_of_bad st.teleports []
    ⟨(t, occs g (scanCells g) t), hmem_t, hlen_t⟩
  have hent : startsWithT e.1 = true ∧ e.2 ≠ [] := by
    have h3 := scanFold_teleports_entries g (scanCells g) ⟨none, [], []⟩ (by simp)
    rw [hstdef] at h3
    exact h3 e hemem
  have hnodup : (st.teleports.map Prod.fst).Nodup := by
    have h4 := scanFold_teleports_nodup g (scanCells g) ⟨none, [], []⟩ (by simp)
    rwa [hstdef] at h4
  have hge : dget? st.teleports e.1 = some e.2 := dget?_of_mem_nodup _ hnodup e hemem
  have hocc_e : e.2 = occs g (scanCells g) e.1 := by
    have h5 := scanFold_teleports_dget? g (scanCells g) e.1 hent.1 ⟨none, [], []⟩
    rw [hstdef, hge] at h5
    cases ho : occs g (scanCells g) e.1 with
    | nil =>
      rw [ho] at h5
      simp [dget?] at h5
    | cons x xs =>
      rw [ho] at h5
      simpa [dget?] using h5
  refine ⟨e.1, hent.1, ?_, ?_, ?_⟩
  · rw [count_eq_occs_length g hre, ← hocc_e]
    exact helen
  · rw [count_eq_occs_length g hre, ← hocc_e]
    intro hx
    exact hent.2 (List.length_eq_zero.mp hx)
  · have hmap : _teleport_partner_map st.teleports = .error (.malformedTeleport e.1) := herr
    unfold solve_grid_to_moves
    rw [hfk]
    simp only [hmap]

/-- C5 (counterexample): on the symmetric distance matrix
`[[0,1,1],[1,0,1],[1,1,0]]` both complete visiting orders `[0,1,2]` and
`[0,2,1]` have total cost 2, yet the solver returns `[0,2,1]`, not the
lexicographically/index-smaller order `[0,1,2]` (the two orders first differ
at position 1, where `[0,1,2]` has the smaller index).  So on a tie between
two complete visiting orders the solver does not always return the
lexicographically smaller one, contrary to the claim. -/
theorem C5_counterexample :
    _held_karp_tsp [[0, 1, 1], [1, 0, 1], [1, 1, 0]] =
      some (.ok (2, [0, 2, 1])) ∧
    pathCost [[0, 1, 1], [1, 0, 1], [1, 1, 0]] [0, 1, 2] = 2 ∧
    pathCost [[0, 1, 1], [1, 0, 1], [1, 1, 0]] [0, 2, 1] = 2 ∧
    ([0, 1, 2] : List Nat).Perm (List.range 3) ∧
    ([0, 1, 2] : List Nat).headD 9 = 0 ∧
    ([0, 1, 2] : List Nat) ≠ [0, 2, 1] ∧
    ([0, 1, 2] : List Nat).getD 0 9 = ([0, 2, 1] : List Nat).getD 0 9 ∧
    ([0, 1, 2] : List Nat).getD 1 9 < ([0, 2, 1] : List Nat).getD 1 9 := by
  refine ⟨by rfl, by decide, by decide, by decide, by decide, by decide, by decide, by decide⟩

/-- C9 (counterexample): the grid `[["S","T1"]]` contains a start cell and no
flag cell, yet `Solve` does not raise the Infeasible condition: the malformed
teleport label `"T1"` (appearing once) is detected first and `Solve` raises
MalformedTeleport instead. -/
theorem C9_counterexample :
    _find_key_points [["S", "T1"]] =
      some (.ok (((0 : Int), (0 : Int)), [],
        [("T1", [((0 : Int), (1 : Int))])])) ∧
    solve_grid_to_moves [["S", "T1"]] = some (.error (.malformedTeleport "T1")) ∧
    (SolveErr.malformedTeleport "T1") ≠ SolveErr.infeasible := by
  refine ⟨by rfl, by rfl, by decide⟩

/-- C7 (witness): the 1×2 grid `[["S","T1"]]` has a start and a teleport label
`"T1"` occurring once; `Solve` raises MalformedTeleport naming it. -/
theorem C7_malformed_teleport_witness :
    ∃ lbl : Tile, startsWithT lbl = true ∧
      (([["S", "T1"]] : Grid).flatMap id).count lbl ≠ 2 ∧
      (([["S", "T1"]] : Grid).flatMap id).count lbl ≠ 0 ∧
      solve_grid_to_moves [["S", "T1"]] = some (.error (.malformedTeleport lbl)) :=
  C7_malformed_teleport [["S", "T1"]] (by unfold Rect; decide) (by decide) "T1"
    (by decide) (by decide) (by decide)

/-! ### Claim C5, amended -/

/-- Non-strict lexicographic order on the `(cost, end index)` accumulator of
the final selection loop. -/
def bestLe (a b : Nat × Nat) : Prop := a.1 < b.1 ∨ (a.1 = b.1 ∧ a.2 ≤ b.2)

theorem bestLe_rfl (a : Nat × Nat) : bestLe a a := Or.inr ⟨rfl, Nat.le_refl _⟩

theorem bestLe_trans {a b c : Nat × Nat} (h1 : bestLe a b) (h2 : bestLe b c) : bestLe a c := by
  rcases h1 with h1 | ⟨h1, h1'⟩ <;> rcases h2 with h2 | ⟨h2, h2'⟩
  · exact Or.inl (h1.trans h2)
  · exact Or.inl (h2 ▸ h1)
  · exact Or.inl (h1 ▸ h2)
  · exact Or.inr ⟨h1.trans h2, h1'.trans h2'⟩

theorem hkBestStep_le (dp : DPTable) (full : Nat) (be : Nat × Nat) (j : Nat) :
    bestLe (hkBestStep dp full be j) be := by
  unfold hkBestStep
  by_cases h0 : j = 0
  · simp [h0]
    exact bestLe_rfl be
  · simp only [h0, if_false]
    cases h : dpGetEntry dp full j with
    | none => exact bestLe_rfl be
    | some cj =>
      by_cases hlt : cj.1 < be.1 ∨ (cj.1 = be.1 ∧ j < be.2)
      · simp only [if_pos hlt]
        rcases hlt with hlt | ⟨he, hj⟩
        · exact Or.inl hlt
        · exact Or.inr ⟨he, Nat.le_of_lt hj⟩
      · simp only [if_neg hlt]
        exact bestLe_rfl be

theorem hkBest_fold_le (dp : DPTable) (full : Nat) (l : List Nat) :
    ∀ be : Nat × Nat, bestLe (l.foldl (hkBestStep dp full) be) be := by
  induction l with
  | nil => intro be; exact bestLe_rfl be
  | cons j l ih =>
    intro be
    rw [List.foldl_cons]
    exact bestLe_trans (ih _) (hkBestStep_le dp full be j)

theorem hkBest_fold_min (dp : DPTable) (full : Nat) (l : List Nat) :
    ∀ be : Nat × Nat, ∀ j ∈ l, j ≠ 0 → ∀ cp : Nat × Int,
      dpGetEntry dp full j = some cp →
      bestLe (l.foldl (hkBestStep dp full) be) (cp.1, j) := by
  induction l with
  | nil => intro be j hj; simp at hj
  | cons a l ih =>
    intro be j hj hj0 cp hcp
    rw [List.foldl_cons]
    rcases List.mem_cons.mp hj with rfl | hmem
    · refine bestLe_trans (hkBest_fold_le dp full l _) ?_
      unfold hkBestStep
      simp only [hj0, if_false]
      rw [hcp]
      by_cases hlt : cp.1 < be.1 ∨ (cp.1 = be.1 ∧ j < be.2)
      · simp only [if_pos hlt]
        exact bestLe_rfl _
      · simp only [if_neg hlt]
        push_neg at hlt
        rcases Nat.lt_or_ge be.1 cp.1 with h | h
        · exact Or.inl h
        · have he : be.1 = cp.1 := Nat.le_antisymm hlt.1 h
          exact Or.inr ⟨he, hlt.2 he.symm⟩
    · exact ih _ j hmem hj0 cp hcp

/-- C5 (amended): the solver's tie-breaking is deterministic and
index-minimal at each dynamic-programming choice point: a recorded entry is
replaced by a candidate `(cand, j)` exactly when the candidate is
lexicographically smaller in `(cost, predecessor index)` — so on an exact
cost tie the smaller predecessor index is kept — and the final end-state
selection returns a `(cost, end index)` pair lexicographically no larger than
any recorded full-coverage state with nonzero index — so on a cost tie the
smaller end index is chosen.  Being a pure function of the matrix, the choice
is identical on every run.  The complete visiting order is reconstructed
backward through these local choices and is NOT always the lexicographically
smallest equal-cost order (see the counterexample theorem). -/
theorem C5_tie_breaking :
    (∀ (ev : Nat × Int) (cand : Nat) (j : Nat),
      hkBetter (some ev) cand j = true ↔ entryLt (cand, (j : Int)) ev) ∧
    (∀ (dp : DPTable) (n : Nat) (j : Nat), j ≠ 0 → j < n →
      ∀ cp : Nat × Int, dpGetEntry dp ((1 <<< n) - 1) j = some cp →
        (hkBest dp n).1 < cp.1 ∨ ((hkBest dp n).1 = cp.1 ∧ (hkBest dp n).2 ≤ j)) := by
  constructor
  · intro ev cand j
    simp [hkBetter, entryLt]
  · intro dp n j hj0 hjn cp hcp
    exact hkBest_fold_min dp ((1 <<< n) - 1) (List.range n) (INF, n) j
      (List.mem_range.mpr hjn) hj0 cp hcp

/-- C5 (witness): the tie-breaking theorem applied at concrete inputs: a
candidate with equal cost 2 and smaller index 1 beats the entry `(2, 2)`, and
on the table with single full-coverage entry `(5, 0)` at index 1 the selected
pair is lexicographically no larger than `(5, 1)`. -/
theorem C5_tie_breaking_witness :
    (hkBetter (some ((2 : Nat), (2 : Int))) 2 1 = true ↔
      entryLt (2, (1 : Int)) ((2 : Nat), (2 : Int))) ∧
    ((hkBest [[], [], [], [none, some (5, 0)]] 2).1 < 5 ∨
      ((hkBest [[], [], [], [none, some (5, 0)]] 2).1 = 5 ∧
        (hkBest [[], [], [], [none, some (5, 0)]] 2).2 ≤ 1)) :=
  ⟨C5_tie_breaking.1 (2, 2) 2 1,
    C5_tie_breaking.2 [[], [], [], [none, some (5, 0)]] 2 1 (by decide) (by decide)
      (5, 0) (by rfl)⟩

/-! ### The teleport-folded move model (claim side) -/

/-- Total tile access at an integer position (out of range reads as blocked,
a case never exercised behind the bounds guard). -/
def tileAtP (g : Grid) (p : Pos) : Tile := (g.getD p.1.toNat []).getD p.2.toNat "0"

/-- The landing position of a physical step onto position `p`: `none` when the
target is out of bounds or blocked, else the teleport partner when `p` holds a
paired teleport tile, else `p` itself — exactly the neighbour handling of
`_zero_one_bfs`. -/
def landAt (g : Grid) (partner : List (Pos × Pos)) (p : Pos) : Option Pos :=
  if _in_bounds p.1 p.2 g && _is_drivable (tileAtP g p) then
    some (if startsWithT (tileAtP g p) = true then
      match dget? partner p with
      | some q => q
      | none => p
    else p)
  else none

/-- One unit-cost move of the teleport-folded model. -/
def FStep (g : Grid) (partner : List (Pos × Pos)) (p q : Pos) : Prop :=
  ∃ d ∈ dirs, landAt g partner (p.1 + d.1, p.2 + d.2.1) = some q

/-- A folded path of a given length. -/
inductive FPathN (g : Grid) (partner : List (Pos × Pos)) : Pos → Pos → Nat → Prop
  | refl (p : Pos) : FPathN g partner p p 0
  | step {p q r : Pos} {n : Nat} (h : FStep g partner p q)
      (hp : FPathN g partner q r n) : FPathN g partner p r (n + 1)

/-- Reachability in the teleport-folded model. -/
def FReach (g : Grid) (partner : List (Pos × Pos)) (p q : Pos) : Prop :=
  ∃ n, FPathN g partner p q n

theorem FPathN_snoc {g : Grid} {partner : List (Pos × Pos)} {p q r : Pos} {n : Nat}
    (h : FPathN g partner p q n) (hs : FStep g partner q r) :
    FPathN g partner p r (n + 1) := by
  induction h with
  | refl p => exact FPathN.step hs (FPathN.refl r)
  | step h1 _ ih => exact FPathN.step h1 (ih hs)

theorem FPathN.zero_eq {g : Grid} {partner : List (Pos × Pos)} {p q : Pos}
    (h : FPathN g partner p q 0) : p = q := by
  cases h
  rfl

/-! ### Bridges between the `Option`-level BFS and the folded model -/

theorem _in_bounds_iff {r c : Int} {g : Grid} :
    _in_bounds r c g = true ↔
      0 ≤ r ∧ r < (g.length : Int) ∧ 0 ≤ c ∧ c < ((g.headD []).length : Int) := by
  simp [_in_bounds, and_assoc]

theorem startsWithT_drivable {t : Tile} (h : startsWithT t = true) :
    _is_drivable t = true := by
  by_contra hx
  have : t = "0" := by
    simpa [_is_drivable] using hx
  rw [this] at h
  exact absurd h (by decide)

theorem cellAt?_of_inBounds {g : Grid} (hre : Rect g) {vr vc : Int}
    (h : _in_bounds vr vc g = true) :
    cellAt? g (vr.toNat, vc.toNat) = some (tileAtP g (vr, vc)) := by
  obtain ⟨h1, h2, h3, h4⟩ := _in_bounds_iff.mp h
  have hr : vr.toNat < g.length := by
    omega
  have hc : vc.toNat < (g.headD []).length := by
    omega
  have := cellAt?_eq_some hre (mem_scanCells.mpr ⟨hr, hc⟩)
  rw [this]
  rfl

/-- The relaxation step, rephrased through the folded-model landing map. -/
theorem bfsRelax_eq (g : Grid) (partner : List (Pos × Pos)) (hre : Rect g) (u : Pos)
    (d : Int × Int × Char) (dist : List (Pos × Nat)) (parent : List (Pos × (Pos × Char)))
    (q : List Pos) :
    bfsRelax g partner u (dist, parent, q) d =
      match landAt g partner (u.1 + d.1, u.2 + d.2.1) with
      | none => some (dist, parent, q)
      | some v =>
        match dget? dist u, dget? dist v with
        | some du, some dv =>
          if du + 1 < dv then
            some (dset dist v (du + 1), dset parent v (u, d.2.2), q ++ [v])
          else some (dist, parent, q)
        | _, _ => none := by
  by_cases hib : _in_bounds (u.1 + d.1) (u.2 + d.2.1) g = true
  · by_cases hdr : _is_drivable (tileAtP g (u.1 + d.1, u.2 + d.2.1)) = true
    · simp only [bfsRelax, landAt, hib, hdr, cellAt?_of_inBounds hre hib,
        Bool.and_self, Bool.true_and, if_true]
    · simp only [bfsRelax, landAt, hib, hdr, cellAt?_of_inBounds hre hib,
        Bool.true_and, Bool.false_eq_true, if_false, if_true]
  · simp only [bfsRelax, landAt, hib, Bool.false_and, Bool.false_eq_true, if_false]

/-! ### The breadth-first loop invariant -/

/-- Direction `d`'s relaxation of `p` is complete in `dist`. -/
def Relaxed (g : Grid) (partner : List (Pos × Pos)) (dist : List (Pos × Nat))
    (p : Pos) (d : Int × Int × Char) : Prop :=
  ∀ dp, dget? dist p = some dp → ∀ w, landAt g partner (p.1 + d.1, p.2 + d.2.1) = some w →
    ∃ dw, dget? dist w = some dw ∧ dw ≤ dp + 1

/-- All teleport-partner targets are in-bounds drivable cells. -/
def PartnerWF (g : Grid) (partner : List (Pos × Pos)) : Prop :=
  ∀ a b : Pos, dget? partner a = some b →
    _in_bounds b.1 b.2 g = true ∧ _is_drivable (tileAtP g b) = true

/-- The distance/parent part of the loop invariant of `_zero_one_bfs`. -/
structure DistInv (g : Grid) (partner : List (Pos × Pos)) (src : Pos)
    (dist : List (Pos × Nat)) (parent : List (Pos × (Pos × Char))) : Prop where
  src0 : dget? dist src = some 0
  keys : ∀ p : Pos, (dget? dist p).isSome = true ↔
    ((_in_bounds p.1 p.2 g = true ∧ _is_drivable (tileAtP g p) = true) ∨ p = src)
  sound : ∀ p dp, dget? dist p = some dp → dp = INF ∨ (dp < INF ∧ FPathN g partner src p dp)
  par : ∀ p pm, dget? parent p = some pm →
    ∃ dp du, dget? dist p = some dp ∧ dget? dist pm.1 = some du ∧ du < dp ∧ dp < INF ∧
      ∃ d ∈ dirs, d.2.2 = pm.2 ∧ landAt g partner (pm.1.1 + d.1, pm.1.2 + d.2.1) = some p
  fin_parent : ∀ p dp, dget? dist p = some dp → dp < INF → p ≠ src →
    (dget? parent p).isSome = true

/-- Every queue member has a finite recorded distance. -/
def QFin (dist : List (Pos × Nat)) (q : List Pos) : Prop :=
  ∀ p ∈ q, ∃ dp, dget? dist p = some dp ∧ dp < INF

/-- Every finite entry is queued or fully relaxed, except that the vertex `u`
currently being expanded may only be relaxed for the directions in `done`. -/
def FixExcept (g : Grid) (partner : List (Pos × Pos)) (dist : List (Pos × Nat))
    (q : List Pos) (u : Pos) (done : List (Int × Int × Char)) : Prop :=
  ∀ p dp, dget? dist p = some dp → dp < INF →
    p ∈ q ∨ (p = u ∧ ∀ d ∈ done, Relaxed g partner dist u d) ∨
    (p ≠ u ∧ ∀ d ∈ dirs, Relaxed g partner dist p d)

/-- Every finite entry is queued or fully relaxed (the between-iterations form). -/
def FixAll (g : Grid) (partner : List (Pos × Pos)) (dist : List (Pos × Nat))
    (q : List Pos) : Prop :=
  ∀ p dp, dget? dist p = some dp → dp < INF →
    p ∈ q ∨ ∀ d ∈ dirs, Relaxed g partner dist p d

/-- The sum of all recorded distances, the termination measure of the loop. -/
def distSum (dist : List (Pos × Nat)) : Nat := (dist.map Prod.snd).sum

theorem dget?_dset {α β : Type} [DecidableEq α] (m : List (α × β)) (a x : α) (b : β) :
    dget? (dset m a b) x = if x = a then some b else dget? m x := by
  by_cases h : x = a
  · rw [if_pos h, h, dget?_dset_self]
  · rw [if_neg h, dget?_dset_ne m a x b h]

theorem isSome_dset {α β : Type} [DecidableEq α] (m : List (α × β)) (a x : α) (b : β)
    (ha : (dget? m a).isSome = true) :
    (dget? (dset m a b) x).isSome = (dget? m x).isSome := by
  rw [dget?_dset]
  by_cases h : x = a
  · rw [if_pos h, h]
    simp [ha]
  · rw [if_neg h]

theorem distSum_dset_lt (m : List (Pos × Nat)) (a : Pos) (b old : Nat)
    (ha : dget? m a = some old) (hb : b < old) : distSum (dset m a b) < distSum m := by
  induction m with
  | nil => simp [dget?] at ha
  | cons kv rest ih =>
    obtain ⟨k, v⟩ := kv
    by_cases h : k = a
    · rw [h] at ha ⊢
      simp only [dget?, if_pos rfl] at ha
      cases ha
      simp only [dset, if_pos rfl, distSum, List.map_cons, List.sum_cons]
      exact Nat.add_lt_add_right hb _
    · simp only [dget?, if_neg h] at ha
      simp only [dset, if_neg h, distSum, List.map_cons, List.sum_cons]
      exact Nat.add_lt_add_left (ih ha) v

theorem landAt_inv {g : Grid} {partner : List (Pos × Pos)} (hpw : PartnerWF g partner)
    {p v : Pos} (h : landAt g partner p = some v) :
    _in_bounds v.1 v.2 g = true ∧ _is_drivable (tileAtP g v) = true := by
  unfold landAt at h
  by_cases hc : (_in_bounds p.1 p.2 g && _is_drivable (tileAtP g p)) = true
  · rw [if_pos hc, Option.some_inj] at h
    have hb := Bool.and_eq_true_iff.mp hc
    by_cases ht : startsWithT (tileAtP g p) = true
    · rw [if_pos ht] at h
      cases hpp : dget? partner p with
      | some b =>
        rw [hpp] at h
        have h' : b = v := h
        exact h' ▸ hpw p b hpp
      | none =>
        rw [hpp] at h
        have h' : p = v := h
        exact h' ▸ hb
    · rw [if_neg ht] at h
      exact h ▸ hb
  · rw [if_neg hc] at h
    exact absurd h (by simp)

/-- Invariant preservation and progress across one relaxation attempt. -/
theorem bfsRelax_step {g : Grid} {partner : List (Pos × Pos)} {src : Pos}
    (hre : Rect g) (hpw : PartnerWF g partner)
    (u : Pos) (d : Int × Int × Char) (hd : d ∈ dirs)
    (dist : List (Pos × Nat)) (parent : List (Pos × (Pos × Char))) (q : List Pos)
    (done : List (Int × Int × Char))
    (hinv : DistInv g partner src dist parent)
    (hq : QFin dist q)
    (hufin : ∃ du, dget? dist u = some du ∧ du < INF)
    (hfix : FixExcept g partner dist q u done) :
    ∃ dist' parent' q',
      bfsRelax g partner u (dist, parent, q) d = some (dist', parent', q') ∧
      DistInv g partner src dist' parent' ∧ QFin dist' q' ∧
      (∃ du, dget? dist' u = some du ∧ du < INF) ∧
      FixExcept g partner dist' q' u (done ++ [d]) ∧
      ((dist' = dist ∧ parent' = parent ∧ q' = q) ∨
        (distSum dist' < distSum dist ∧ ∃ v, q' = q ++ [v])) := by
  rw [bfsRelax_eq g partner hre u d dist parent q]
  cases hl : landAt g partner (u.1 + d.1, u.2 + d.2.1) with
  | none =>
    refine ⟨dist, parent, q, rfl, hinv, hq, hufin, ?_, Or.inl ⟨rfl, rfl, rfl⟩⟩
    intro p dp hdp hfin
    rcases hfix p dp hdp hfin with hin | ⟨hpu, hrel⟩ | hother
    · exact Or.inl hin
    · refine Or.inr (Or.inl ⟨hpu, ?_⟩)
      intro d' hd'
      rcases List.mem_append.mp hd' with hd' | hd'
      · exact hrel d' hd'
      · rw [List.mem_singleton] at hd'
        subst hd'
        intro dp0 _ w hw
        rw [hw] at hl
        exact absurd hl (by simp)
    · exact Or.inr (Or.inr hother)
  | some v =>
    obtain ⟨du, hdu, hduf⟩ := hufin
    have hvkeys : (dget? dist v).isSome = true :=
      (hinv.keys v).mpr (Or.inl (landAt_inv hpw hl))
    obtain ⟨dv, hdv⟩ := Option.isSome_iff_exists.mp hvkeys
    simp only [hdu, hdv]
    by_cases hlt : du + 1 < dv
    · rw [if_pos hlt]
      have hvne_u : v ≠ u := by
        intro hx
        rw [hx, hdu] at hdv
        cases hdv
        omega
      have hvne_src : v ≠ src := by
        intro hx
        rw [hx, hinv.src0] at hdv
        cases hdv
        omega
      have hdvle : dv ≤ INF := by
        rcases hinv.sound v dv hdv with h | ⟨h, _⟩
        · omega
        · omega
      have hduf1 : du + 1 < INF := by omega
      have hpath : FPathN g partner src v (du + 1) := by
        rcases hinv.sound u du hdu with h | ⟨_, hp⟩
        · omega
        · exact FPathN_snoc hp ⟨d, hd, hl⟩
      have hval : ∀ p dp', dget? (dset dist v (du + 1)) p = some dp' →
          (p = v ∧ dp' = du + 1) ∨ (p ≠ v ∧ dget? dist p = some dp') := by
        intro p dp' hp
        rw [dget?_dset] at hp
        by_cases hpv : p = v
        · rw [if_pos hpv] at hp
          cases hp
          exact Or.inl ⟨hpv, rfl⟩
        · rw [if_neg hpv] at hp
          exact Or.inr ⟨hpv, hp⟩
      have hval_le : ∀ p dp', dget? (dset dist v (du + 1)) p = some dp' →
          ∃ dp0, dget? dist p = some dp0 ∧ dp' ≤ dp0 := by
        intro p dp' hp
        rcases hval p dp' hp with ⟨hpv, hval'⟩ | ⟨hpv, hp'⟩
        · subst hpv
          subst hval'
          exact ⟨dv, hdv, Nat.le_of_lt hlt⟩
        · exact ⟨dp', hp', Nat.le_refl _⟩
      refine ⟨dset dist v (du + 1), dset parent v (u, d.2.2), q ++ [v], rfl, ?_, ?_, ?_, ?_,
        Or.inr ⟨distSum_dset_lt dist v (du + 1) dv hdv hlt, v, rfl⟩⟩
      · -- DistInv
        refine ⟨?_, ?_, ?_, ?_, ?_⟩
        · rw [dget?_dset_ne dist v src (du + 1) hvne_src.symm]
          exact hinv.src0
        · intro p
          rw [isSome_dset dist v p (du + 1) hvkeys]
          exact hinv.keys p
        · intro p dp' hp
          rcases hval p dp' hp with ⟨hpv, hval'⟩ | ⟨_, hp'⟩
          · subst hpv
            subst hval'
            exact Or.inr ⟨hduf1, hpath⟩
          · exact hinv.sound p dp' hp'
        · intro p pm hpm
          rw [dget?_dset] at hpm
          by_cases hpv : p = v
          · rw [if_pos hpv] at hpm
            cases hpm
            refine ⟨du + 1, du, ?_, ?_, Nat.lt_succ_self du, hduf1, d, hd, rfl, ?_⟩
            · rw [hpv]
              exact dget?_dset_self _ _ _
            · rw [dget?_dset_ne dist v u (du + 1) (Ne.symm hvne_u)]
              exact hdu
            · rw [hpv]
              exact hl
          · rw [if_neg hpv] at hpm
            obtain ⟨dp, du0, hdp, hdu0, hlt0, hfin0, d', hd', hlbl, hland⟩ :=
              hinv.par p pm hpm
            have hdp' : dget? (dset dist v (du + 1)) p = some dp := by
              rw [dget?_dset_ne dist v p (du + 1) hpv]
              exact hdp
            by_cases hpmv : pm.1 = v
            · refine ⟨dp, du + 1, hdp', ?_, ?_, hfin0, d', hd', hlbl, hland⟩
              · rw [hpmv]
                exact dget?_dset_self _ _ _
              · rw [hpmv, hdv] at hdu0
                injection hdu0 with hinj
                omega
            · refine ⟨dp, du0, hdp', ?_, hlt0, hfin0, d', hd', hlbl, hland⟩
              rw [dget?_dset_ne dist v pm.1 (du + 1) hpmv]
              exact hdu0
        · intro p dp' hp hfin hpsrc
          rcases hval p dp' hp with ⟨hpv, _⟩ | ⟨hpv, hp'⟩
          · subst hpv
            rw [dget?_dset_self]
            rfl
          · rw [dget?_dset_ne parent v p (u, d.2.2) hpv]
            exact hinv.fin_parent p dp' hp' hfin hpsrc
      · -- QFin
        intro p hp
        rcases List.mem_append.mp hp with hp | hp
        · obtain ⟨dp, hdp, hfin0⟩ := hq p hp
          by_cases hpv : p = v
          · subst hpv
            exact ⟨du + 1, dget?_dset_self _ _ _, hduf1⟩
          · exact ⟨dp, by rw [dget?_dset_ne dist v p (du + 1) hpv]; exact hdp, hfin0⟩
        · rw [List.mem_singleton] at hp
          subst hp
          exact ⟨du + 1, dget?_dset_self _ _ _, hduf1⟩
      · -- u still finite
        exact ⟨du, by rw [dget?_dset_ne dist v u (du + 1) (Ne.symm hvne_u)]; exact hdu,
          hduf⟩
      · -- FixExcept
        intro p dp' hp hfin
        rcases hval p dp' hp with ⟨hpv, _⟩ | ⟨hpv, hp'⟩
        · subst hpv
          exact Or.inl (List.mem_append.mpr (Or.inr (List.mem_singleton.mpr rfl)))
        · rcases hfix p dp' hp' hfin with hin | ⟨hpu, hrel⟩ | ⟨hpu, hrel⟩
          · exact Or.inl (List.mem_append.mpr (Or.inl hin))
          · refine Or.inr (Or.inl ⟨hpu, ?_⟩)
            intro d' hd' dp0 hdp0 w hw
            have hdp0' : du = dp0 := by
              rw [dget?_dset_ne dist v u (du + 1) (Ne.symm hvne_u), hdu] at hdp0
              exact Option.some.inj hdp0
            subst hdp0'
            rcases List.mem_append.mp hd' with hd' | hd'
            · have := hrel d' hd' du hdu w hw
              obtain ⟨dw, hdw, hdwle⟩ := this
              by_cases hwv : w = v
              · subst hwv
                exact ⟨du + 1, dget?_dset_self _ _ _, Nat.le_refl _⟩
              · exact ⟨dw, by rw [dget?_dset_ne dist v w (du + 1) hwv]; exact hdw, hdwle⟩
            · rw [List.mem_singleton] at hd'
              subst hd'
              rw [hw] at hl
              cases hl
              exact ⟨du + 1, dget?_dset_self _ _ _, Nat.le_refl _⟩
          · refine Or.inr (Or.inr ⟨hpu, ?_⟩)
            intro d' hd' dp0 hdp0 w hw
            have hdp0' : dp' = dp0 := by
              rw [dget?_dset_ne dist v p (du + 1) hpv, hp'] at hdp0
              exact Option.some.inj hdp0
            subst hdp0'
            obtain ⟨dw, hdw, hdwle⟩ := hrel d' hd' dp' hp' w hw
            by_cases hwv : w = v
            · subst hwv
              refine ⟨du + 1, dget?_dset_self _ _ _, ?_⟩
              rw [hdw] at hdv
              cases hdv
              omega
            · exact ⟨dw, by rw [dget?_dset_ne dist v w (du + 1) hwv]; exact hdw, hdwle⟩
    · rw [if_neg hlt]
      refine ⟨dist, parent, q, rfl, hinv, hq, ⟨du, hdu, hduf⟩, ?_, Or.inl ⟨rfl, rfl, rfl⟩⟩
      intro p dp hdp hfin
      rcases hfix p dp hdp hfin with hin | ⟨hpu, hrel⟩ | hother
      · exact Or.inl hin
      · refine Or.inr (Or.inl ⟨hpu, ?_⟩)
        subst hpu
        intro d' hd'
        rcases List.mem_append.mp hd' with hd' | hd'
        · exact hrel d' hd'
        · rw [List.mem_singleton] at hd'
          subst hd'
          intro dp0 hdp0 w hw
          rw [hw] at hl
          cases hl
          rw [hdu] at hdp0
          cases hdp0
          exact ⟨dv, hdv, by omega⟩
      · exact Or.inr (Or.inr hother)

/-- Invariant preservation and progress across the directions fold of one
dequeued vertex. -/
theorem bfsRelaxAll_step {g : Grid} {partner : List (Pos × Pos)} {src : Pos}
    (hre : Rect g) (hpw : PartnerWF g partner) (u : Pos) :
    ∀ (l done : List (Int × Int × Char)), l ⊆ dirs →
    ∀ (dist : List (Pos × Nat)) (parent : List (Pos × (Pos × Char))) (q : List Pos),
      DistInv g partner src dist parent → QFin dist q →
      (∃ du, dget? dist u = some du ∧ du < INF) →
      FixExcept g partner dist q u done →
      ∃ dist' parent' q',
        l.foldlM (bfsRelax g partner u) (dist, parent, q) = some (dist', parent', q') ∧
        DistInv g partner src dist' parent' ∧ QFin dist' q' ∧
        FixExcept g partner dist' q' u (done ++ l) ∧
        5 * distSum dist' + q'.length ≤ 5 * distSum dist + q.length := by
  intro l
  induction l with
  | nil =>
    intro done _ dist parent q hinv hq hufin hfix
    exact ⟨dist, parent, q, rfl, hinv, hq, by simpa using hfix, Nat.le_refl _⟩
  | cons d l ih =>
    intro done hsub dist parent q hinv hq hufin hfix
    have hd : d ∈ dirs := hsub (List.mem_cons_self _ _)
    obtain ⟨dist1, parent1, q1, heq1, hinv1, hq1, hufin1, hfix1, hmeas1⟩ :=
      bfsRelax_step hre hpw u d hd dist parent q done hinv hq hufin hfix
    obtain ⟨dist', parent', q', heq', hinv', hq', hfix', hmeas'⟩ :=
      ih (done ++ [d]) (fun x hx => hsub (List.mem_cons_of_mem _ hx))
        dist1 parent1 q1 hinv1 hq1 hufin1 hfix1
    refine ⟨dist', parent', q', ?_, hinv', hq', ?_, ?_⟩
    · rw [List.foldlM_cons, heq1]
      simpa using heq'
    · simpa [List.append_assoc] using hfix'
    · refine hmeas'.trans ?_
      rcases hmeas1 with ⟨h1, _, h3⟩ | ⟨h1, v, h2⟩
      · rw [h1, h3]
      · rw [h2]
        simp only [List.length_append, List.length_singleton]
        omega

/-- Partial correctness and termination of the breadth-first loop: with the
invariant and enough fuel, the loop completes with the invariant and a full
relaxation fixpoint. -/
theorem bfsLoop_run {g : Grid} {partner : List (Pos × Pos)} {src : Pos}
    (hre : Rect g) (hpw : PartnerWF g partner) :
    ∀ (fuel : Nat) (q : List Pos) (dist : List (Pos × Nat))
      (parent : List (Pos × (Pos × Char))),
      DistInv g partner src dist parent → QFin dist q →
      FixAll g partner dist q →
      5 * distSum dist + q.length < fuel →
      ∃ dist' parent',
        bfsLoop g partner fuel q dist parent = some (dist', parent') ∧
        DistInv g partner src dist' parent' ∧
        (∀ p dp, dget? dist' p = some dp → dp < INF →
          ∀ d ∈ dirs, Relaxed g partner dist' p d) := by
  intro fuel
  induction fuel with
  | zero =>
    intro q dist parent _ _ _ hmeas
    omega
  | succ fuel ih =>
    intro q dist parent hinv hq hfix hmeas
    cases q with
    | nil =>
      refine ⟨dist, parent, rfl, hinv, ?_⟩
      intro p dp hdp hfin
      rcases hfix p dp hdp hfin with h | h
      · simp at h
      · exact h
    | cons u q' =>
      have hufin : ∃ du, dget? dist u = some du ∧ du < INF := by
        obtain ⟨du, h1, h2⟩ := hq u (List.mem_cons_self _ _)
        exact ⟨du, h1, h2⟩
      have hq' : QFin dist q' := fun p hp => hq p (List.mem_cons_of_mem _ hp)
      have hfixe : FixExcept g partner dist q' u [] := by
        intro p dp hdp hfin
        by_cases hpu : p = u
        · exact Or.inr (Or.inl ⟨hpu, by simp⟩)
        · rcases hfix p dp hdp hfin with h | h
          · rcases List.mem_cons.mp h with h' | h'
            · exact absurd h' hpu
            · exact Or.inl h'
          · exact Or.inr (Or.inr ⟨hpu, h⟩)
      obtain ⟨dist1, parent1, q1, heq1, hinv1, hq1, hfix1, hmeas1⟩ :=
        bfsRelaxAll_step hre hpw u dirs [] (fun x hx => hx) dist parent q'
          hinv hq' hufin hfixe
      have hfixall1 : FixAll g partner dist1 q1 := by
        intro p dp hdp hfin
        rcases hfix1 p dp hdp hfin with h | ⟨hpu, h⟩ | ⟨_, h⟩
        · exact Or.inl h
        · subst hpu
          exact Or.inr (by simpa using h)
        · exact Or.inr h
      obtain ⟨dist', parent', heq', hinv', hrel'⟩ :=
        ih q1 dist1 parent1 hinv1 hq1 hfixall1 (by
          simp only [List.length_cons] at hmeas
          omega)
      refine ⟨dist', parent', ?_, hinv', hrel'⟩
      show bfsLoop g partner (fuel + 1) (u :: q') dist parent = some (dist', parent')
      unfold bfsLoop
      rw [heq1]
      exact heq'

/-! ### The initial state of `_zero_one_bfs` -/

/-- The pure fold computing the initial distance map. -/
def initFold (g : Grid) (l : List (Nat × Nat)) : List (Pos × Nat) :=
  l.foldl (fun dist rc =>
    if _is_drivable (cellAt g rc) then dset dist (posOf rc) INF else dist) []

theorem isSome_dset_iff {α β : Type} [DecidableEq α] (m : List (α × β)) (a x : α) (b : β) :
    (dget? (dset m a b) x).isSome = true ↔ x = a ∨ (dget? m x).isSome = true := by
  rw [dget?_dset]
  by_cases h : x = a
  · simp [h]
  · simp [h]

theorem distSum_dset_le (m : List (Pos × Nat)) (a : Pos) (b : Nat) :
    distSum (dset m a b) ≤ distSum m + b := by
  induction m with
  | nil => simp [dset, distSum]
  | cons kv rest ih =>
    obtain ⟨k, v⟩ := kv
    by_cases h : k = a
    · simp only [dset, if_pos h, distSum, List.map_cons, List.sum_cons]
      omega
    · simp only [dset, if_neg h, distSum, List.map_cons, List.sum_cons]
      have := ih
      simp only [distSum] at this
      omega

theorem scanCells_length (g : Grid) :
    (scanCells g).length = g.length * (g.headD []).length := by
  unfold scanCells
  rw [List.length_flatMap]
  have h1 : ∀ r : Nat,
      ((List.range (g.headD []).length).map fun c => (r, c)).length =
        (g.headD []).length := by
    intro r
    rw [List.length_map, List.length_range]
  have h2 : (List.range g.length).map
      (fun r => (((List.range (g.headD []).length).map fun c => (r, c))).length) =
      (List.range g.length).map (fun _ => (g.headD []).length) :=
    List.map_congr_left (fun r _ => h1 r)
  show ((List.range g.length).map
    (fun r => (((List.range (g.headD []).length).map fun c => (r, c))).length)).sum = _
  rw [h2]
  generalize (g.headD []).length = c
  induction g.length with
  | zero => simp
  | succ m ih =>
    rw [List.range_succ, List.map_append, List.sum_append, ih]
    simp [Nat.succ_mul]

theorem tileAtP_posOf (g : Grid) (rc : Nat × Nat) : tileAtP g (posOf rc) = cellAt g rc := by
  simp [tileAtP, posOf, cellAt, Int.toNat_ofNat]

theorem inBounds_posOf {g : Grid} {rc : Nat × Nat} (h : rc ∈ scanCells g) :
    _in_bounds (posOf rc).1 (posOf rc).2 g = true := by
  obtain ⟨r, c⟩ := rc
  rw [mem_scanCells] at h
  rw [_in_bounds_iff]
  refine ⟨by simp [posOf], ?_, by simp [posOf], ?_⟩
  · simp only [posOf]
    exact_mod_cast h.1
  · simp only [posOf]
    exact_mod_cast h.2

theorem exists_scan_of_inBounds {g : Grid} {p : Pos} (h : _in_bounds p.1 p.2 g = true) :
    ∃ rc ∈ scanCells g, p = posOf rc := by
  obtain ⟨h1, h2, h3, h4⟩ := _in_bounds_iff.mp h
  refine ⟨(p.1.toNat, p.2.toNat), mem_scanCells.mpr ⟨by omega, by omega⟩, ?_⟩
  simp [posOf, Int.toNat_of_nonneg h1, Int.toNat_of_nonneg h3]

theorem initFold_values (g : Grid) (l : List (Nat × Nat)) :
    ∀ st : List (Pos × Nat),
      (∀ p : Pos, dget? st p = none ∨ dget? st p = some INF) →
      ∀ p : Pos, dget? (l.foldl (fun dist rc =>
        if _is_drivable (cellAt g rc) then dset dist (posOf rc) INF else dist) st) p = none ∨
        dget? (l.foldl (fun dist rc =>
        if _is_drivable (cellAt g rc) then dset dist (posOf rc) INF else dist) st) p =
          some INF := by
  induction l with
  | nil => intro st h p; exact h p
  | cons rc l ih =>
    intro st h p
    rw [List.foldl_cons]
    refine ih _ ?_ p
    intro x
    by_cases hdr : _is_drivable (cellAt g rc) = true
    · rw [if_pos hdr, dget?_dset]
      by_cases hx : x = posOf rc
      · rw [if_pos hx]
        exact Or.inr rfl
      · rw [if_neg hx]
        exact h x
    · rw [if_neg hdr]
      exact h x

theorem initFold_isSome (g : Grid) (l : List (Nat × Nat)) :
    ∀ st : List (Pos × Nat), ∀ p : Pos,
      (dget? (l.foldl (fun dist rc =>
        if _is_drivable (cellAt g rc) then dset dist (posOf rc) INF else dist) st) p).isSome
          = true ↔
      (dget? st p).isSome = true ∨
        ∃ rc ∈ l, p = posOf rc ∧ _is_drivable (cellAt g rc) = true := by
  induction l with
  | nil =>
    intro st p
    simp
  | cons rc l ih =>
    intro st p
    rw [List.foldl_cons]
    rw [ih]
    by_cases hdr : _is_drivable (cellAt g rc) = true
    · rw [if_pos hdr, isSome_dset_iff]
      constructor
      · rintro (⟨h | h⟩ | ⟨rc', hrc', hrc2⟩)
        · exact Or.inr ⟨rc, List.mem_cons_self _ _, h, hdr⟩
        · exact Or.inl h
        · exact Or.inr ⟨rc', List.mem_cons_of_mem _ hrc', hrc2⟩
      · rintro (h | ⟨rc', hrc', heq, hdr'⟩)
        · exact Or.inl (Or.inr h)
        · rcases List.mem_cons.mp hrc' with rfl | hmem
          · exact Or.inl (Or.inl heq)
          · exact Or.inr ⟨rc', hmem, heq, hdr'⟩
    · rw [if_neg hdr]
      constructor
      · rintro (h | ⟨rc', hrc', heq, hdr'⟩)
        · exact Or.inl h
        · exact Or.inr ⟨rc', List.mem_cons_of_mem _ hrc', heq, hdr'⟩
      · rintro (h | ⟨rc', hrc', heq, hdr'⟩)
        · exact Or.inl h
        · rcases List.mem_cons.mp hrc' with rfl | hmem
          · exact absurd hdr' hdr
          · exact Or.inr ⟨rc', hmem, heq, hdr'⟩

theorem initFold_distSum (g : Grid) (l : List (Nat × Nat)) :
    ∀ st : List (Pos × Nat),
      distSum (l.foldl (fun dist rc =>
        if _is_drivable (cellAt g rc) then dset dist (posOf rc) INF else dist) st) ≤
      distSum st + l.length * INF := by
  induction l with
  | nil => intro st; simp
  | cons rc l ih =>
    intro st
    rw [List.foldl_cons]
    refine (ih _).trans ?_
    by_cases hdr : _is_drivable (cellAt g rc) = true
    · rw [if_pos hdr]
      have := distSum_dset_le st (posOf rc) INF
      rw [List.length_cons]
      calc distSum (dset st (posOf rc) INF) + l.length * INF
          ≤ distSum st + INF + l.length * INF := by omega
        _ = distSum st + (l.length + 1) * INF := by ring
    · rw [if_neg hdr, List.length_cons]
      have : l.length * INF ≤ (l.length + 1) * INF := by
        have : (0 : Nat) < INF := by norm_num [INF]
        nlinarith
      omega

theorem bfsInit_eq (g : Grid) (hre : Rect g) :
    bfsInit g = some (initFold g (scanCells g)) := by
  unfold bfsInit initFold
  exact foldlM_option_total _ _ _ (fun s rc hrc => by rw [cellAt?_eq_some hre hrc]; rfl) []

/-- The main run theorem for `_zero_one_bfs` on a rectangular grid with a
well-formed partner map: the search completes and its result satisfies the
distance invariant together with the full relaxation fixpoint. -/
theorem zero_one_bfs_run {g : Grid} {partner : List (Pos × Pos)} (src : Pos)
    (hre : Rect g) (hpw : PartnerWF g partner) :
    ∃ dist' parent', _zero_one_bfs g src partner = some (dist', parent') ∧
      DistInv g partner src dist' parent' ∧
      (∀ p dp, dget? dist' p = some dp → dp < INF →
        ∀ d ∈ dirs, Relaxed g partner dist' p d) := by
  obtain ⟨d0, hd0⟩ : ∃ d0, initFold g (scanCells g) = d0 := ⟨_, rfl⟩
  have hvals : ∀ p : Pos, dget? d0 p = none ∨ dget? d0 p = some INF := by
    intro p
    rw [← hd0]
    exact initFold_values g (scanCells g) [] (fun p => Or.inl rfl) p
  have hsome : ∀ p : Pos, (dget? d0 p).isSome = true ↔
      (_in_bounds p.1 p.2 g = true ∧ _is_drivable (tileAtP g p) = true) := by
    intro p
    rw [← hd0]
    unfold initFold
    rw [initFold_isSome g (scanCells g) [] p]
    constructor
    · rintro (h | ⟨rc, hrc, heq, hdr⟩)
      · simp [dget?] at h
      · subst heq
        exact ⟨inBounds_posOf hrc, by rw [tileAtP_posOf]; exact hdr⟩
    · rintro ⟨hib, hdr⟩
      obtain ⟨rc, hrc, heq⟩ := exists_scan_of_inBounds hib
      refine Or.inr ⟨rc, hrc, heq, ?_⟩
      rw [← tileAtP_posOf, ← heq]
      exact hdr
  have hinv : DistInv g partner src (dset d0 src 0) [] := by
    refine ⟨dget?_dset_self _ _ _, ?_, ?_, ?_, ?_⟩
    · intro p
      rw [isSome_dset_iff]
      rw [hsome p]
      constructor
      · rintro (h | h)
        · exact Or.inr h
        · exact Or.inl h
      · rintro (h | h)
        · exact Or.inr h
        · exact Or.inl h
    · intro p dp hdp
      rw [dget?_dset] at hdp
      by_cases hps : p = src
      · rw [if_pos hps] at hdp
        cases hdp
        subst hps
        exact Or.inr ⟨by norm_num [INF], FPathN.refl p⟩
      · rw [if_neg hps] at hdp
        rcases hvals p with h | h
        · rw [h] at hdp
          cases hdp
        · rw [h] at hdp
          cases hdp
          exact Or.inl rfl
    · intro p pm hpm
      simp [dget?] at hpm
    · intro p dp hdp hfin hps
      rw [dget?_dset_ne d0 src p 0 hps] at hdp
      rcases hvals p with h | h
      · rw [h] at hdp
        cases hdp
      · rw [h] at hdp
        cases hdp
        omega
  have hqfin : QFin (dset d0 src 0) [src] := by
    intro p hp
    rw [List.mem_singleton] at hp
    subst hp
    exact ⟨0, dget?_dset_self _ _ _, by norm_num [INF]⟩
  have hfix : FixAll g partner (dset d0 src 0) [src] := by
    intro p dp hdp hfin
    rw [dget?_dset] at hdp
    by_cases hps : p = src
    · exact Or.inl (by rw [hps]; exact List.mem_singleton.mpr rfl)
    · rw [if_neg hps] at hdp
      rcases hvals p with h | h
      · rw [h] at hdp
        cases hdp
      · rw [h] at hdp
        cases hdp
        omega
  have hmeas : 5 * distSum (dset d0 src 0) + 1 < bfsFuel g := by
    have h1 : distSum d0 ≤ (scanCells g).length * INF := by
      rw [← hd0]
      have := initFold_distSum g (scanCells g) []
      simpa [distSum] using this
    have h2 : distSum (dset d0 src 0) ≤ distSum d0 := by
      have := distSum_dset_le d0 src 0
      omega
    rw [scanCells_length] at h1
    unfold bfsFuel
    have h3 : (0 : Nat) < INF := by norm_num [INF]
    have h4 : g.length * (g.headD []).length * INF <
        (g.length * (g.headD []).length + 1) * INF := by
      nlinarith
    omega
  unfold _zero_one_bfs
  rw [bfsInit_eq g hre, hd0]
  obtain ⟨dist', parent', heq, hinv', hrel'⟩ :=
    bfsLoop_run hre hpw (bfsFuel g) [src] (dset d0 src 0) [] hinv hqfin hfix
      (by simpa using hmeas)
  exact ⟨dist', parent', heq, hinv', hrel'⟩

theorem FPathN.snoc_inv {g : Grid} {partner : List (Pos × Pos)} :
    ∀ {n : Nat} {p r : Pos}, FPathN g partner p r (n + 1) →
      ∃ w, FPathN g partner p w n ∧ FStep g partner w r := by
  intro n
  induction n with
  | zero =>
    intro p r h
    cases h with
    | step hs hp => exact ⟨p, FPathN.refl p, (FPathN.zero_eq hp) ▸ hs⟩
  | succ m ih =>
    intro p r h
    cases h with
    | step hs hp =>
      obtain ⟨w, hw, hws⟩ := ih hp
      exact ⟨w, FPathN.step hs hw, hws⟩

/-- Completeness of the relaxation fixpoint: any folded path of length below
the sentinel forces a recorded distance no larger than its length. -/
theorem bfs_complete {g : Grid} {partner : List (Pos × Pos)} {src : Pos}
    {dist : List (Pos × Nat)}
    (hsrc : dget? dist src = some 0)
    (hrel : ∀ p dp, dget? dist p = some dp → dp < INF →
      ∀ d ∈ dirs, Relaxed g partner dist p d) :
    ∀ n, n < INF → ∀ p : Pos, FPathN g partner src p n →
      ∃ dp, dget? dist p = some dp ∧ dp ≤ n := by
  intro n
  induction n with
  | zero =>
    intro _ p hp
    exact ⟨0, (FPathN.zero_eq hp) ▸ hsrc, Nat.le_refl 0⟩
  | succ m ih =>
    intro hlt p hp
    obtain ⟨w, hw, hws⟩ := FPathN.snoc_inv hp
    obtain ⟨dw, hdw, hdwle⟩ := ih (by omega) w hw
    obtain ⟨d, hd, hland⟩ := hws
    obtain ⟨dp, hdp, hdple⟩ :=
      hrel w dw hdw (by omega) d hd dw hdw p hland
    exact ⟨dp, hdp, by omega⟩

/-! ### Reconstructed move sequences replay as folded paths -/

/-- One folded step with its recorded direction label. -/
def FStepChar (g : Grid) (partner : List (Pos × Pos)) (p q : Pos) (mv : Char) : Prop :=
  ∃ d ∈ dirs, d.2.2 = mv ∧ landAt g partner (p.1 + d.1, p.2 + d.2.1) = some q

/-- Replaying a list of direction labels from a position, following the
folded move model. -/
inductive Replay (g : Grid) (partner : List (Pos × Pos)) : Pos → List Char → Pos → Prop
  | nil (p : Pos) : Replay g partner p [] p
  | cons {p q r : Pos} {mv : Char} {ms : List Char} :
      FStepChar g partner p q mv → Replay g partner q ms r →
      Replay g partner p (mv :: ms) r

theorem Replay_snoc {g : Grid} {partner : List (Pos × Pos)} {p q r : Pos} {mv : Char}
    {ms : List Char} (h : Replay g partner p ms q) (hs : FStepChar g partner q r mv) :
    Replay g partner p (ms ++ [mv]) r := by
  induction h with
  | nil p => exact Replay.cons hs (Replay.nil r)
  | cons h1 _ ih => exact Replay.cons h1 (ih hs)

theorem nodup_subset_length {α : Type} [DecidableEq α] (l1 l2 : List α)
    (h : l1.Nodup) (hs : l1 ⊆ l2) : l1.length ≤ l2.length := by
  calc l1.length = l1.toFinset.card := (List.toFinset_card_of_nodup h).symm
    _ ≤ l2.toFinset.card := Finset.card_le_card (fun a ha => by
        rw [List.mem_toFinset] at ha ⊢
        exact hs ha)
    _ ≤ l2.length := l2.toFinset_card_le

theorem dget?_mem_keys {α β : Type} [DecidableEq α] (m : List (α × β)) (a : α) (b : β)
    (h : dget? m a = some b) : a ∈ m.map Prod.fst :=
  List.mem_map_of_mem Prod.fst (dget?_mem m a b h)

/-- The reconstruction loop follows the parent chain back to the source and
produces a move list that replays to a folded path from the source. -/
theorem recMoves_run {g : Grid} {partner : List (Pos × Pos)} {src : Pos}
    {dist : List (Pos × Nat)} {parent : List (Pos × (Pos × Char))}
    (hinv : DistInv g partner src dist parent) :
    ∀ dd : Nat, ∀ cur, dget? dist cur = some dd → dd < INF →
    ∀ seen : List Pos, seen.Nodup → (∀ s ∈ seen, s ∈ parent.map Prod.fst) →
    (∀ s ∈ seen, ∃ ds, dget? dist s = some ds ∧ dd < ds) →
    ∀ fuel : Nat, parent.length + 1 ≤ fuel + seen.length →
    ∀ acc : List Char, ∃ ms, recMovesLoop parent src fuel cur acc = some (ms ++ acc.reverse) ∧
      Replay g partner src ms cur := by
  intro dd
  induction dd using Nat.strong_induction_on with
  | _ dd ih =>
    intro cur hcur hfin seen hnd hsub hgt fuel hfuel acc
    have hseenlen : seen.length ≤ parent.length := by
      have := nodup_subset_length seen (parent.map Prod.fst) hnd hsub
      rwa [List.length_map] at this
    obtain ⟨f, rfl⟩ : ∃ f, fuel = f + 1 := by
      cases fuel with
      | zero => omega
      | succ f => exact ⟨f, rfl⟩
    by_cases hcs : cur = src
    · subst hcs
      exact ⟨[], by simp [recMovesLoop], Replay.nil cur⟩
    · have hpar : (dget? parent cur).isSome = true :=
        hinv.fin_parent cur dd hcur hfin hcs
      obtain ⟨pm, hpm⟩ := Option.isSome_iff_exists.mp hpar
      obtain ⟨dp0, du, hdp0, hdu, hlt, _, d, hd, hlbl, hland⟩ := hinv.par cur pm hpm
      have hdp0' : dd = dp0 := by
        rw [hcur] at hdp0
        exact Option.some.inj hdp0
      subst hdp0'
      have hcur_notin : cur ∉ seen := by
        intro hx
        obtain ⟨ds, hds, hgt'⟩ := hgt cur hx
        rw [hcur] at hds
        cases Option.some.inj hds
        omega
      have hstep : FStepChar g partner pm.1 cur pm.2 := ⟨d, hd, hlbl, hland⟩
      obtain ⟨ms, hms, hrep⟩ := ih du hlt pm.1 hdu (by omega) (cur :: seen)
        (List.nodup_cons.mpr ⟨hcur_notin, hnd⟩)
        (by
          intro s hs
          rcases List.mem_cons.mp hs with rfl | hs'
          · exact dget?_mem_keys parent s pm hpm
          · exact hsub s hs')
        (by
          intro s hs
          rcases List.mem_cons.mp hs with rfl | hs'
          · exact ⟨dd, hcur, hlt⟩
          · obtain ⟨ds, h1, h2⟩ := hgt s hs'
            exact ⟨ds, h1, by omega⟩)
        f (by simp only [List.length_cons]; omega) (acc ++ [pm.2])
      refine ⟨ms ++ [pm.2], ?_, Replay_snoc hrep hstep⟩
      show recMovesLoop parent src (f + 1) cur acc = some ((ms ++ [pm.2]) ++ acc.reverse)
      unfold recMovesLoop
      rw [if_neg hcs]
      simp only [hpm]
      rw [hms, List.reverse_append]
      simp

/-- `_reconstruct_moves` succeeds on any recorded finite destination and
yields a move list replaying from the source to it. -/
theorem reconstruct_moves_run {g : Grid} {partner : List (Pos × Pos)} {src : Pos}
    {dist : List (Pos × Nat)} {parent : List (Pos × (Pos × Char))}
    (hinv : DistInv g partner src dist parent)
    (dst : Pos) (dd : Nat) (hdd : dget? dist dst = some dd) (hfin : dd < INF) :
    ∃ ms, _reconstruct_moves parent src dst = some ms ∧ Replay g partner src ms dst := by
  obtain ⟨ms, hms, hrep⟩ := recMoves_run hinv dd dst hdd hfin [] List.nodup_nil
    (by simp) (by simp) (parent.length + 1) (by simp) []
  exact ⟨ms, by simpa [_reconstruct_moves] using hms, hrep⟩

/-! ### The pairwise engine, characterised -/

/-- The per-destination value written into row `i` of the distance matrix. -/
def pairVal (dist : List (Pos × Nat)) (i : Nat) (jq : Nat × Pos) : Nat :=
  if i = jq.1 then 0 else
    match dget? dist jq.2 with
    | some dv => if dv < INF then dv else INF
    | none => INF

/-- What the move table records for entry `(i, jq.1)`. -/
def SegSpec (dist : List (Pos × Nat)) (parent : List (Pos × (Pos × Char)))
    (src : Pos) (i : Nat) (jq : Nat × Pos) (seg : List Char) : Prop :=
  (i = jq.1 ∧ seg = []) ∨
  (i ≠ jq.1 ∧
    ((∃ dv, dget? dist jq.2 = some dv ∧ dv < INF ∧
        _reconstruct_moves parent src jq.2 = some seg) ∨
      (pairVal dist i jq = INF ∧ seg = [])))

theorem pairInner_run {g : Grid} {partner : List (Pos × Pos)} {src : Pos}
    {dist : List (Pos × Nat)} {parent : List (Pos × (Pos × Char))}
    (hinv : DistInv g partner src dist parent) (i : Nat) :
    ∀ l : List (Nat × Pos), (l.map Prod.fst).Nodup →
    ∀ (row0 : List Nat) (mp0 : List ((Nat × Nat) × List Char)),
    ∃ mp1, (l.foldlM (fun rm jq =>
        if i = jq.1 then some (rm.1 ++ [0], dset rm.2 (i, jq.1) [])
        else
          match dget? dist jq.2 with
          | some dv =>
            if dv < INF then
              match _reconstruct_moves parent src jq.2 with
              | none => none
              | some moves => some (rm.1 ++ [dv], dset rm.2 (i, jq.1) moves)
            else some (rm.1 ++ [INF], dset rm.2 (i, jq.1) [])
          | none => some (rm.1 ++ [INF], dset rm.2 (i, jq.1) []))
      (row0, mp0)) = some (row0 ++ l.map (pairVal dist i), mp1) ∧
      (∀ x : Nat × Nat, (∀ jq ∈ l, x ≠ (i, jq.1)) → dget? mp1 x = dget? mp0 x) ∧
      (∀ jq ∈ l, ∃ seg, dget? mp1 (i, jq.1) = some seg ∧
        SegSpec dist parent src i jq seg) := by
  intro l
  induction l with
  | nil =>
    intro _ row0 mp0
    exact ⟨mp0, by simp, fun x _ => rfl, by simp⟩
  | cons jq l ih =>
    intro hnd row0 mp0
    simp only [List.map_cons, List.nodup_cons] at hnd
    have hnotin : jq.1 ∉ l.map Prod.fst := hnd.1
    by_cases hij : i = jq.1
    · obtain ⟨mp1, heq, huntouched, hseg⟩ :=
        ih hnd.2 (row0 ++ [0]) (dset mp0 (i, jq.1) [])
      refine ⟨mp1, ?_, ?_, ?_⟩
      · rw [List.foldlM_cons, if_pos hij]
        simp only [Option.bind_eq_bind, Option.some_bind]
        rw [heq]
        simp [pairVal, hij]
      · intro x hx
        rw [huntouched x (fun jq' hjq' => hx jq' (List.mem_cons_of_mem _ hjq'))]
        exact dget?_dset_ne mp0 (i, jq.1) x [] (hx jq (List.mem_cons_self _ _))
      · intro jq' hjq'
        rcases List.mem_cons.mp hjq' with rfl | hmem
        · refine ⟨[], ?_, Or.inl ⟨hij, rfl⟩⟩
          rw [huntouched (i, jq'.1) ?_]
          · exact dget?_dset_self _ _ _
          · intro jq'' hjq'' hx
            apply hnotin
            have h2 : jq'.1 = jq''.1 := congrArg Prod.snd hx
            rw [h2]
            exact List.mem_map_of_mem Prod.fst hjq''
        · exact hseg jq' hmem
    · cases hdv : dget? dist jq.2 with
      | some dv =>
        by_cases hlt : dv < INF
        · obtain ⟨ms, hms, _⟩ := reconstruct_moves_run hinv jq.2 dv hdv hlt
          obtain ⟨mp1, heq, huntouched, hseg⟩ :=
            ih hnd.2 (row0 ++ [dv]) (dset mp0 (i, jq.1) ms)
          refine ⟨mp1, ?_, ?_, ?_⟩
          · rw [List.foldlM_cons, if_neg hij, hdv]
            simp only [if_pos hlt, hms, Option.bind_eq_bind, Option.some_bind]
            rw [heq]
            simp [pairVal, hij, hdv, hlt]
          · intro x hx
            rw [huntouched x (fun jq' hjq' => hx jq' (List.mem_cons_of_mem _ hjq'))]
            exact dget?_dset_ne mp0 (i, jq.1) x ms (hx jq (List.mem_cons_self _ _))
          · intro jq' hjq'
            rcases List.mem_cons.mp hjq' with rfl | hmem
            · refine ⟨ms, ?_, Or.inr ⟨hij, Or.inl ⟨dv, hdv, hlt, hms⟩⟩⟩
              rw [huntouched (i, jq'.1) ?_]
              · exact dget?_dset_self _ _ _
              · intro jq'' hjq'' hx
                apply hnotin
                have h2 : jq'.1 = jq''.1 := congrArg Prod.snd hx
                rw [h2]
                exact List.mem_map_of_mem Prod.fst hjq''
            · exact hseg jq' hmem
        · obtain ⟨mp1, heq, huntouched, hseg⟩ :=
            ih hnd.2 (row0 ++ [INF]) (dset mp0 (i, jq.1) [])
          refine ⟨mp1, ?_, ?_, ?_⟩
          · rw [List.foldlM_cons, if_neg hij, hdv]
            simp only [if_neg hlt, Option.bind_eq_bind, Option.some_bind]
            rw [heq]
            simp [pairVal, hij, hdv, hlt]
          · intro x hx
            rw [huntouched x (fun jq' hjq' => hx jq' (List.mem_cons_of_mem _ hjq'))]
            exact dget?_dset_ne mp0 (i, jq.1) x [] (hx jq (List.mem_cons_self _ _))
          · intro jq' hjq'
            rcases List.mem_cons.mp hjq' with rfl | hmem
            · refine ⟨[], ?_, Or.inr ⟨hij, Or.inr ⟨by simp [pairVal, hij, hdv, hlt], rfl⟩⟩⟩
              rw [huntouched (i, jq'.1) ?_]
              · exact dget?_dset_self _ _ _
              · intro jq'' hjq'' hx
                apply hnotin
                have h2 : jq'.1 = jq''.1 := congrArg Prod.snd hx
                rw [h2]
                exact List.mem_map_of_mem Prod.fst hjq''
            · exact hseg jq' hmem
      | none =>
        obtain ⟨mp1, heq, huntouched, hseg⟩ :=
          ih hnd.2 (row0 ++ [INF]) (dset mp0 (i, jq.1) [])
        refine ⟨mp1, ?_, ?_, ?_⟩
        · rw [List.foldlM_cons, if_neg hij, hdv]
          simp only [Option.bind_eq_bind, Option.some_bind]
          rw [heq]
          simp [pairVal, hij, hdv]
        · intro x hx
          rw [huntouched x (fun jq' hjq' => hx jq' (List.mem_cons_of_mem _ hjq'))]
          exact dget?_dset_ne mp0 (i, jq.1) x [] (hx jq (List.mem_cons_self _ _))
        · intro jq' hjq'
          rcases List.mem_cons.mp hjq' with rfl | hmem
          · refine ⟨[], ?_, Or.inr ⟨hij, Or.inr ⟨by simp [pairVal, hij, hdv], rfl⟩⟩⟩
            rw [huntouched (i, jq'.1) ?_]
            · exact dget?_dset_self _ _ _
            · intro jq'' hjq'' hx
              apply hnotin
              have h2 : jq'.1 = jq''.1 := congrArg Prod.snd hx
              rw [h2]
              exact List.mem_map_of_mem Prod.fst hjq''
          · exact hseg jq' hmem

/-- One row of the pairwise computation together with its move-table entries. -/
theorem pairOuter_run {g : Grid} {partner : List (Pos × Pos)} (points : List Pos)
    (hre : Rect g) (hpw : PartnerWF g partner) :
    ∀ l : List (Nat × Pos), (l.map Prod.fst).Nodup →
    ∀ (acc1 : List (List Nat)) (mp0 : List ((Nat × Nat) × List Char)),
    ∃ rows mp1,
      (l.foldlM (fun acc ip => do
          let (dist, parent) ← _zero_one_bfs g ip.2 partner
          let rm ← points.enum.foldlM (fun rm jq =>
              if ip.1 = jq.1 then some (rm.1 ++ [0], dset rm.2 (ip.1, jq.1) [])
              else
                match dget? dist jq.2 with
                | some dv =>
                  if dv < INF then
                    match _reconstruct_moves parent ip.2 jq.2 with
                    | none => none
                    | some moves => some (rm.1 ++ [dv], dset rm.2 (ip.1, jq.1) moves)
                  else some (rm.1 ++ [INF], dset rm.2 (ip.1, jq.1) [])
                | none => some (rm.1 ++ [INF], dset rm.2 (ip.1, jq.1) []))
            (([] : List Nat), acc.2)
          some (acc.1 ++ [rm.1], rm.2))
        (acc1, mp0)) = some (acc1 ++ rows, mp1) ∧
      rows.length = l.length ∧
      (∀ x : Nat × Nat, (∀ ip ∈ l, x.1 ≠ ip.1) → dget? mp1 x = dget? mp0 x) ∧
      (∀ k : Nat, ∀ ip : Nat × Pos, l.get? k = some ip →
        ∃ dist parent, _zero_one_bfs g ip.2 partner = some (dist, parent) ∧
          DistInv g partner ip.2 dist parent ∧
          (∀ p dp, dget? dist p = some dp → dp < INF →
            ∀ d ∈ dirs, Relaxed g partner dist p d) ∧
          rows.get? k = some (points.enum.map (pairVal dist ip.1)) ∧
          (∀ jq ∈ points.enum, ∃ seg, dget? mp1 (ip.1, jq.1) = some seg ∧
            SegSpec dist parent ip.2 ip.1 jq seg)) := by
  intro l
  induction l with
  | nil =>
    intro _ acc1 mp0
    refine ⟨[], mp0, by simp, rfl, fun x _ => rfl, ?_⟩
    intro k ip h
    simp at h
  | cons ip l ih =>
    intro hnd acc1 mp0
    simp only [List.map_cons, List.nodup_cons] at hnd
    obtain ⟨dist, parent, hbfs, hinv, hrel⟩ := zero_one_bfs_run ip.2 hre hpw
    have henum_nd : (points.enum.map Prod.fst).Nodup := by
      rw [List.enum_map_fst]
      exact List.nodup_range _
    obtain ⟨mp0', hinner, huntouched0, hseg0⟩ :=
      pairInner_run hinv ip.1 points.enum henum_nd [] mp0
    obtain ⟨rows', mp1, houter, hlen, huntouched, hrow⟩ :=
      ih hnd.2 (acc1 ++ [points.enum.map (pairVal dist ip.1)]) mp0'
    refine ⟨points.enum.map (pairVal dist ip.1) :: rows', mp1, ?_, ?_, ?_, ?_⟩
    · rw [List.foldlM_cons]
      rw [hbfs]
      simp only [Option.bind_eq_bind, Option.some_bind]
      rw [hinner]
      simp only [Option.bind_eq_bind, Option.some_bind, List.nil_append]
      refine Eq.trans houter ?_
      rw [List.append_assoc]
      rfl
    · simp [hlen]
    · intro x hx
      rw [huntouched x (fun ip' hip' => hx ip' (List.mem_cons_of_mem _ hip'))]
      exact huntouched0 x (fun jq _ hxx => hx ip (List.mem_cons_self _ _) (by
        rw [hxx]))
    · intro k ip' hk
      cases k with
      | zero =>
        rw [List.get?_eq_getElem?] at hk
        simp at hk
        subst hk
        refine ⟨dist, parent, hbfs, hinv, hrel, by simp, ?_⟩
        intro jq hjq
        obtain ⟨seg, hsg, hspec⟩ := hseg0 jq hjq
        refine ⟨seg, ?_, hspec⟩
        rw [huntouched (ip.1, jq.1) ?_]
        · exact hsg
        · intro ip' hip'
          show ip.1 ≠ ip'.1
          intro hx
          exact hnd.1 (hx ▸ List.mem_map_of_mem Prod.fst hip')
      | succ k =>
        obtain ⟨dist2, parent2, h1, h2, h3, h4, h5⟩ := hrow k ip' (by simpa using hk)
        exact ⟨dist2, parent2, h1, h2, h3, by simpa using h4, h5⟩

/-- The master run theorem for `_pairwise_shortest_paths` on a rectangular
grid with a well-formed partner map. -/
theorem pairwise_run {g : Grid} {partner : List (Pos × Pos)} (points : List Pos)
    (hre : Rect g) (hpw : PartnerWF g partner) :
    ∃ dm mp, _pairwise_shortest_paths g points partner = some (dm, mp) ∧
      dm.length = points.length ∧
      (∀ k : Nat, ∀ ip : Nat × Pos, points.enum.get? k = some ip →
        ∃ dist parent, _zero_one_bfs g ip.2 partner = some (dist, parent) ∧
          DistInv g partner ip.2 dist parent ∧
          (∀ p dp, dget? dist p = some dp → dp < INF →
            ∀ d ∈ dirs, Relaxed g partner dist p d) ∧
          dm.get? k = some (points.enum.map (pairVal dist ip.1)) ∧
          (∀ jq ∈ points.enum, ∃ seg, dget? mp (ip.1, jq.1) = some seg ∧
            SegSpec dist parent ip.2 ip.1 jq seg)) := by
  have henum_nd : (points.enum.map Prod.fst).Nodup := by
    rw [List.enum_map_fst]
    exact List.nodup_range _
  obtain ⟨rows, mp1, houter, hlen, _, hrow⟩ :=
    pairOuter_run points hre hpw points.enum henum_nd [] []
  refine ⟨rows, mp1, ?_, by rw [hlen, List.enum_length], hrow⟩
  show _pairwise_shortest_paths g points partner = some (([] : List (List Nat)) ++ rows, mp1)
  exact houter

/-! ### Held–Karp: bit-set helpers -/

theorem one_shl (j : Nat) : 1 <<< j = 2 ^ j := Nat.one_shiftLeft j

theorem and_shl_ne_iff (m j : Nat) : m &&& (1 <<< j) ≠ 0 ↔ m.testBit j = true := by
  rw [one_shl]
  constructor
  · intro h
    by_contra hb
    apply h
    apply Nat.zero_of_testBit_eq_false
    intro i
    rw [Nat.testBit_and]
    rcases eq_or_ne i j with rfl | hne
    · simp [Bool.eq_false_iff.mpr hb]
    · have h2 : (2 ^ j).testBit i = false := by
        rw [Nat.testBit_two_pow]
        simp [Ne.symm hne]
      simp [h2]
  · intro h hz
    have hb : (m &&& 2 ^ j).testBit j = true := by
      rw [Nat.testBit_and, h, Nat.testBit_two_pow]
      simp
    rw [hz, Nat.zero_testBit] at hb
    exact Bool.false_ne_true hb

theorem and_one_ne_iff (m : Nat) : m &&& 1 ≠ 0 ↔ m.testBit 0 = true := by
  have h := and_shl_ne_iff m 0
  rwa [show (1 <<< 0 : Nat) = 1 from rfl] at h

theorem or_shl_testBit (m j i : Nat) :
    (m ||| 1 <<< j).testBit i = (m.testBit i || decide (j = i)) := by
  rw [one_shl, Nat.testBit_or, Nat.testBit_two_pow]

theorem xor_shl_testBit (m j i : Nat) :
    (m ^^^ 1 <<< j).testBit i = (m.testBit i ^^ decide (j = i)) := by
  rw [one_shl, Nat.testBit_xor, Nat.testBit_two_pow]

theorem lt_or_shl (m j : Nat) (h : m.testBit j = false) : m < m ||| 1 <<< j := by
  have hle : m ≤ m ||| 1 <<< j := by
    refine Nat.le_of_testBit ?_
    intro i hi
    rw [or_shl_testBit, hi]
    simp
  rcases Nat.lt_or_ge m (m ||| 1 <<< j) with hlt | hge
  · exact hlt
  · exfalso
    have he : m = m ||| 1 <<< j := Nat.le_antisymm hle hge
    have hb : (m ||| 1 <<< j).testBit j = true := by
      rw [or_shl_testBit]
      simp
    rw [← he, h] at hb
    exact Bool.false_ne_true hb

theorem xor_shl_lt (m j : Nat) (h : m.testBit j = true) : m ^^^ 1 <<< j < m := by
  refine Nat.lt_of_testBit j ?_ h ?_
  · rw [xor_shl_testBit, h]
    simp
  · intro k hk
    rw [xor_shl_testBit]
    have h2 : (j = k) = False := by simp [Nat.ne_of_lt hk]
    simp [h2]

theorem or_xor_shl_cancel (m j : Nat) (h : m.testBit j = false) :
    (m ||| 1 <<< j) ^^^ 1 <<< j = m := by
  refine Nat.eq_of_testBit_eq ?_
  intro i
  rw [xor_shl_testBit, or_shl_testBit]
  rcases eq_or_ne j i with rfl | hne
  · simp [h]
  · simp [hne]

theorem or_shl_lt_pow (m j n : Nat) (hm : m < 2 ^ n) (hj : j < n) :
    m ||| 1 <<< j < 2 ^ n := by
  rw [one_shl]
  exact Nat.or_lt_two_pow hm (Nat.pow_lt_pow_right (by omega) hj)

theorem testBit_full_iff (n i : Nat) :
    ((1 <<< n) - 1).testBit i = decide (i < n) := by
  rw [one_shl]
  exact Nat.testBit_two_pow_sub_one n i

/-! ### Held–Karp: claim-side simple paths over key-point indices -/

/-- The bit set of a list of indices. -/
def maskOf (l : List Nat) : Nat := l.foldr (fun j m => m ||| (1 <<< j)) 0

/-- A simple path over key-point indices that begins at index 0. -/
def Path0 (n : Nat) (l : List Nat) : Prop :=
  l.head? = some 0 ∧ l.Nodup ∧ ∀ x ∈ l, x < n

/-- Cost of continuing a walk from index `j` through the indices `r`. -/
def costFrom (d : List (List Nat)) : Nat → List Nat → Nat
  | _, [] => 0
  | j, k :: r => matGet d j k + costFrom d k r

theorem maskOf_nil : maskOf [] = 0 := rfl

theorem maskOf_cons (j : Nat) (r : List Nat) :
    maskOf (j :: r) = maskOf r ||| 1 <<< j := rfl

theorem testBit_maskOf (l : List Nat) (i : Nat) :
    (maskOf l).testBit i = decide (i ∈ l) := by
  induction l with
  | nil => simp [maskOf_nil, Nat.zero_testBit]
  | cons j r ih =>
    rw [maskOf_cons, or_shl_testBit, ih]
    by_cases h2 : j = i
    · subst h2
      simp [List.mem_cons]
    · simp [List.mem_cons, h2, Ne.symm h2]

theorem maskOf_append_singleton (l : List Nat) (k : Nat) :
    maskOf (l ++ [k]) = maskOf l ||| 1 <<< k := by
  refine Nat.eq_of_testBit_eq ?_
  intro i
  rw [testBit_maskOf, or_shl_testBit, testBit_maskOf]
  by_cases h2 : k = i
  · subst h2
    simp [List.mem_append]
  · simp [List.mem_append, h2, Ne.symm h2]

theorem maskOf_lt_pow (l : List Nat) (n : Nat) (h : ∀ x ∈ l, x < n) :
    maskOf l < 2 ^ n := by
  induction l with
  | nil => exact Nat.pos_pow_of_pos n (by omega)
  | cons j r ih =>
    rw [maskOf_cons, one_shl]
    exact Nat.or_lt_two_pow (ih (fun x hx => h x (List.mem_cons_of_mem _ hx)))
      (Nat.pow_lt_pow_right (by omega) (h j (List.mem_cons_self _ _)))

theorem pathCost_cons_aux (d : List (List Nat)) :
    ∀ (r : List Nat) (a : Nat) (acc : Nat),
      (((a :: r).zip r).foldl (fun s ab => s + matGet d ab.1 ab.2) acc) =
        acc + costFrom d a r := by
  intro r
  induction r with
  | nil => intro a acc; simp [costFrom]
  | cons b r2 ih =>
    intro a acc
    rw [show (a :: b :: r2).zip (b :: r2) = (a, b) :: ((b :: r2).zip r2) from rfl]
    rw [List.foldl_cons, ih]
    show acc + matGet d a b + costFrom d b r2 = acc + costFrom d a (b :: r2)
    rw [show costFrom d a (b :: r2) = matGet d a b + costFrom d b r2 from rfl]
    omega

theorem pathCost_cons (d : List (List Nat)) (a : Nat) (r : List Nat) :
    pathCost d (a :: r) = costFrom d a r := by
  unfold pathCost
  rw [show (a :: r).tail = r from rfl, pathCost_cons_aux]
  omega

theorem costFrom_append_singleton (d : List (List Nat)) :
    ∀ (r : List Nat) (a k : Nat),
      costFrom d a (r ++ [k]) = costFrom d a r + matGet d ((a :: r).getLast (by simp)) k := by
  intro r
  induction r with
  | nil => intro a k; simp [costFrom]
  | cons b r2 ih =>
    intro a k
    rw [List.cons_append, show costFrom d a (b :: (r2 ++ [k])) =
      matGet d a b + costFrom d b (r2 ++ [k]) from rfl, ih]
    rw [show costFrom d a (b :: r2) = matGet d a b + costFrom d b r2 from rfl]
    rw [show (a :: b :: r2).getLast (by simp) = (b :: r2).getLast (by simp) from rfl]
    omega

theorem pathCost_append_singleton (d : List (List Nat)) (l : List Nat) (k : Nat)
    (h : l ≠ []) :
    pathCost d (l ++ [k]) = pathCost d l + matGet d (l.getLast h) k := by
  rcases l with _ | ⟨a, r⟩
  · exact absurd rfl h
  · rw [List.cons_append, pathCost_cons, pathCost_cons, costFrom_append_singleton]

/-! ### Held–Karp: dynamic-programming table access -/

theorem getD_set_self {α : Type} (l : List α) (i : Nat) (a d : α) (h : i < l.length) :
    (l.set i a).getD i d = a := by
  simp [List.getD, List.getElem?_set_self, h]

theorem getD_set_ne {α : Type} (l : List α) (i j : Nat) (a d : α) (h : i ≠ j) :
    (l.set i a).getD j d = l.getD j d := by
  simp [List.getD, List.getElem?_set_ne h]

theorem getD_of_ge {α : Type} (l : List α) (i : Nat) (d : α) (h : l.length ≤ i) :
    l.getD i d = d := by
  simp [List.getD, List.getElem?_eq_none, h]

theorem getD_replicate {α : Type} (n : Nat) (x : α) (i : Nat) (d : α) (hi : i < n) :
    (List.replicate n x).getD i d = x := by
  simp [List.getD, List.getElem?_replicate, hi]

theorem getD_mem {α : Type} (l : List α) (i : Nat) (d : α) (h : i < l.length) :
    l.getD i d ∈ l := by
  have h2 : l.getD i d = l[i] := by
    simp [List.getD, List.getElem?_eq_getElem h]
  rw [h2]
  exact List.getElem_mem h

/-- Shape invariant of the dp table: one row per mask, one slot per index. -/
def DPShape (n : Nat) (dp : DPTable) : Prop :=
  dp.length = 1 <<< n ∧ ∀ row ∈ dp, row.length = n

theorem dpGetEntry_set_self (dp : DPTable) (m j : Nat) (v : Nat × Int)
    (hm : m < dp.length) (hj : j < (dp.getD m []).length) :
    dpGetEntry (dpSetEntry dp m j v) m j = some v := by
  unfold dpGetEntry dpSetEntry
  rw [getD_set_self dp m _ [] hm, getD_set_self _ j _ none hj]

theorem dpGetEntry_set_ne (dp : DPTable) (m j m2 j2 : Nat) (v : Nat × Int)
    (h : m2 ≠ m ∨ j2 ≠ j) :
    dpGetEntry (dpSetEntry dp m j v) m2 j2 = dpGetEntry dp m2 j2 := by
  unfold dpGetEntry dpSetEntry
  rcases h with h | h
  · rw [getD_set_ne dp m m2 _ [] (Ne.symm h)]
  · rcases eq_or_ne m2 m with rfl | hm
    · rcases Nat.lt_or_ge m2 dp.length with hlt | hge
      · rw [getD_set_self dp m2 _ [] hlt, getD_set_ne _ j j2 _ none (Ne.symm h)]
      · rw [List.set_eq_of_length_le hge]
    · rw [getD_set_ne dp m m2 _ [] (Ne.symm hm)]

theorem DPShape_set (n : Nat) (dp : DPTable) (m j : Nat) (v : Nat × Int)
    (h : DPShape n dp) : DPShape n (dpSetEntry dp m j v) := by
  obtain ⟨hlen, hrow⟩ := h
  rcases Nat.lt_or_ge m dp.length with hlt | hge
  · constructor
    · unfold dpSetEntry
      rw [List.length_set]
      exact hlen
    · intro row hr
      unfold dpSetEntry at hr
      rcases List.mem_or_eq_of_mem_set hr with hr2 | rfl
      · exact hrow row hr2
      · rw [List.length_set]
        exact hrow _ (getD_mem dp m [] hlt)
  · unfold dpSetEntry
    rw [List.set_eq_of_length_le hge]
    exact ⟨hlen, hrow⟩

theorem dp_bounds_of_shape (n : Nat) (dp : DPTable) (m j : Nat)
    (h : DPShape n dp) (hm : m < 1 <<< n) (hj : j < n) :
    m < dp.length ∧ j < (dp.getD m []).length := by
  obtain ⟨hlen, hrow⟩ := h
  have hmlt : m < dp.length := by omega
  refine ⟨hmlt, ?_⟩
  rw [hrow _ (getD_mem dp m [] hmlt)]
  exact hj

theorem dpGetEntry_replicate_none (A n : Nat) (m j : Nat) :
    dpGetEntry (List.replicate A (List.replicate n none)) m j = none := by
  unfold dpGetEntry
  rcases Nat.lt_or_ge m A with hm | hm
  · rw [show (List.replicate A (List.replicate n (none : Option (Nat × Int)))).getD m [] =
        List.replicate n none from getD_replicate A _ m [] hm]
    rcases Nat.lt_or_ge j n with hj | hj
    · rw [getD_replicate n _ j none hj]
    · rw [getD_of_ge _ j none (by rw [List.length_replicate]; exact hj)]
  · rw [getD_of_ge _ m [] (by rw [List.length_replicate]; exact hm)]
    rfl

/-! ### Held–Karp: named forms of the dynamic-programming folds -/

/-- The inner `for k in range(n)` body of the dynamic program, named. -/
def hkInner (dist : List (List Nat)) (mask j : Nat) (cj : Nat × Int)
    (dp2 : DPTable) (k : Nat) : DPTable :=
  if mask &&& (1 <<< k) ≠ 0 then dp2
  else
    let new_mask := mask ||| (1 <<< k)
    let cand := cj.1 + matGet dist j k
    if hkBetter (dpGetEntry dp2 new_mask k) cand j then
      dpSetEntry dp2 new_mask k (cand, (j : Int))
    else dp2

/-- The outer `for j, (cost_j, _) in list(dp[mask].items())` body, named;
`dp` is the snapshot the items are read from. -/
def hkOuter (dist : List (List Nat)) (n : Nat) (dp : DPTable) (mask : Nat)
    (dp2 : DPTable) (j : Nat) : DPTable :=
  match dpGetEntry dp mask j with
  | none => dp2
  | some cj => (List.range n).foldl (hkInner dist mask j cj) dp2

theorem hkStep_eq (dist : List (List Nat)) (n : Nat) (dp : DPTable) (mask : Nat) :
    hkStep dist n dp mask =
      if mask &&& 1 = 0 then dp
      else (List.range n).foldl (hkOuter dist n dp mask) dp := rfl

/-- The dp table after processing the masks `0, …, M-1`. -/
def hkDP (dist : List (List Nat)) (n M : Nat) : DPTable :=
  (List.range M).foldl (hkStep dist n)
    (dpSetEntry (List.replicate (1 <<< n) (List.replicate n none)) 1 0 (0, -1))

theorem held_karp_eq (dist : List (List Nat)) :
    _held_karp_tsp dist =
      (let n := dist.length
       let dp := hkDP dist n (1 <<< n)
       let be := hkBest dp n
       if be.2 = n then some (.error .infeasible)
       else
         match hkRecon dp (n + 1) ((1 <<< n) - 1) (be.2 : Int) [] with
         | none => none
         | some order => some (.ok (be.1, order))) := rfl

/-! ### Held–Karp: entry monotonicity -/

theorem hkBetter_true_le (ev : Nat × Int) (cand j : Nat)
    (h : hkBetter (some ev) cand j = true) : cand ≤ ev.1 := by
  unfold hkBetter at h
  rcases Bool.or_eq_true_iff.mp h with h2 | h2
  · exact Nat.le_of_lt (of_decide_eq_true h2)
  · exact Nat.le_of_eq (of_decide_eq_true (Bool.and_eq_true_iff.mp h2).1)

theorem hkBetter_false_some (ov : Option (Nat × Int)) (cand j : Nat)
    (h : hkBetter ov cand j = false) : ∃ ev, ov = some ev ∧ ev.1 ≤ cand := by
  cases ov with
  | none => exact absurd h (by simp [hkBetter])
  | some ev =>
    refine ⟨ev, rfl, ?_⟩
    unfold hkBetter at h
    rcases Bool.or_eq_false_iff.mp h with ⟨h1, _⟩
    exact Nat.le_of_not_lt (of_decide_eq_false h1)

theorem dpGetEntry_bounds (dp : DPTable) (m j : Nat) (cp : Nat × Int)
    (h : dpGetEntry dp m j = some cp) :
    m < dp.length ∧ j < (dp.getD m []).length := by
  unfold dpGetEntry at h
  constructor
  · by_contra hm
    rw [getD_of_ge dp m [] (Nat.le_of_not_lt hm)] at h
    rw [getD_of_ge [] j none (by simp)] at h
    exact Option.noConfusion h
  · by_contra hj
    rw [getD_of_ge _ j none (Nat.le_of_not_lt hj)] at h
    exact Option.noConfusion h

/-- Entries never disappear and their costs never increase. -/
def EntryLe (dp dp2 : DPTable) : Prop :=
  ∀ m j cp, dpGetEntry dp m j = some cp →
    ∃ cp2, dpGetEntry dp2 m j = some cp2 ∧ cp2.1 ≤ cp.1

theorem EntryLe.rfl (dp : DPTable) : EntryLe dp dp :=
  fun _ _ cp h => ⟨cp, h, Nat.le_refl _⟩

theorem EntryLe.trans {dp1 dp2 dp3 : DPTable}
    (h1 : EntryLe dp1 dp2) (h2 : EntryLe dp2 dp3) : EntryLe dp1 dp3 := by
  intro m j cp h
  obtain ⟨cpa, ha, hle1⟩ := h1 m j cp h
  obtain ⟨cpb, hb, hle2⟩ := h2 m j cpa ha
  exact ⟨cpb, hb, Nat.le_trans hle2 hle1⟩

theorem hkInner_entryLe (dist : List (List Nat)) (mask j : Nat) (cj : Nat × Int)
    (dp2 : DPTable) (k : Nat) : EntryLe dp2 (hkInner dist mask j cj dp2 k) := by
  unfold hkInner
  by_cases hskip : mask &&& (1 <<< k) ≠ 0
  · rw [if_pos hskip]
    exact EntryLe.rfl dp2
  · rw [if_neg hskip]
    cases hb : hkBetter (dpGetEntry dp2 (mask ||| (1 <<< k)) k) (cj.1 + matGet dist j k) j with
    | false =>
      simp only [hb, if_false]
      exact EntryLe.rfl dp2
    | true =>
      simp only [hb, if_true]
      intro m2 j2 cp hcp
      rcases Classical.em (m2 = mask ||| (1 <<< k) ∧ j2 = k) with ⟨rfl, rfl⟩ | hne
      · obtain ⟨hm, hj⟩ := dpGetEntry_bounds dp2 _ _ cp hcp
        refine ⟨(cj.1 + matGet dist j j2, (j : Int)), dpGetEntry_set_self dp2 _ _ _ hm hj, ?_⟩
        rw [hcp] at hb
        exact hkBetter_true_le cp _ j hb
      · have hor : m2 ≠ mask ||| (1 <<< k) ∨ j2 ≠ k := by
          by_contra hc
          push_neg at hc
          exact hne ⟨hc.1, hc.2⟩
        rw [dpGetEntry_set_ne dp2 _ k m2 j2 _ hor]
        exact ⟨cp, hcp, Nat.le_refl _⟩

theorem hkInner_fold_entryLe (dist : List (List Nat)) (mask j : Nat) (cj : Nat × Int) :
    ∀ (L : List Nat) (dp2 : DPTable), EntryLe dp2 (L.foldl (hkInner dist mask j cj) dp2) := by
  intro L
  induction L with
  | nil => intro dp2; exact EntryLe.rfl dp2
  | cons k L ih =>
    intro dp2
    rw [List.foldl_cons]
    exact EntryLe.trans (hkInner_entryLe dist mask j cj dp2 k) (ih _)

theorem hkOuter_fold_entryLe (dist : List (List Nat)) (n : Nat) (dp : DPTable) (mask : Nat) :
    ∀ (L : List Nat) (dp2 : DPTable), EntryLe dp2 (L.foldl (hkOuter dist n dp mask) dp2) := by
  intro L
  induction L with
  | nil => intro dp2; exact EntryLe.rfl dp2
  | cons j L ih =>
    intro dp2
    rw [List.foldl_cons]
    refine EntryLe.trans ?_ (ih _)
    unfold hkOuter
    cases dpGetEntry dp mask j with
    | none => exact EntryLe.rfl dp2
    | some cj => exact hkInner_fold_entryLe dist mask j cj _ dp2

theorem hkStep_entryLe (dist : List (List Nat)) (n : Nat) (dp : DPTable) (mask : Nat) :
    EntryLe dp (hkStep dist n dp mask) := by
  rw [hkStep_eq]
  by_cases h : mask &&& 1 = 0
  · rw [if_pos h]
    exact EntryLe.rfl dp
  · rw [if_neg h]
    exact hkOuter_fold_entryLe dist n dp mask _ dp

/-! ### Held–Karp: shape preservation -/

theorem hkInner_shape (dist : List (List Nat)) (mask j : Nat) (cj : Nat × Int)
    (n : Nat) (dp2 : DPTable) (k : Nat) (h : DPShape n dp2) :
    DPShape n (hkInner dist mask j cj dp2 k) := by
  unfold hkInner
  by_cases hskip : mask &&& (1 <<< k) ≠ 0
  · rwa [if_pos hskip]
  · rw [if_neg hskip]
    cases hb : hkBetter (dpGetEntry dp2 (mask ||| (1 <<< k)) k) (cj.1 + matGet dist j k) j with
    | false => simpa only [hb, if_false]
    | true =>
      simp only [hb, if_true]
      exact DPShape_set n dp2 _ _ _ h

theorem hkInner_fold_shape (dist : List (List Nat)) (mask j : Nat) (cj : Nat × Int)
    (n : Nat) :
    ∀ (L : List Nat) (dp2 : DPTable), DPShape n dp2 →
      DPShape n (L.foldl (hkInner dist mask j cj) dp2) := by
  intro L
  induction L with
  | nil => intro dp2 h; exact h
  | cons k L ih =>
    intro dp2 h
    rw [List.foldl_cons]
    exact ih _ (hkInner_shape dist mask j cj n dp2 k h)

theorem hkOuter_fold_shape (dist : List (List Nat)) (n : Nat) (dp : DPTable) (mask : Nat) :
    ∀ (L : List Nat) (dp2 : DPTable), DPShape n dp2 →
      DPShape n (L.foldl (hkOuter dist n dp mask) dp2) := by
  intro L
  induction L with
  | nil => intro dp2 h; exact h
  | cons j L ih =>
    intro dp2 h
    rw [List.foldl_cons]
    refine ih _ ?_
    unfold hkOuter
    cases dpGetEntry dp mask j with
    | none => exact h
    | some cj => exact hkInner_fold_shape dist mask j cj n _ dp2 h

theorem hkStep_shape (dist : List (List Nat)) (n : Nat) (dp : DPTable) (mask : Nat)
    (h : DPShape n dp) : DPShape n (hkStep dist n dp mask) := by
  rw [hkStep_eq]
  by_cases h2 : mask &&& 1 = 0
  · rwa [if_pos h2]
  · rw [if_neg h2]
    exact hkOuter_fold_shape dist n dp mask _ dp h

/-! ### Held–Karp: the chain-soundness invariant -/

/-- Every recorded entry is either the base state or carries a valid
predecessor link: index in range, the mask holds the index bit and bit 0,
the parent mask was already processed, and the recorded cost extends the
parent entry by one matrix step. -/
def ChainInv (dist : List (List Nat)) (n M : Nat) (dp : DPTable) : Prop :=
  dpGetEntry dp 1 0 = some (0, -1) ∧
  ∀ m j cp, dpGetEntry dp m j = some cp →
    (m = 1 ∧ j = 0 ∧ cp = (0, -1)) ∨
    (j ≠ 0 ∧ j < n ∧ m.testBit j = true ∧ m.testBit 0 = true ∧
      m ^^^ (1 <<< j) < M ∧
      ∃ p : Nat, ∃ cp2 : Nat × Int,
        cp.2 = (p : Int) ∧ p < n ∧
        dpGetEntry dp (m ^^^ (1 <<< j)) p = some cp2 ∧
        cp.1 = cp2.1 + matGet dist p j)

theorem ChainInv_mono (dist : List (List Nat)) (n M M2 : Nat) (dp : DPTable)
    (h : ChainInv dist n M dp) (hle : M ≤ M2) : ChainInv dist n M2 dp := by
  obtain ⟨hbase, hmain⟩ := h
  refine ⟨hbase, ?_⟩
  intro m j cp hcp
  rcases hmain m j cp hcp with h1 | ⟨h1, h2, h3, h4, h5, h6⟩
  · exact Or.inl h1
  · exact Or.inr ⟨h1, h2, h3, h4, Nat.lt_of_lt_of_le h5 hle, h6⟩

theorem ChainInv_update (dist : List (List Nat)) (n M : Nat) (dp2 : DPTable)
    (j k : Nat) (cj : Nat × Int)
    (hshape : DPShape n dp2)
    (hM0 : M.testBit 0 = true) (hMlt : M < 1 <<< n)
    (hk : k < n) (hkbit : M.testBit k = false) (hj : j < n)
    (hcj : dpGetEntry dp2 M j = some cj)
    (hinv : ChainInv dist n (M + 1) dp2) :
    ChainInv dist n (M + 1)
      (dpSetEntry dp2 (M ||| 1 <<< k) k (cj.1 + matGet dist j k, (j : Int))) := by
  obtain ⟨hbase, hmain⟩ := hinv
  have hk0 : k ≠ 0 := by
    intro h
    rw [h, hM0] at hkbit
    exact Bool.noConfusion hkbit
  have hMne : M ||| 1 <<< k ≠ M := Nat.ne_of_gt (lt_or_shl M k hkbit)
  have hMlt2 : M < 2 ^ n := by
    rw [one_shl] at hMlt
    exact hMlt
  have hnm_lt : M ||| 1 <<< k < 1 <<< n := by
    rw [one_shl n]
    exact or_shl_lt_pow M k n hMlt2 hk
  constructor
  · rw [dpGetEntry_set_ne dp2 _ k 1 0 _ (Or.inr (Ne.symm hk0))]
    exact hbase
  · intro m j2 cp hcp
    rcases Classical.em (m = M ||| 1 <<< k ∧ j2 = k) with ⟨rfl, rfl⟩ | hne
    · have hbounds := dp_bounds_of_shape n dp2 (M ||| 1 <<< j2) j2 hshape hnm_lt hk
      rw [dpGetEntry_set_self dp2 _ j2 _ hbounds.1 hbounds.2] at hcp
      have hcpv : cp = (cj.1 + matGet dist j j2, (j : Int)) := (Option.some.inj hcp).symm
      refine Or.inr ⟨hk0, hk, ?_, ?_, ?_, j, cj, ?_, hj, ?_, ?_⟩
      · rw [or_shl_testBit]
        simp
      · rw [or_shl_testBit, hM0]
        simp
      · rw [or_xor_shl_cancel M j2 hkbit]
        omega
      · rw [hcpv]
      · rw [or_xor_shl_cancel M j2 hkbit]
        rw [dpGetEntry_set_ne dp2 _ j2 M j _ (Or.inl hMne.symm)]
        exact hcj
      · rw [hcpv]
    · have hor : m ≠ M ||| 1 <<< k ∨ j2 ≠ k := by
        by_contra hc
        push_neg at hc
        exact hne ⟨hc.1, hc.2⟩
      rw [dpGetEntry_set_ne dp2 _ k m j2 _ hor] at hcp
      rcases hmain m j2 cp hcp with h1 | ⟨h1, h2, h3, h4, h5, p, cp2, h6, h7, h8, h9⟩
      · exact Or.inl h1
      · refine Or.inr ⟨h1, h2, h3, h4, h5, p, cp2, h6, h7, ?_, h9⟩
        rw [dpGetEntry_set_ne dp2 _ k _ p _ (Or.inl ?_)]
        · exact h8
        · intro hcontra
          rw [hcontra] at h5
          have hgt := lt_or_shl M k hkbit
          omega

theorem hkInner_chain (dist : List (List Nat)) (n M j : Nat) (cj : Nat × Int)
    (dp : DPTable)
    (hM0 : M.testBit 0 = true) (hMlt : M < 1 <<< n) (hj : j < n)
    (hcj : dpGetEntry dp M j = some cj) :
    ∀ (L : List Nat), (∀ k ∈ L, k < n) →
    ∀ dp2, DPShape n dp2 → ChainInv dist n (M + 1) dp2 →
      (∀ j2, dpGetEntry dp2 M j2 = dpGetEntry dp M j2) →
      DPShape n (L.foldl (hkInner dist M j cj) dp2) ∧
      ChainInv dist n (M + 1) (L.foldl (hkInner dist M j cj) dp2) ∧
      (∀ j2, dpGetEntry (L.foldl (hkInner dist M j cj) dp2) M j2 = dpGetEntry dp M j2) := by
  intro L
  induction L with
  | nil =>
    intro _ dp2 h1 h2 h3
    exact ⟨h1, h2, h3⟩
  | cons k L ih =>
    intro hbound dp2 h1 h2 h3
    rw [List.foldl_cons]
    have hkn : k < n := hbound k (List.mem_cons_self _ _)
    have hstep : DPShape n (hkInner dist M j cj dp2 k) ∧
        ChainInv dist n (M + 1) (hkInner dist M j cj dp2 k) ∧
        (∀ j2, dpGetEntry (hkInner dist M j cj dp2 k) M j2 = dpGetEntry dp M j2) := by
      unfold hkInner
      by_cases hskip : M &&& (1 <<< k) ≠ 0
      · rw [if_pos hskip]
        exact ⟨h1, h2, h3⟩
      · rw [if_neg hskip]
        have hkbit : M.testBit k = false := by
          rcases Bool.eq_false_or_eq_true (M.testBit k) with h | h
          · exact absurd ((and_shl_ne_iff M k).mpr h) hskip
          · exact h
        cases hb : hkBetter (dpGetEntry dp2 (M ||| (1 <<< k)) k) (cj.1 + matGet dist j k) j with
        | false =>
          simp only [hb, if_false]
          exact ⟨h1, h2, h3⟩
        | true =>
          simp only [hb, if_true]
          have hcj2 : dpGetEntry dp2 M j = some cj := by
            rw [h3 j]
            exact hcj
          refine ⟨DPShape_set n dp2 _ _ _ h1,
            ChainInv_update dist n M dp2 j k cj h1 hM0 hMlt hkn hkbit hj hcj2 h2, ?_⟩
          intro j2
          rw [dpGetEntry_set_ne dp2 _ k M j2 _
            (Or.inl (Nat.ne_of_lt (lt_or_shl M k hkbit)))]
          exact h3 j2
    exact ih (fun x hx => hbound x (List.mem_cons_of_mem _ hx)) _ hstep.1 hstep.2.1 hstep.2.2

theorem hkOuter_chain (dist : List (List Nat)) (n : Nat) (dp : DPTable) (M : Nat)
    (hM0 : M.testBit 0 = true) (hMlt : M < 1 <<< n) :
    ∀ (L : List Nat), (∀ j ∈ L, j < n) →
    ∀ dp2, DPShape n dp2 → ChainInv dist n (M + 1) dp2 →
      (∀ j2, dpGetEntry dp2 M j2 = dpGetEntry dp M j2) →
      DPShape n (L.foldl (hkOuter dist n dp M) dp2) ∧
      ChainInv dist n (M + 1) (L.foldl (hkOuter dist n dp M) dp2) ∧
      (∀ j2, dpGetEntry (L.foldl (hkOuter dist n dp M) dp2) M j2 = dpGetEntry dp M j2) := by
  intro L
  induction L with
  | nil =>
    intro _ dp2 h1 h2 h3
    exact ⟨h1, h2, h3⟩
  | cons j L ih =>
    intro hbound dp2 h1 h2 h3
    rw [List.foldl_cons]
    have hstep : DPShape n (hkOuter dist n dp M dp2 j) ∧
        ChainInv dist n (M + 1) (hkOuter dist n dp M dp2 j) ∧
        (∀ j2, dpGetEntry (hkOuter dist n dp M dp2 j) M j2 = dpGetEntry dp M j2) := by
      unfold hkOuter
      cases hsnap : dpGetEntry dp M j with
      | none => exact ⟨h1, h2, h3⟩
      | some cj =>
        exact hkInner_chain dist n M j cj dp hM0 hMlt
          (hbound j (List.mem_cons_self _ _)) hsnap (List.range n)
          (fun k hk => List.mem_range.mp hk) dp2 h1 h2 h3
    exact ih (fun x hx => hbound x (List.mem_cons_of_mem _ hx)) _ hstep.1 hstep.2.1 hstep.2.2

theorem hkStep_chain (dist : List (List Nat)) (n : Nat) (dp : DPTable) (M : Nat)
    (hshape : DPShape n dp) (hMlt : M < 1 <<< n) (hinv : ChainInv dist n M dp) :
    ChainInv dist n (M + 1) (hkStep dist n dp M) := by
  rw [hkStep_eq]
  by_cases h : M &&& 1 = 0
  · rw [if_pos h]
    exact ChainInv_mono dist n M (M + 1) dp hinv (Nat.le_succ M)
  · rw [if_neg h]
    have hM0 : M.testBit 0 = true := (and_one_ne_iff M).mp h
    exact (hkOuter_chain dist n dp M hM0 hMlt (List.range n)
      (fun j hj => List.mem_range.mp hj) dp hshape
      (ChainInv_mono dist n M (M + 1) dp hinv (Nat.le_succ M)) (fun _ => rfl)).2.1

theorem hkDP_succ (dist : List (List Nat)) (n M : Nat) :
    hkDP dist n (M + 1) = hkStep dist n (hkDP dist n M) M := by
  unfold hkDP
  rw [List.range_succ, List.foldl_append, List.foldl_cons, List.foldl_nil]

theorem hkDP_zero_shape (dist : List (List Nat)) (n : Nat) :
    DPShape n (hkDP dist n 0) := by
  unfold hkDP
  rw [List.range_zero, List.foldl_nil]
  refine DPShape_set n _ 1 0 (0, -1) ⟨List.length_replicate _ _, ?_⟩
  intro row hr
  rw [List.eq_of_mem_replicate hr]
  exact List.length_replicate _ _

theorem hkDP_zero_entry (dist : List (List Nat)) (n : Nat) (hn : 1 ≤ n) :
    dpGetEntry (hkDP dist n 0) 1 0 = some (0, -1) ∧
    (∀ m j cp, dpGetEntry (hkDP dist n 0) m j = some cp →
      m = 1 ∧ j = 0 ∧ cp = (0, -1)) := by
  have h2n : 2 ≤ 1 <<< n := by
    rw [one_shl]
    have := Nat.one_lt_two_pow (by omega : n ≠ 0)
    omega
  have hbase : ∀ m j, dpGetEntry
      (List.replicate (1 <<< n) (List.replicate n (none : Option (Nat × Int)))) m j = none :=
    fun m j => dpGetEntry_replicate_none _ n m j
  have hlen : (List.replicate (1 <<< n) (List.replicate n (none : Option (Nat × Int)))).length
      = 1 <<< n := List.length_replicate _ _
  have hival : dpGetEntry (hkDP dist n 0) 1 0 = some (0, -1) := by
    unfold hkDP
    rw [List.range_zero, List.foldl_nil]
    refine dpGetEntry_set_self _ 1 0 (0, -1) (by omega) ?_
    rw [show (List.replicate (1 <<< n) (List.replicate n (none : Option (Nat × Int)))).getD 1 []
      = List.replicate n none from getD_replicate _ _ 1 [] (by omega)]
    rw [List.length_replicate]
    omega
  refine ⟨hival, ?_⟩
  intro m j cp hcp
  rcases Classical.em (m = 1 ∧ j = 0) with ⟨rfl, rfl⟩ | hne
  · rw [hival] at hcp
    exact ⟨rfl, rfl, (Option.some.inj hcp).symm⟩
  · exfalso
    have hor : m ≠ 1 ∨ j ≠ 0 := by
      by_contra hc
      push_neg at hc
      exact hne ⟨hc.1, hc.2⟩
    unfold hkDP at hcp
    rw [List.range_zero, List.foldl_nil] at hcp
    rw [dpGetEntry_set_ne _ 1 0 m j _ hor, hbase m j] at hcp
    exact Option.noConfusion hcp

theorem hkDP_zero_chain (dist : List (List Nat)) (n : Nat) (hn : 1 ≤ n) :
    ChainInv dist n 0 (hkDP dist n 0) := by
  obtain ⟨hival, hall⟩ := hkDP_zero_entry dist n hn
  refine ⟨hival, ?_⟩
  intro m j cp hcp
  exact Or.inl (hall m j cp hcp)

theorem hkDP_chain (dist : List (List Nat)) (n : Nat) (hn : 1 ≤ n) :
    ∀ M, M ≤ 1 <<< n → DPShape n (hkDP dist n M) ∧ ChainInv dist n M (hkDP dist n M) := by
  intro M
  induction M with
  | zero => exact fun _ => ⟨hkDP_zero_shape dist n, hkDP_zero_chain dist n hn⟩
  | succ M ih =>
    intro hle
    obtain ⟨hshape, hchain⟩ := ih (by omega)
    rw [hkDP_succ]
    exact ⟨hkStep_shape dist n _ M hshape,
      hkStep_chain dist n _ M hshape (by omega) hchain⟩

/-! ### Held–Karp: completeness of the dynamic program -/

theorem hkInner_fold_cand (dist : List (List Nat)) (n M j : Nat) (cj : Nat × Int)
    (k : Nat) (hkbit : M.testBit k = false) (hMlt : M < 1 <<< n) (hk : k < n) :
    ∀ (L : List Nat), k ∈ L →
    ∀ dp2, DPShape n dp2 →
      ∃ cp, dpGetEntry (L.foldl (hkInner dist M j cj) dp2) (M ||| 1 <<< k) k = some cp ∧
        cp.1 ≤ cj.1 + matGet dist j k := by
  intro L
  induction L with
  | nil => intro h; exact absurd h (List.not_mem_nil k)
  | cons a L ih =>
    intro hmem dp2 hshape
    rw [List.foldl_cons]
    rcases eq_or_ne a k with rfl | hne
    · have hnm_lt : M ||| 1 <<< a < 1 <<< n := by
        rw [one_shl n]
        refine or_shl_lt_pow M a n ?_ hk
        rw [one_shl] at hMlt
        exact hMlt
      have hstep : ∃ cp, dpGetEntry (hkInner dist M j cj dp2 a) (M ||| 1 <<< a) a = some cp ∧
          cp.1 ≤ cj.1 + matGet dist j a := by
        unfold hkInner
        have hskip : ¬ (M &&& (1 <<< a) ≠ 0) := by
          intro hc
          rw [(and_shl_ne_iff M a).mp hc] at hkbit
          exact Bool.noConfusion hkbit
        rw [if_neg hskip]
        cases hb : hkBetter (dpGetEntry dp2 (M ||| (1 <<< a)) a) (cj.1 + matGet dist j a) j with
        | false =>
          simp only [hb, if_false]
          obtain ⟨ev, hev, hevle⟩ := hkBetter_false_some _ _ _ hb
          exact ⟨ev, hev, hevle⟩
        | true =>
          simp only [hb, if_true]
          have hbounds := dp_bounds_of_shape n dp2 (M ||| 1 <<< a) a hshape hnm_lt hk
          exact ⟨(cj.1 + matGet dist j a, (j : Int)),
            dpGetEntry_set_self dp2 _ a _ hbounds.1 hbounds.2, Nat.le_refl _⟩
      obtain ⟨cp, hcp, hcple⟩ := hstep
      obtain ⟨cp2, hcp2, hcp2le⟩ := hkInner_fold_entryLe dist M j cj L _ _ _ cp hcp
      exact ⟨cp2, hcp2, Nat.le_trans hcp2le hcple⟩
    · exact ih (by
        rcases List.mem_cons.mp hmem with h | h
        · exact absurd h.symm hne
        · exact h) _ (hkInner_shape dist M j cj n dp2 a hshape)

theorem hkOuter_fold_cand (dist : List (List Nat)) (n : Nat) (dp : DPTable) (M : Nat)
    (j k : Nat) (cj : Nat × Int)
    (hsnap : dpGetEntry dp M j = some cj)
    (hkbit : M.testBit k = false) (hMlt : M < 1 <<< n) (hk : k < n) :
    ∀ (L : List Nat), j ∈ L →
    ∀ dp2, DPShape n dp2 →
      ∃ cp, dpGetEntry (L.foldl (hkOuter dist n dp M) dp2) (M ||| 1 <<< k) k = some cp ∧
        cp.1 ≤ cj.1 + matGet dist j k := by
  intro L
  induction L with
  | nil => intro h; exact absurd h (List.not_mem_nil j)
  | cons a L ih =>
    intro hmem dp2 hshape
    rw [List.foldl_cons]
    rcases eq_or_ne a j with rfl | hne
    · have hstep : ∃ cp, dpGetEntry (hkOuter dist n dp M dp2 a) (M ||| 1 <<< k) k = some cp ∧
          cp.1 ≤ cj.1 + matGet dist a k := by
        unfold hkOuter
        rw [hsnap]
        exact hkInner_fold_cand dist n M a cj k hkbit hMlt hk (List.range n)
          (List.mem_range.mpr hk) dp2 hshape
      obtain ⟨cp, hcp, hcple⟩ := hstep
      obtain ⟨cp2, hcp2, hcp2le⟩ := hkOuter_fold_entryLe dist n dp M L _ _ _ cp hcp
      exact ⟨cp2, hcp2, Nat.le_trans hcp2le hcple⟩
    · refine ih (by
        rcases List.mem_cons.mp hmem with h | h
        · exact absurd h.symm hne
        · exact h) _ ?_
      unfold hkOuter
      cases dpGetEntry dp M a with
      | none => exact hshape
      | some cj2 => exact hkInner_fold_shape dist M a cj2 n _ dp2 hshape

theorem hkStep_cand (dist : List (List Nat)) (n : Nat) (dp : DPTable) (M : Nat)
    (j k : Nat) (cj : Nat × Int)
    (hshape : DPShape n dp) (hM0 : M.testBit 0 = true) (hMlt : M < 1 <<< n)
    (hsnap : dpGetEntry dp M j = some cj) (hj : j < n) (hk : k < n)
    (hkbit : M.testBit k = false) :
    ∃ cp, dpGetEntry (hkStep dist n dp M) (M ||| 1 <<< k) k = some cp ∧
      cp.1 ≤ cj.1 + matGet dist j k := by
  rw [hkStep_eq]
  have h1 : ¬ (M &&& 1 = 0) := fun hc => ((and_one_ne_iff M).mpr hM0) hc
  rw [if_neg h1]
  exact hkOuter_fold_cand dist n dp M j k cj hsnap hkbit hMlt hk (List.range n)
    (List.mem_range.mpr hj) dp hshape

/-- Completeness invariant: every simple path from index 0 whose prefix mask
has been processed is dominated by a recorded entry. -/
def CompInv (dist : List (List Nat)) (n M : Nat) (dp : DPTable) : Prop :=
  ∀ (l : List Nat) (j : Nat), Path0 n (l ++ [j]) → maskOf l < M →
    ∃ cp, dpGetEntry dp (maskOf (l ++ [j])) j = some cp ∧
      cp.1 ≤ pathCost dist (l ++ [j])

theorem pathCost_append_of_getLast? (d : List (List Nat)) (l : List Nat) (a k : Nat)
    (h : l.getLast? = some a) :
    pathCost d (l ++ [k]) = pathCost d l + matGet d a k := by
  have hne : l ≠ [] := by
    intro he
    rw [he] at h
    exact Option.noConfusion h
  have h3 := List.getLast?_eq_getLast l hne
  rw [h] at h3
  rw [pathCost_append_singleton d l k hne, (Option.some.inj h3)]

theorem Path0_drop_last (n : Nat) (l : List Nat) (j : Nat) (hne : l ≠ [])
    (h : Path0 n (l ++ [j])) : Path0 n l := by
  obtain ⟨hh, hnd, hb⟩ := h
  refine ⟨?_, hnd.of_append_left, fun x hx => hb x (List.mem_append_left _ hx)⟩
  rcases l with _ | ⟨a, t⟩
  · exact absurd rfl hne
  · simpa using hh

theorem hkDP_comp (dist : List (List Nat)) (n : Nat) (hn : 1 ≤ n) :
    ∀ M, M ≤ 1 <<< n → CompInv dist n M (hkDP dist n M) := by
  intro M
  induction M with
  | zero =>
    intro _ l j _ h0
    exact absurd h0 (Nat.not_lt_zero _)
  | succ M ih =>
    intro hle
    have hcomp := ih (by omega)
    obtain ⟨hshape, _⟩ := hkDP_chain dist n hn M (by omega)
    rw [hkDP_succ]
    intro l j hp hmlt
    rcases Nat.lt_or_ge (maskOf l) M with hlt | hge
    · obtain ⟨cp, hcp, hle2⟩ := hcomp l j hp hlt
      obtain ⟨cp2, hcp2, hle3⟩ := hkStep_entryLe dist n _ M _ _ _ hcp
      exact ⟨cp2, hcp2, Nat.le_trans hle3 hle2⟩
    · have hMeq : maskOf l = M := by omega
      rcases List.eq_nil_or_concat l with rfl | ⟨l2, j2, hl⟩
      · have hM0 : 0 = M := by rw [← hMeq]; rfl
        subst hM0
        obtain ⟨hh, _, _⟩ := hp
        have hj0 : j = 0 := by simpa using hh
        subst hj0
        have hch1 := (hkDP_chain dist n hn 1 (by
          have h2n : 2 ≤ 1 <<< n := by
            rw [one_shl]
            have := Nat.one_lt_two_pow (by omega : n ≠ 0)
            omega
          omega)).2.1
      -- entry (1, 0) = (0, -1) in hkDP dist n 1 = hkStep … 0
        have hch2 : dpGetEntry (hkStep dist n (hkDP dist n 0) 0) 1 0 = some (0, -1) := by
          rw [← hkDP_succ]
          exact hch1
        refine ⟨(0, -1), ?_, ?_⟩
        · rw [show maskOf ([] ++ [0]) = 1 from rfl]
          exact hch2
        · rw [show pathCost dist ([] ++ [0]) = 0 from rfl]
      · rw [List.concat_eq_append] at hl
        subst hl
        have hp2 : Path0 n (l2 ++ [j2]) := Path0_drop_last n (l2 ++ [j2]) j (by simp) hp
        have hnd2 : (l2 ++ [j2]).Nodup := hp2.2.1
        have hj2nl2 : j2 ∉ l2 := by
          intro hc
          exact (List.disjoint_of_nodup_append hnd2) hc (by simp)
        have hbit2 : (maskOf l2).testBit j2 = false := by
          rw [testBit_maskOf]
          simp [hj2nl2]
        have hm2lt : maskOf l2 < M := by
          rw [← hMeq, maskOf_append_singleton]
          exact lt_or_shl _ j2 hbit2
        obtain ⟨cj, hcj, hcjle⟩ := hcomp l2 j2 hp2 hm2lt
        rw [hMeq] at hcj
        have hjnl : j ∉ l2 ++ [j2] := by
          intro hc
          exact (List.disjoint_of_nodup_append hp.2.1) hc (by simp)
        have hjbit : M.testBit j = false := by
          rw [← hMeq, testBit_maskOf]
          simp [hjnl]
        have h0mem : (0 : Nat) ∈ l2 ++ [j2] := by
          refine List.mem_of_mem_head? ?_
          have := hp.1
          rcases l2 with _ | ⟨a, t⟩
          · simpa using this
          · simpa using this
      -- wait: head? of ((a :: t) ++ [j2]) ++ [j] = some 0 gives a = 0
        have hM0 : M.testBit 0 = true := by
          rw [← hMeq, testBit_maskOf]
          simp [h0mem]
        have hMlt : M < 1 <<< n := by
          rw [← hMeq, one_shl]
          exact maskOf_lt_pow _ n hp2.2.2
        have hjn : j < n := hp.2.2 j (by simp)
        have hj2n : j2 < n := hp2.2.2 j2 (by simp)
        obtain ⟨cp, hcp, hcple⟩ := hkStep_cand dist n (hkDP dist n M) M j2 j cj
          hshape hM0 hMlt hcj hj2n hjn hjbit
        refine ⟨cp, ?_, ?_⟩
        · rw [maskOf_append_singleton, hMeq]
          exact hcp
        · rw [pathCost_append_of_getLast? dist (l2 ++ [j2]) j2 j (by simp)]
          omega

/-! ### Held–Karp: the final selection loop -/

theorem hkBestStep_cases (dp : DPTable) (full : Nat) (be : Nat × Nat) (j : Nat) :
    hkBestStep dp full be j = be ∨
    (j ≠ 0 ∧ ∃ cj, dpGetEntry dp full j = some cj ∧
      hkBestStep dp full be j = (cj.1, j)) := by
  by_cases h0 : j = 0
  · left
    unfold hkBestStep
    rw [if_pos h0]
  · cases hga : dpGetEntry dp full j with
    | none =>
      left
      unfold hkBestStep
      rw [if_neg h0, hga]
    | some cj =>
      by_cases hc : cj.1 < be.1 ∨ (cj.1 = be.1 ∧ j < be.2)
      · right
        refine ⟨h0, cj, rfl, ?_⟩
        unfold hkBestStep
        rw [if_neg h0, hga]
        show (if cj.1 < be.1 ∨ (cj.1 = be.1 ∧ j < be.2) then (cj.1, j) else be) = (cj.1, j)
        rw [if_pos hc]
      · left
        unfold hkBestStep
        rw [if_neg h0, hga]
        show (if cj.1 < be.1 ∨ (cj.1 = be.1 ∧ j < be.2) then (cj.1, j) else be) = be
        rw [if_neg hc]

theorem hkBest_fold_result (dp : DPTable) (full : Nat) :
    ∀ (L : List Nat) (be : Nat × Nat),
      L.foldl (hkBestStep dp full) be = be ∨
      ∃ j pv, j ∈ L ∧ j ≠ 0 ∧
        dpGetEntry dp full j = some ((L.foldl (hkBestStep dp full) be).1, pv) ∧
        (L.foldl (hkBestStep dp full) be).2 = j := by
  intro L
  induction L with
  | nil => intro be; exact Or.inl rfl
  | cons a L ih =>
    intro be
    rw [List.foldl_cons]
    rcases ih (hkBestStep dp full be a) with h | ⟨j, pv, hmem, hj0, hentry, hend⟩
    · rw [h]
      rcases hkBestStep_cases dp full be a with h2 | ⟨ha0, cj, hent, h2⟩
      · rw [h2]
        exact Or.inl rfl
      · rw [h2]
        exact Or.inr ⟨a, cj.2, List.mem_cons_self _ _, ha0, hent, rfl⟩
    · exact Or.inr ⟨j, pv, List.mem_cons_of_mem _ hmem, hj0, hentry, hend⟩

theorem hkBest_result (dp : DPTable) (n : Nat) (h : (hkBest dp n).2 ≠ n) :
    (hkBest dp n).2 ≠ 0 ∧ (hkBest dp n).2 < n ∧
    ∃ pv, dpGetEntry dp ((1 <<< n) - 1) (hkBest dp n).2 =
      some ((hkBest dp n).1, pv) := by
  rcases hkBest_fold_result dp ((1 <<< n) - 1) (List.range n) (INF, n) with he |
    ⟨j, pv, hmem, hj0, hent, hend⟩
  · exfalso
    apply h
    show (List.foldl (hkBestStep dp ((1 <<< n) - 1)) (INF, n) (List.range n)).2 = n
    rw [he]
  · have hbe : hkBest dp n =
        List.foldl (hkBestStep dp ((1 <<< n) - 1)) (INF, n) (List.range n) := rfl
    rw [hbe, hend]
    exact ⟨hj0, List.mem_range.mp hmem, pv, hent⟩

/-! ### Held–Karp: soundness of the reconstruction -/

theorem hkRecon_succ (dp : DPTable) (fuel : Nat) (mask : Nat) (j : Int)
    (order : List Nat) :
    hkRecon dp (fuel + 1) mask j order =
      if j = -1 then some order.reverse
      else
        match dpGetEntry dp mask j.toNat with
        | none => none
        | some cp =>
          hkRecon dp fuel (mask ^^^ (1 <<< j.toNat)) cp.2 (order ++ [j.toNat]) := rfl

theorem hkRecon_sound (dist : List (List Nat)) (n M : Nat) (dp : DPTable) (hn : 1 ≤ n)
    (hinv : ChainInv dist n M dp) :
    ∀ m j cp, dpGetEntry dp m j = some cp →
      ∃ l : List Nat, l.head? = some j ∧ l.getLast? = some 0 ∧ l.Nodup ∧
        (∀ x, x ∈ l ↔ m.testBit x = true) ∧ (∀ x ∈ l, x < n) ∧
        cp.1 = pathCost dist l.reverse ∧
        (∀ fuel acc, l.length < fuel →
          hkRecon dp fuel m ((j : Nat) : Int) acc = some ((acc ++ l).reverse)) := by
  intro m
  induction m using Nat.strong_induction_on with
  | _ m ih =>
    intro j cp hcp
    rcases hinv.2 m j cp hcp with ⟨rfl, rfl, rfl⟩ |
      ⟨hj0, hjn, hbitj, hbit0, _, p, cp2, hp2, hpn, hent2, hcost⟩
    · refine ⟨[0], rfl, rfl, by simp, ?_, ?_, ?_, ?_⟩
      · intro x
        rw [show (1 : Nat) = 2 ^ 0 from rfl, Nat.testBit_two_pow]
        simp [eq_comm]
      · intro x hx
        rw [List.mem_singleton] at hx
        subst hx
        omega
      · rw [show ([0] : List Nat).reverse = [0] from rfl, pathCost_cons]
        rfl
      · intro fuel acc hfuel
        rw [List.length_singleton] at hfuel
        rcases fuel with _ | fuel
        · omega
        rcases fuel with _ | fuel
        · omega
        rw [hkRecon_succ]
        rw [if_neg (by omega)]
        rw [show (((0 : Nat) : Int)).toNat = 0 from rfl]
        rw [hinv.1]
        show hkRecon dp (fuel + 1) (1 ^^^ (1 <<< 0)) (-1) (acc ++ [0]) =
          some ((acc ++ [0]).reverse)
        rw [hkRecon_succ]
        rw [if_pos rfl]
    · obtain ⟨l2, hh2, hl2last, hnd2, hmem2, hbnd2, hcost2, hrun2⟩ :=
        ih (m ^^^ 1 <<< j) (xor_shl_lt m j hbitj) p cp2 hent2
      have hl2ne : l2 ≠ [] := by
        intro he
        rw [he] at hh2
        exact Option.noConfusion hh2
      have hjnotin : j ∉ l2 := by
        intro hc
        have hb := (hmem2 j).mp hc
        rw [xor_shl_testBit, hbitj] at hb
        simp at hb
      refine ⟨j :: l2, rfl, ?_, List.nodup_cons.mpr ⟨hjnotin, hnd2⟩, ?_, ?_, ?_, ?_⟩
      · rcases l2 with _ | ⟨b, t⟩
        · exact absurd rfl hl2ne
        · rw [List.getLast?_cons_cons]
          exact hl2last
      · intro x
        rcases eq_or_ne x j with rfl | hne
        · simp [hbitj]
        · have hxb : (m ^^^ 1 <<< j).testBit x = m.testBit x := by
            rw [xor_shl_testBit]
            simp [Ne.symm hne]
          rw [List.mem_cons]
          rw [← hxb, ← hmem2 x]
          simp [hne]
      · intro x hx
        rcases List.mem_cons.mp hx with rfl | hx2
        · exact hjn
        · exact hbnd2 x hx2
      · rw [show (j :: l2).reverse = l2.reverse ++ [j] from by simp]
        rw [pathCost_append_of_getLast? dist l2.reverse p j
          (by rw [List.getLast?_reverse]; exact hh2)]
        omega
      · intro fuel acc hfuel
        rcases fuel with _ | fuel
        · omega
        rw [hkRecon_succ]
        rw [if_neg (by omega)]
        rw [Int.toNat_natCast]
        rw [hcp]
        show hkRecon dp fuel (m ^^^ (1 <<< j)) cp.2 (acc ++ [j]) =
          some ((acc ++ (j :: l2)).reverse)
        rw [hp2]
        rw [hrun2 fuel (acc ++ [j])
          (by simp only [List.length_cons] at hfuel; omega)]
        rw [List.append_assoc]
        rfl

/-! ### Held–Karp: degenerate sizes -/

theorem heldKarp_nil : _held_karp_tsp [] = some (.error .infeasible) := rfl

theorem heldKarp_one (row : List Nat) :
    _held_karp_tsp [row] = some (.error .infeasible) := rfl

/-! ### Held–Karp: the master run theorems -/

theorem held_karp_eq2 (dist : List (List Nat)) :
    _held_karp_tsp dist =
      (if (hkBest (hkDP dist dist.length (1 <<< dist.length)) dist.length).2 = dist.length
       then some (.error .infeasible)
       else
         match hkRecon (hkDP dist dist.length (1 <<< dist.length)) (dist.length + 1)
             ((1 <<< dist.length) - 1)
             (((hkBest (hkDP dist dist.length (1 <<< dist.length)) dist.length).2 : Nat) : Int)
             [] with
         | none => none
         | some order => some (.ok
             ((hkBest (hkDP dist dist.length (1 <<< dist.length)) dist.length).1,
              order))) := rfl

theorem heldKarp_ok (dist : List (List Nat)) (c : Nat) (order : List Nat)
    (h : _held_karp_tsp dist = some (.ok (c, order))) :
    2 ≤ dist.length ∧ order.head? = some 0 ∧ order.Nodup ∧
    order.Perm (List.range dist.length) ∧ c = pathCost dist order ∧
    ∀ cand : List Nat, cand.Perm (List.range dist.length) → cand.head? = some 0 →
      c ≤ pathCost dist cand := by
  have hn2 : 2 ≤ dist.length := by
    by_contra hc
    push_neg at hc
    have h01 : dist.length = 0 ∨ dist.length = 1 := by omega
    rcases h01 with h0 | h1
    · obtain rfl := List.length_eq_zero.mp h0
      rw [heldKarp_nil] at h
      simp at h
    · obtain ⟨row, rfl⟩ := List.length_eq_one.mp h1
      rw [heldKarp_one] at h
      simp at h
  have hn1 : 1 ≤ dist.length := by omega
  rw [held_karp_eq2] at h
  by_cases hbe :
      (hkBest (hkDP dist dist.length (1 <<< dist.length)) dist.length).2 = dist.length
  · rw [if_pos hbe] at h
    simp at h
  · rw [if_neg hbe] at h
    obtain ⟨hne0, hlt, pv, hent⟩ :=
      hkBest_result (hkDP dist dist.length (1 <<< dist.length)) dist.length hbe
    obtain ⟨hshape, hchain⟩ :=
      hkDP_chain dist dist.length hn1 (1 <<< dist.length) (Nat.le_refl _)
    obtain ⟨l, hhead, hlast, hnd, hmem, hbnd, hcost, hrun⟩ :=
      hkRecon_sound dist dist.length (1 <<< dist.length) _ hn1 hchain _ _ _ hent
    have hsub1 : l ⊆ List.range dist.length := fun x hx => List.mem_range.mpr (hbnd x hx)
    have hlen_le : l.length ≤ dist.length := by
      have h2 := nodup_subset_length l (List.range dist.length) hnd hsub1
      rwa [List.length_range] at h2
    have hrunOK := hrun (dist.length + 1) [] (by omega)
    rw [hrunOK] at h
    rw [List.nil_append] at h
    simp only [Option.some.injEq, Except.ok.injEq, Prod.mk.injEq] at h
    obtain ⟨hc1, hord⟩ := h
    have hcost2 : (hkBest (hkDP dist dist.length (1 <<< dist.length)) dist.length).1 =
        pathCost dist l.reverse := hcost
    refine ⟨hn2, ?_, ?_, ?_, ?_, ?_⟩
    · rw [← hord, List.head?_reverse]
      exact hlast
    · rw [← hord]
      exact List.nodup_reverse.mpr hnd
    · have hsub2 : List.range dist.length ⊆ l := by
        intro x hx
        refine (hmem x).mpr ?_
        rw [testBit_full_iff]
        simp [List.mem_range.mp hx]
      have hperm : l.Perm (List.range dist.length) :=
        (hnd.subperm hsub1).perm_of_length_le
          ((List.nodup_range dist.length).subperm hsub2).length_le
      rw [← hord]
      exact (List.reverse_perm l).trans hperm
    · rw [← hc1, hcost2, hord]
    · intro cand hpc hph
      have hcnd : cand.Nodup := (hpc.nodup_iff).mpr (List.nodup_range _)
      have hcbnd : ∀ x ∈ cand, x < dist.length :=
        fun x hx => List.mem_range.mp (hpc.mem_iff.mp hx)
      have hclen : cand.length = dist.length := by
        rw [hpc.length_eq, List.length_range]
      rcases List.eq_nil_or_concat cand with he | ⟨l2, a, hcand⟩
      · rw [he] at hclen
        simp at hclen
        omega
      · rw [List.concat_eq_append] at hcand
        subst hcand
        have hP : Path0 dist.length (l2 ++ [a]) := ⟨hph, hcnd, hcbnd⟩
        have hl2ne : l2 ≠ [] := by
          intro he
          subst he
          simp at hclen
          omega
        have ha0 : a ≠ 0 := by
          intro he
          subst he
          have hh0 : l2.head? = some 0 := by
            rcases l2 with _ | ⟨b, t⟩
            · exact absurd rfl hl2ne
            · simpa using hph
          have h0l2 : (0 : Nat) ∈ l2 := List.mem_of_mem_head? hh0
          exact (List.disjoint_of_nodup_append hcnd) h0l2 (by simp)
        have hmasklt : maskOf l2 < 1 <<< dist.length := by
          rw [one_shl]
          exact maskOf_lt_pow l2 dist.length
            (fun x hx => hcbnd x (List.mem_append_left _ hx))
        obtain ⟨cp, hcp, hcple⟩ := hkDP_comp dist dist.length hn1 (1 <<< dist.length)
          (Nat.le_refl _) l2 a hP hmasklt
        have hmfull : maskOf (l2 ++ [a]) = (1 <<< dist.length) - 1 := by
          refine Nat.eq_of_testBit_eq ?_
          intro i
          rw [testBit_maskOf, testBit_full_iff]
          by_cases hi : i < dist.length
          · have himem : i ∈ l2 ++ [a] := hpc.mem_iff.mpr (List.mem_range.mpr hi)
            simp [hi, himem]
          · have hno : i ∉ l2 ++ [a] := fun hmem3 => hi (hcbnd i hmem3)
            simp [hi, hno]
        rw [hmfull] at hcp
        have han : a < dist.length := hcbnd a (by simp)
        have hminb : bestLe
            (hkBest (hkDP dist dist.length (1 <<< dist.length)) dist.length) (cp.1, a) :=
          hkBest_fold_min (hkDP dist dist.length (1 <<< dist.length))
            ((1 <<< dist.length) - 1) (List.range dist.length) (INF, dist.length) a
            (List.mem_range.mpr han) ha0 cp hcp
        rw [← hc1]
        rcases hminb with hlt2 | ⟨heq2, _⟩
        · exact Nat.le_trans (Nat.le_of_lt hlt2) hcple
        · rw [heq2]
          exact hcple

theorem heldKarp_total (dist : List (List Nat)) : _held_karp_tsp dist ≠ none := by
  rcases Nat.eq_zero_or_pos dist.length with h0 | hpos
  · obtain rfl := List.length_eq_zero.mp h0
    rw [heldKarp_nil]
    simp
  · rw [held_karp_eq2]
    by_cases hbe :
        (hkBest (hkDP dist dist.length (1 <<< dist.length)) dist.length).2 = dist.length
    · rw [if_pos hbe]
      simp
    · rw [if_neg hbe]
      obtain ⟨hne0, hlt, pv, hent⟩ :=
        hkBest_result (hkDP dist dist.length (1 <<< dist.length)) dist.length hbe
      obtain ⟨hshape, hchain⟩ :=
        hkDP_chain dist dist.length hpos (1 <<< dist.length) (Nat.le_refl _)
      obtain ⟨l, _, _, hnd, _, hbnd, _, hrun⟩ :=
        hkRecon_sound dist dist.length (1 <<< dist.length) _ hpos hchain _ _ _ hent
      have hlen_le : l.length ≤ dist.length := by
        have h2 := nodup_subset_length l (List.range dist.length) hnd
          (fun x hx => List.mem_range.mpr (hbnd x hx))
        rwa [List.length_range] at h2
      rw [hrun (dist.length + 1) [] (by omega)]
      simp

/-! ### Claims C3 and C4 -/

/-- C4: on success the solver returns a visiting order that is a permutation
of the key-point indices `0 .. n-1`, begins at index 0, contains every flag
index `1 .. n-1` exactly once, and reports exactly the summed pairwise cost
of the order. -/
theorem C4_order_permutation (dist : List (List Nat)) (c : Nat) (order : List Nat)
    (h : _held_karp_tsp dist = some (.ok (c, order))) :
    order.Perm (List.range dist.length) ∧
    order.head? = some 0 ∧
    (∀ j, 1 ≤ j → j < dist.length → order.count j = 1) ∧
    c = pathCost dist order := by
  obtain ⟨hn2, hhead, hnd, hperm, hcost, _⟩ := heldKarp_ok dist c order h
  refine ⟨hperm, hhead, ?_, hcost⟩
  intro j h1 hj
  exact List.count_eq_one_of_mem hnd (hperm.mem_iff.mpr (List.mem_range.mpr hj))

/-- C4 (witness): on the concrete 2×2 matrix the solver returns cost 1 and
order `[0, 1]`, which satisfies all four reported properties. -/
theorem C4_order_permutation_witness :
    ([0, 1] : List Nat).Perm (List.range 2) ∧
    ([0, 1] : List Nat).head? = some 0 ∧
    (∀ j, 1 ≤ j → j < ([[0, 1], [1, 0]] : List (List Nat)).length →
      ([0, 1] : List Nat).count j = 1) ∧
    1 = pathCost [[0, 1], [1, 0]] [0, 1] :=
  C4_order_permutation [[0, 1], [1, 0]] 1 [0, 1] (by rfl)

/-- C3: on success over an n×n matrix, the returned visiting order is itself
a simple path from index 0 through all indices and its total cost is minimal:
no permutation of `0 .. n-1` beginning at index 0 has a strictly smaller
summed cost. -/
theorem C3_optimality (dist : List (List Nat)) (c : Nat) (order : List Nat)
    ( _hsq : ∀ row ∈ dist, row.length = dist.length)
    (h : _held_karp_tsp dist = some (.ok (c, order))) :
    (order.Perm (List.range dist.length) ∧ order.head? = some 0) ∧
    ∀ cand : List Nat, cand.Perm (List.range dist.length) → cand.head? = some 0 →
      pathCost dist order ≤ pathCost dist cand := by
  obtain ⟨_, hhead, _, hperm, hcost, hmin⟩ := heldKarp_ok dist c order h
  refine ⟨⟨hperm, hhead⟩, ?_⟩
  intro cand h1 h2
  rw [← hcost]
  exact hmin cand h1 h2

/-- C3 (witness): on the concrete 3×3 matrix the solver succeeds with order
`[0, 2, 1]`, whose cost 2 is no larger than that of the competing complete
path `[0, 1, 2]`. -/
theorem C3_optimality_witness :
    (([0, 2, 1] : List Nat).Perm (List.range 3) ∧
      ([0, 2, 1] : List Nat).head? = some 0) ∧
    pathCost [[0, 1, 1], [1, 0, 1], [1, 1, 0]] [0, 2, 1] ≤
      pathCost [[0, 1, 1], [1, 0, 1], [1, 1, 0]] [0, 1, 2] :=
  ⟨(C3_optimality [[0, 1, 1], [1, 0, 1], [1, 1, 0]] 2 [0, 2, 1] (by decide) (by rfl)).1,
   (C3_optimality [[0, 1, 1], [1, 0, 1], [1, 1, 0]] 2 [0, 2, 1] (by decide) (by rfl)).2
     [0, 1, 2] (by decide) (by decide)⟩

/-! ### The extraction pipeline, characterised -/

theorem posOf_inj {rc1 rc2 : Nat × Nat} (h : posOf rc1 = posOf rc2) : rc1 = rc2 := by
  unfold posOf at h
  have h1 : ((rc1.1 : Int), (rc1.2 : Int)).1 = ((rc2.1 : Int), (rc2.2 : Int)).1 :=
    congrArg Prod.fst h
  have h2 : ((rc1.1 : Int), (rc1.2 : Int)).2 = ((rc2.1 : Int), (rc2.2 : Int)).2 :=
    congrArg Prod.snd h
  simp at h1 h2
  exact Prod.ext h1 h2

theorem scanCells_nodup (g : Grid) : (scanCells g).Nodup := by
  unfold scanCells
  rw [List.nodup_flatMap]
  constructor
  · intro x hx
    exact (List.nodup_range _).map (fun a b h => by simpa using h)
  · refine List.Pairwise.imp ?_ (List.pairwise_lt_range _)
    intro a b hab
    intro x hxa hxb
    simp only [List.mem_map, List.mem_range] at hxa hxb
    obtain ⟨c1, _, rfl⟩ := hxa
    obtain ⟨c2, _, he⟩ := hxb
    exact absurd (congrArg Prod.fst he) (by simp; omega)

theorem occs_nodup (g : Grid) (t : Tile) : (occs g (scanCells g) t).Nodup :=
  ((scanCells_nodup g).filter _).map (fun _ _ h => posOf_inj h)

theorem mem_occs (g : Grid) (l : List (Nat × Nat)) (t : Tile) (p : Pos) :
    p ∈ occs g l t ↔ ∃ rc ∈ l, cellAt g rc = t ∧ p = posOf rc := by
  unfold occs
  simp only [List.mem_map, List.mem_filter, decide_eq_true_eq]
  constructor
  · rintro ⟨rc, ⟨hrc, hc⟩, rfl⟩
    exact ⟨rc, hrc, hc, rfl⟩
  · rintro ⟨rc, hrc, hc, rfl⟩
    exact ⟨rc, ⟨hrc, hc⟩, rfl⟩

theorem getD_of_get? {α : Type} (l : List α) (n : Nat) (d x : α)
    (h : l.get? n = some x) : l.getD n d = x := by
  rw [List.get?_eq_getElem?] at h
  simp [List.getD, h]

theorem enum_get? {α : Type} (l : List α) (i : Nat) :
    l.enum.get? i = (l.get? i).map (fun a => (i, a)) := by
  rw [List.get?_eq_getElem?, List.get?_eq_getElem?, List.getElem?_enum]

theorem tpLoop_values :
    ∀ (tps : List (Tile × List Pos)) (acc m : List (Pos × Pos)),
      tpLoop tps acc = .ok m → ∀ a b, dget? m a = some b →
        dget? acc a = some b ∨ ∃ e ∈ tps, b ∈ e.2 := by
  intro tps
  induction tps with
  | nil =>
    intro acc m h a b hab
    have hm : acc = m := Except.ok.inj h
    rw [hm]
    exact Or.inl hab
  | cons lp rest ih =>
    intro acc m h a b hab
    obtain ⟨lbl, ps⟩ := lp
    rcases ps with _ | ⟨p1, ps2⟩
    · exact absurd h (by simp [tpLoop])
    rcases ps2 with _ | ⟨p2, ps3⟩
    · exact absurd h (by simp [tpLoop])
    rcases ps3 with _ | ⟨p3, ps4⟩
    · have h2 := ih (dset (dset acc p1 p2) p2 p1) m (by simpa [tpLoop] using h) a b hab
      rcases h2 with hacc | ⟨e, he, hbe⟩
      · rw [dget?_dset] at hacc
        by_cases hap2 : a = p2
        · rw [if_pos hap2] at hacc
          refine Or.inr ⟨(lbl, [p1, p2]), List.mem_cons_self _ _, ?_⟩
          rw [← Option.some.inj hacc]
          simp
        · rw [if_neg hap2, dget?_dset] at hacc
          by_cases hap1 : a = p1
          · rw [if_pos hap1] at hacc
            refine Or.inr ⟨(lbl, [p1, p2]), List.mem_cons_self _ _, ?_⟩
            rw [← Option.some.inj hacc]
            simp
          · rw [if_neg hap1] at hacc
            exact Or.inl hacc
      · exact Or.inr ⟨e, List.mem_cons_of_mem _ he, hbe⟩
    · exact absurd h (by simp [tpLoop])

theorem teleport_groups (g : Grid) ( _hre : Rect g) :
    ∀ e ∈ (scanFold g (scanCells g) ⟨none, [], []⟩).teleports,
      startsWithT e.1 = true ∧ e.2 = occs g (scanCells g) e.1 ∧ e.2 ≠ [] := by
  intro e he
  have hent : startsWithT e.1 = true ∧ e.2 ≠ [] :=
    scanFold_teleports_entries g (scanCells g) ⟨none, [], []⟩ (by simp) e he
  have hnodup : (((scanFold g (scanCells g) ⟨none, [], []⟩).teleports.map Prod.fst)).Nodup :=
    scanFold_teleports_nodup g (scanCells g) ⟨none, [], []⟩ (by simp)
  have hge : dget? (scanFold g (scanCells g) ⟨none, [], []⟩).teleports e.1 = some e.2 :=
    dget?_of_mem_nodup _ hnodup e he
  have h5 := scanFold_teleports_dget? g (scanCells g) e.1 hent.1 ⟨none, [], []⟩
  rw [hge] at h5
  refine ⟨hent.1, ?_, hent.2⟩
  cases ho : occs g (scanCells g) e.1 with
  | nil =>
    rw [ho] at h5
    simp [dget?] at h5
  | cons x xs =>
    rw [ho] at h5
    simpa [dget?] using h5

theorem partnerWF_of_run (g : Grid) (hre : Rect g) (partner : List (Pos × Pos))
    (h : _teleport_partner_map
      (scanFold g (scanCells g) ⟨none, [], []⟩).teleports = .ok partner) :
    PartnerWF g partner := by
  intro a b hab
  rcases tpLoop_values _ [] partner h a b hab with hacc | ⟨e, he, hbe⟩
  · simp [dget?] at hacc
  · obtain ⟨ht, hocc, _⟩ := teleport_groups g hre e he
    rw [hocc, mem_occs] at hbe
    obtain ⟨rc, hrc, hcell, rfl⟩ := hbe
    refine ⟨inBounds_posOf hrc, ?_⟩
    rw [tileAtP_posOf, hcell]
    exact startsWithT_drivable ht

theorem find_key_points_inv (g : Grid) (hre : Rect g)
    (kp : Pos × List Pos × List (Tile × List Pos))
    (h : _find_key_points g = some (.ok kp)) :
    (scanFold g (scanCells g) ⟨none, [], []⟩).start = some kp.1 ∧
    kp.2.1 = occs g (scanCells g) "F" ∧
    kp.2.2 = (scanFold g (scanCells g) ⟨none, [], []⟩).teleports := by
  rw [find_key_points_eq g hre] at h
  cases hst : (scanFold g (scanCells g) ⟨none, [], []⟩).start with
  | none =>
    rw [hst] at h
    simp at h
  | some s =>
    rw [hst] at h
    simp only [Option.some.injEq, Except.ok.injEq] at h
    rw [← h]
    refine ⟨rfl, ?_, rfl⟩
    rw [scanFold_flags]
    rfl

theorem scan_start (g : Grid) (hre : Rect g)
    (hs : (g.flatMap id).count "S" ≠ 0) :
    ∃ s, (scanFold g (scanCells g) ⟨none, [], []⟩).start = some s ∧
      s ∈ occs g (scanCells g) "S" ∧
      _find_key_points g = some (.ok (s, occs g (scanCells g) "F",
        (scanFold g (scanCells g) ⟨none, [], []⟩).teleports)) := by
  have hOccS : occs g (scanCells g) "S" ≠ [] := by
    intro hx
    apply hs
    rw [count_eq_occs_length g hre, hx]
    rfl
  have hstart := scanFold_start_of_occs g (scanCells g) ⟨none, [], []⟩ hOccS
  obtain ⟨s, hsome⟩ := Option.isSome_iff_exists.mp hstart
  have hmem : s ∈ occs g (scanCells g) "S" := by
    rcases scanFold_start_mem g (scanCells g) ⟨none, [], []⟩ with h1 | ⟨p, hp, h1⟩
    · rw [hsome] at h1
      exact absurd h1.symm (by simp)
    · rw [hsome] at h1
      rw [Option.some.inj h1]
      exact hp
  refine ⟨s, hsome, hmem, ?_⟩
  rw [find_key_points_eq g hre, hsome]
  have hflags : (scanFold g (scanCells g) ⟨none, [], []⟩).flags =
      occs g (scanCells g) "F" := by
    rw [scanFold_flags]
    rfl
  rw [hflags]

theorem tp_ok_of_counts (g : Grid) (hre : Rect g)
    (htp : ∀ t : Tile, startsWithT t = true →
      (g.flatMap id).count t = 0 ∨ (g.flatMap id).count t = 2) :
    ∃ partner, _teleport_partner_map
      (scanFold g (scanCells g) ⟨none, [], []⟩).teleports = .ok partner := by
  apply tpLoop_ok_of_good
  intro e he
  obtain ⟨ht, hocc, hne⟩ := teleport_groups g hre e he
  rcases htp e.1 ht with h0 | h2
  · rw [count_eq_occs_length g hre] at h0
    rw [← hocc] at h0
    exact absurd (List.length_eq_zero.mp h0) hne
  · rw [count_eq_occs_length g hre] at h2
    rw [← hocc] at h2
    exact h2

/-! ### Claim C9, amended -/

/-- C9 (amended): on a rectangular grid that contains a start cell, no flag
cell at all, and only well-formed teleport labels (each appearing exactly
twice or not at all), `Solve` raises the Infeasible (no-feasible-tour) error:
the optimizer runs on the 1×1 distance matrix of the start point alone, and
its final selection loop skips index 0, so no full-coverage end state is
found.  (Without the teleport condition the claim is false: a malformed
teleport label preempts the Infeasible error, see the counterexample.) -/
theorem C9_no_flags (g : Grid) (hre : Rect g)
    (hs : (g.flatMap id).count "S" ≠ 0)
    (hf : (g.flatMap id).count "F" = 0)
    (htp : ∀ t : Tile, startsWithT t = true →
      (g.flatMap id).count t = 0 ∨ (g.flatMap id).count t = 2) :
    solve_grid_to_moves g = some (.error .infeasible) := by
  obtain ⟨s, hsome, hsmem, hfk⟩ := scan_start g hre hs
  obtain ⟨partner, htpok⟩ := tp_ok_of_counts g hre htp
  have hWF := partnerWF_of_run g hre partner htpok
  have hflags : occs g (scanCells g) "F" = [] := by
    refine List.length_eq_zero.mp ?_
    rw [← count_eq_occs_length g hre]
    exact hf
  rw [hflags] at hfk
  obtain ⟨dm, mp, hpweq, hlen, _⟩ := pairwise_run [s] hre hWF
  obtain ⟨row, hrow⟩ := List.length_eq_one.mp (by rw [hlen]; rfl : dm.length = 1)
  unfold solve_grid_to_moves
  rw [hfk]
  simp only []
  rw [htpok]
  simp only []
  rw [hpweq]
  simp only []
  rw [show ((List.range ([s] : List Pos).length).drop 1) = [] from rfl]
  rw [show (([] : List Nat).any fun i => decide (INF ≤ matGet dm 0 i)) = false from rfl]
  rw [if_neg (by simp)]
  rw [hrow, heldKarp_one]

/-- C9 (amended, witness): the 1×1 grid `[["S"]]` has a start, no flags and
no teleports; `Solve` raises Infeasible. -/
theorem C9_no_flags_witness :
    solve_grid_to_moves [["S"]] = some (.error .infeasible) :=
  C9_no_flags [["S"]] (by unfold Rect; decide) (by decide) (by decide)
    (by
      intro t ht
      left
      have hne : "S" ≠ t := by
        intro he
        rw [← he] at ht
        exact absurd ht (by decide)
      show List.count t ["S"] = 0
      simp [List.count_cons, hne])

/-! ### Claim C6 -/

theorem FPathN_src_cases {g : Grid} {partner : List (Pos × Pos)} {p q : Pos} {n : Nat}
    (h : FPathN g partner p q n) : p = q ∨ ∃ r, FStep g partner p r := by
  cases h with
  | refl _ => exact Or.inl rfl
  | step hs _ => exact Or.inr ⟨_, hs⟩

/-- C6: on a structurally valid grid whose extraction and teleport pairing
succeed, if some extracted flag is not reachable from the start in the
teleport-folded move model, `Solve` raises the UnreachableFlag condition:
the check runs on the matrix row of the start point produced by the pairwise
engine and fires before the visit-order optimizer, so no wrong or partial
move list is ever returned. -/
theorem C6_unreachable_flag (g : Grid) (hv : StructValid g)
    (kp : Pos × List Pos × List (Tile × List Pos)) (partner : List (Pos × Pos))
    (hfk : _find_key_points g = some (.ok kp))
    (htpok : _teleport_partner_map kp.2.2 = .ok partner)
    (hun : ∃ f ∈ kp.2.1, ¬ FReach g partner kp.1 f) :
    solve_grid_to_moves g = some (.error .unreachableFlag) := by
  have hre : Rect g := hv.2.2.1
  obtain ⟨hst, hflags, htps⟩ := find_key_points_inv g hre kp hfk
  have hWF : PartnerWF g partner := by
    refine partnerWF_of_run g hre partner ?_
    rw [← htps]
    exact htpok
  obtain ⟨f, hfmem, hnreach⟩ := hun
  obtain ⟨nf, hnf⟩ := List.get_of_mem hfmem
  have hfi : kp.2.1.get? (nf : Nat) = some f := by
    rw [List.get?_eq_get nf.2, hnf]
  obtain ⟨dm, mp, hpweq, hlen, hrows⟩ := pairwise_run
    (kp.1 :: kp.2.1) hre hWF
  have henum0 : (kp.1 :: kp.2.1).enum.get? 0 = some (0, kp.1) := by
    rw [enum_get?]
    rfl
  obtain ⟨dist, parent, hbfs, hinv, hrel, hrow0, hsegs0⟩ := hrows 0 (0, kp.1) henum0
  have hpget : (kp.1 :: kp.2.1).get? ((nf : Nat) + 1) = some f := by
    rw [List.get?_cons_succ]
    exact hfi
  have henumi : (kp.1 :: kp.2.1).enum.get? ((nf : Nat) + 1) = some ((nf : Nat) + 1, f) := by
    rw [enum_get?, hpget]
    rfl
  have hvalINF : pairVal dist 0 ((nf : Nat) + 1, f) = INF := by
    unfold pairVal
    rw [if_neg (by omega)]
    cases hdf : dget? dist f with
    | none => rfl
    | some dv =>
      by_cases hlt : dv < INF
      · exfalso
        rcases hinv.sound f dv hdf with hINF | ⟨_, hpath⟩
        · omega
        · exact hnreach ⟨dv, hpath⟩
      · show (if dv < INF then dv else INF) = INF
        rw [if_neg hlt]
  have hrow0v : dm.getD 0 [] = (kp.1 :: kp.2.1).enum.map (pairVal dist 0) :=
    getD_of_get? _ _ _ _ hrow0
  have hmat : matGet dm 0 ((nf : Nat) + 1) = INF := by
    unfold matGet
    rw [hrow0v]
    have hgm : ((kp.1 :: kp.2.1).enum.map (pairVal dist 0)).get? ((nf : Nat) + 1) =
        some (pairVal dist 0 ((nf : Nat) + 1, f)) := by
      rw [List.get?_eq_getElem?, List.getElem?_map, ← List.get?_eq_getElem?, henumi]
      rfl
    rw [getD_of_get? _ _ _ _ hgm, hvalINF]
  have hmem_drop : (nf : Nat) + 1 ∈ (List.range (kp.1 :: kp.2.1).length).drop 1 := by
    rw [List.length_cons, List.range_succ_eq_map]
    rw [show (((0 : Nat) :: List.map Nat.succ (List.range kp.2.1.length)).drop 1) =
      List.map Nat.succ (List.range kp.2.1.length) from rfl]
    exact List.mem_map.mpr ⟨(nf : Nat), List.mem_range.mpr nf.2, rfl⟩
  have hcond : (((List.range (kp.1 :: kp.2.1).length).drop 1).any
      (fun i2 => decide (INF ≤ matGet dm 0 i2))) = true := by
    rw [List.any_eq_true]
    refine ⟨(nf : Nat) + 1, hmem_drop, ?_⟩
    rw [hmat]
    simp
  unfold solve_grid_to_moves
  rw [hfk]
  simp only []
  rw [htpok]
  simp only []
  rw [hpweq]
  simp only []
  rw [if_pos hcond]

/-- C6 (witness): on `[["S","0","F"]]` the flag at `(0,2)` is walled off from
the start at `(0,0)`; `Solve` raises UnreachableFlag. -/
theorem C6_unreachable_flag_witness :
    solve_grid_to_moves [["S", "0", "F"]] = some (.error .unreachableFlag) :=
  C6_unreachable_flag [["S", "0", "F"]]
    (by
      refine ⟨by decide, by decide, by unfold Rect; decide, by decide, by decide, by decide, ?_⟩
      intro t ht
      left
      have h1 : "S" ≠ t := by
        intro he
        rw [← he] at ht
        exact absurd ht (by decide)
      have h2 : "0" ≠ t := by
        intro he
        rw [← he] at ht
        exact absurd ht (by decide)
      have h3 : "F" ≠ t := by
        intro he
        rw [← he] at ht
        exact absurd ht (by decide)
      show List.count t ["S", "0", "F"] = 0
      simp [List.count_cons, h1, h2, h3])
    (((0 : Int), (0 : Int)), [((0 : Int), (2 : Int))], []) [] (by rfl) (by rfl)
    ⟨((0 : Int), (2 : Int)), by decide, by
      have hnostep : ∀ q : Pos,
          ¬ FStep [["S", "0", "F"]] [] ((0 : Int), (0 : Int)) q := by
        rintro q ⟨d, hd, hland⟩
        fin_cases hd
        · rw [show landAt [["S", "0", "F"]] []
            (((0 : Int), (0 : Int)).1 + -1, ((0 : Int), (0 : Int)).2 + 0) = none from rfl] at hland
          exact Option.noConfusion hland
        · rw [show landAt [["S", "0", "F"]] []
            (((0 : Int), (0 : Int)).1 + 1, ((0 : Int), (0 : Int)).2 + 0) = none from rfl] at hland
          exact Option.noConfusion hland
        · rw [show landAt [["S", "0", "F"]] []
            (((0 : Int), (0 : Int)).1 + 0, ((0 : Int), (0 : Int)).2 + -1) = none from rfl] at hland
          exact Option.noConfusion hland
        · rw [show landAt [["S", "0", "F"]] []
            (((0 : Int), (0 : Int)).1 + 0, ((0 : Int), (0 : Int)).2 + 1) = none from rfl] at hland
          exact Option.noConfusion hland
      rintro ⟨n, hpath⟩
      rcases FPathN_src_cases hpath with heq | ⟨r, hstep⟩
      · exact absurd heq (by decide)
      · exact hnostep r hstep⟩

/-! ### The move-assembly loop -/

theorem zip_tail_mem {α : Type} :
    ∀ (l : List α) (ab : α × α), ab ∈ l.zip l.tail → ab.1 ∈ l ∧ ab.2 ∈ l := by
  intro l
  induction l with
  | nil => intro ab h; simp at h
  | cons a t ih =>
    intro ab h
    cases t with
    | nil => simp at h
    | cons b t2 =>
      rw [show (a :: b :: t2).zip ((a :: b :: t2).tail) =
        (a, b) :: ((b :: t2).zip t2) from rfl] at h
      rcases List.mem_cons.mp h with rfl | hmem
      · exact ⟨List.mem_cons_self _ _, List.mem_cons_of_mem _ (List.mem_cons_self _ _)⟩
      · obtain ⟨h1, h2⟩ := ih ab hmem
        exact ⟨List.mem_cons_of_mem _ h1, List.mem_cons_of_mem _ h2⟩

theorem assemble_inv (mp : List ((Nat × Nat) × List Char)) :
    ∀ (pairs : List (Nat × Nat)) (acc ms : List String),
      pairs.foldlM (fun moves ab =>
          match dget? mp ab with
          | none => none
          | some segment => some (moves ++ segment.flatMap dirName)) acc = some ms →
      ms = acc ++ pairs.flatMap (fun ab => ((dget? mp ab).getD []).flatMap dirName) := by
  intro pairs
  induction pairs with
  | nil =>
    intro acc ms h
    rw [List.foldlM_nil] at h
    rw [← Option.some.inj h]
    simp
  | cons ab pairs ih =>
    intro acc ms h
    rw [List.foldlM_cons] at h
    cases hab : dget? mp ab with
    | none =>
      rw [hab] at h
      simp at h
    | some seg =>
      rw [hab] at h
      simp only [Option.bind_eq_bind, Option.some_bind] at h
      have h2 := ih _ _ h
      rw [h2, List.flatMap_cons, hab]
      simp [List.append_assoc]

theorem assemble_total (mp : List ((Nat × Nat) × List Char)) :
    ∀ (pairs : List (Nat × Nat)) (acc : List String),
      (∀ ab ∈ pairs, (dget? mp ab).isSome = true) →
      ∃ ms, pairs.foldlM (fun moves ab =>
          match dget? mp ab with
          | none => none
          | some segment => some (moves ++ segment.flatMap dirName)) acc = some ms := by
  intro pairs
  induction pairs with
  | nil => intro acc _; exact ⟨acc, rfl⟩
  | cons ab pairs ih =>
    intro acc h
    obtain ⟨seg, hseg⟩ := Option.isSome_iff_exists.mp (h ab (List.mem_cons_self _ _))
    rw [List.foldlM_cons, hseg]
    simp only [Option.bind_eq_bind, Option.some_bind]
    exact ih _ (fun x hx => h x (List.mem_cons_of_mem _ hx))

/-! ### Claim C10 -/

/-- C10: on every rectangular grid, `Solve` is total modulo its declared
errors: it returns a move list or one of the four error conditions, and no
internal lookup fails (the `Option` layer of the embedding, which models
`KeyError`/`IndexError` and non-termination, never yields `none`): the BFS
queue terminates, every distance/parent access is for a present key, the
reconstruction loops terminate, and every move-table access during assembly
hits a recorded entry. -/
theorem C10_no_internal_failure (g : Grid) (hre : Rect g) :
    solve_grid_to_moves g ≠ none := by
  unfold solve_grid_to_moves
  rw [find_key_points_eq g hre]
  cases hst : (scanFold g (scanCells g) ⟨none, [], []⟩).start with
  | none => simp
  | some s =>
    simp only []
    cases htp : _teleport_partner_map
        (scanFold g (scanCells g) ⟨none, [], []⟩).teleports with
    | error e => simp
    | ok partner =>
      simp only []
      have hWF := partnerWF_of_run g hre partner htp
      obtain ⟨dm, mp, hpweq, hlen, hrows⟩ := pairwise_run
        (s :: (scanFold g (scanCells g) ⟨none, [], []⟩).flags) hre hWF
      rw [hpweq]
      simp only []
      by_cases hcond : (((List.range
          (s :: (scanFold g (scanCells g) ⟨none, [], []⟩).flags).length).drop 1).any
          (fun i => decide (INF ≤ matGet dm 0 i))) = true
      · rw [if_pos hcond]
        simp
      · rw [if_neg hcond]
        cases hhk : _held_karp_tsp dm with
        | none => exact absurd hhk (heldKarp_total dm)
        | some r =>
          cases r with
          | error e => simp
          | ok co =>
            simp only []
            obtain ⟨_, _, _, hperm, _, _⟩ := heldKarp_ok dm co.1 co.2 hhk
            have hpairs : ∀ ab ∈ co.2.zip co.2.tail, (dget? mp ab).isSome = true := by
              intro ab hab
              obtain ⟨hm1, hm2⟩ := zip_tail_mem co.2 ab hab
              have ha : ab.1 <
                  (s :: (scanFold g (scanCells g) ⟨none, [], []⟩).flags).length := by
                have h2 := List.mem_range.mp (hperm.mem_iff.mp hm1)
                rw [hlen] at h2
                exact h2
              have hb : ab.2 <
                  (s :: (scanFold g (scanCells g) ⟨none, [], []⟩).flags).length := by
                have h2 := List.mem_range.mp (hperm.mem_iff.mp hm2)
                rw [hlen] at h2
                exact h2
              have hga : (s :: (scanFold g (scanCells g) ⟨none, [], []⟩).flags).get?
                  ab.1 = some ((s :: (scanFold g (scanCells g)
                    ⟨none, [], []⟩).flags).get ⟨ab.1, ha⟩) := List.get?_eq_get ha
              have hgb : (s :: (scanFold g (scanCells g) ⟨none, [], []⟩).flags).get?
                  ab.2 = some ((s :: (scanFold g (scanCells g)
                    ⟨none, [], []⟩).flags).get ⟨ab.2, hb⟩) := List.get?_eq_get hb
              obtain ⟨dist, parent, _, _, _, _, hsegs⟩ := hrows ab.1 _ (by
                rw [enum_get?, hga]
                rfl)
              obtain ⟨seg, hseg, _⟩ := hsegs (ab.2, (s :: (scanFold g (scanCells g)
                  ⟨none, [], []⟩).flags).get ⟨ab.2, hb⟩) (by
                have hgmem : (s :: (scanFold g (scanCells g)
                    ⟨none, [], []⟩).flags).enum.get? ab.2 =
                    some (ab.2, (s :: (scanFold g (scanCells g)
                      ⟨none, [], []⟩).flags).get ⟨ab.2, hb⟩) := by
                  rw [enum_get?, hgb]
                  rfl
                exact List.get?_mem hgmem)
              rw [hseg]
              rfl
            obtain ⟨ms, hms⟩ := assemble_total mp _ [] hpairs
            rw [hms]
            simp

/-- C10 (witness): on the rectangular grid `[["S","1","F"]]` the totality
theorem applies, and indeed `Solve` returns a move list. -/
theorem C10_no_internal_failure_witness :
    solve_grid_to_moves [["S", "1", "F"]] ≠ none ∧
    solve_grid_to_moves [["S", "1", "F"]] = some (.ok ["right", "right"]) :=
  ⟨C10_no_internal_failure [["S", "1", "F"]] (by unfold Rect; decide), by rfl⟩

/-! ### Claim C8 -/

theorem dirName_mem (mv : Char) (s : String) (h : s ∈ dirName mv) :
    s = "up" ∨ s = "down" ∨ s = "left" ∨ s = "right" := by
  unfold dirName at h
  by_cases h1 : mv = 'T'
  · rw [if_pos h1] at h
    simp at h
  · rw [if_neg h1] at h
    by_cases h2 : mv = 'U'
    · rw [if_pos h2] at h
      rw [List.mem_singleton] at h
      exact Or.inl h
    · rw [if_neg h2] at h
      by_cases h3 : mv = 'D'
      · rw [if_pos h3] at h
        rw [List.mem_singleton] at h
        exact Or.inr (Or.inl h)
      · rw [if_neg h3] at h
        by_cases h4 : mv = 'L'
        · rw [if_pos h4] at h
          rw [List.mem_singleton] at h
          exact Or.inr (Or.inr (Or.inl h))
        · rw [if_neg h4] at h
          by_cases h5 : mv = 'R'
          · rw [if_pos h5] at h
            rw [List.mem_singleton] at h
            exact Or.inr (Or.inr (Or.inr h))
          · rw [if_neg h5] at h
            simp at h

/-- C8: whenever `Solve` succeeds, every returned move is one of the four
outward names (no teleport label ever appears: the `T` code is dropped by the
translation), and the move list is exactly the in-order concatenation, over
consecutive pairs of the chosen visit order, of the recorded move-table
segments with each direction code translated by `dirName`. -/
theorem C8_moves_assembly (g : Grid) (ms : List String)
    (h : solve_grid_to_moves g = some (.ok ms)) :
    (∀ s2 ∈ ms, s2 = "up" ∨ s2 = "down" ∨ s2 = "left" ∨ s2 = "right") ∧
    ∃ kp partner dm c order,
      _find_key_points g = some (.ok kp) ∧
      _teleport_partner_map kp.2.2 = .ok partner ∧
      _pairwise_shortest_paths g (kp.1 :: kp.2.1) partner = some dm ∧
      _held_karp_tsp dm.1 = some (.ok (c, order)) ∧
      ms = (order.zip order.tail).flatMap
        (fun ab => ((dget? dm.2 ab).getD []).flatMap dirName) := by
  unfold solve_grid_to_moves at h
  cases hfk : _find_key_points g with
  | none => rw [hfk] at h; simp at h
  | some r1 =>
    rw [hfk] at h
    cases r1 with
    | error e => simp at h
    | ok kp =>
      simp only [] at h
      cases htp : _teleport_partner_map kp.2.2 with
      | error e => rw [htp] at h; simp at h
      | ok partner =>
        rw [htp] at h
        simp only [] at h
        cases hpw : _pairwise_shortest_paths g (kp.1 :: kp.2.1) partner with
        | none => rw [hpw] at h; simp at h
        | some dm =>
          rw [hpw] at h
          simp only [] at h
          by_cases hcond : (((List.range (kp.1 :: kp.2.1).length).drop 1).any
              (fun i => decide (INF ≤ matGet dm.1 0 i))) = true
          · rw [if_pos hcond] at h
            simp at h
          · rw [if_neg hcond] at h
            cases hhk : _held_karp_tsp dm.1 with
            | none => rw [hhk] at h; simp at h
            | some r2 =>
              rw [hhk] at h
              cases r2 with
              | error e => simp at h
              | ok co =>
                simp only [] at h
                cases hfold : (co.2.zip co.2.tail).foldlM (fun moves ab =>
                    match dget? dm.2 ab with
                    | none => none
                    | some segment => some (moves ++ segment.flatMap dirName))
                    ([] : List String) with
                | none => rw [hfold] at h; simp at h
                | some ms2 =>
                  rw [hfold] at h
                  simp only [Option.some.injEq, Except.ok.injEq] at h
                  have hmsv : ms = (co.2.zip co.2.tail).flatMap
                      (fun ab => ((dget? dm.2 ab).getD []).flatMap dirName) := by
                    rw [← h]
                    have h2 := assemble_inv dm.2 (co.2.zip co.2.tail) [] ms2 hfold
                    rw [h2]
                    simp
                  refine ⟨?_, kp, partner, dm, co.1, co.2, rfl, htp, hpw, hhk, hmsv⟩
                  intro s2 hs2
                  rw [hmsv] at hs2
                  obtain ⟨ab, _, hs3⟩ := List.mem_flatMap.mp hs2
                  obtain ⟨mv, _, hs4⟩ := List.mem_flatMap.mp hs3
                  exact dirName_mem mv s2 hs4

/-- C8 (witness): the successful run on `[["S","1","F"]]` returns
`["right","right"]`, which satisfies both reported properties. -/
theorem C8_moves_assembly_witness :
    (∀ s2 ∈ (["right", "right"] : List String),
      s2 = "up" ∨ s2 = "down" ∨ s2 = "left" ∨ s2 = "right") ∧
    ∃ kp partner dm c order,
      _find_key_points [["S", "1", "F"]] = some (.ok kp) ∧
      _teleport_partner_map kp.2.2 = .ok partner ∧
      _pairwise_shortest_paths [["S", "1", "F"]] (kp.1 :: kp.2.1) partner = some dm ∧
      _held_karp_tsp dm.1 = some (.ok (c, order)) ∧
      (["right", "right"] : List String) = (order.zip order.tail).flatMap
        (fun ab => ((dget? dm.2 ab).getD []).flatMap dirName) :=
  C8_moves_assembly [["S", "1", "F"]] ["right", "right"] (by rfl)

/-! ### Claim C1: the claim-side simulation of a returned move list -/

/-- The grid displacement a returned move name denotes (spec §2: up/down
decrease/increase the row, left/right the column). -/
def moveDelta (s : String) : Int × Int :=
  if s = "up" then (-1, 0)
  else if s = "down" then (1, 0)
  else if s = "left" then (0, -1)
  else if s = "right" then (0, 1)
  else (0, 0)

/-- Step-by-step simulation of a move list: each step must land on an
in-bounds drivable cell (`landAt` is `none` on blocked or out-of-bounds
targets) and entry onto a teleport cell relocates to its partner; the result
is the list of positions occupied, in order.  `none` means the list makes an
illegal step. -/
def simRun (g : Grid) (partner : List (Pos × Pos)) : Pos → List String → Option (List Pos)
  | p, [] => some [p]
  | p, s :: ms =>
    match landAt g partner (p.1 + (moveDelta s).1, p.2 + (moveDelta s).2) with
    | none => none
    | some q => (simRun g partner q ms).map (fun vs => p :: vs)

theorem simRun_head (g : Grid) (partner : List (Pos × Pos)) :
    ∀ (ms : List String) (p : Pos) (vs : List Pos),
      simRun g partner p ms = some vs → vs.head? = some p ∧ vs ≠ [] := by
  intro ms
  cases ms with
  | nil =>
    intro p vs h
    rw [← Option.some.inj h]
    exact ⟨rfl, by simp⟩
  | cons s ms =>
    intro p vs h
    unfold simRun at h
    cases hland : landAt g partner (p.1 + (moveDelta s).1, p.2 + (moveDelta s).2) with
    | none =>
      rw [hland] at h
      exact Option.noConfusion h
    | some q =>
      rw [hland] at h
      have h2 : Option.map (fun vs2 => p :: vs2) (simRun g partner q ms) = some vs := h
      clear h
      cases hrec : simRun g partner q ms with
      | none =>
        rw [hrec] at h2
        exact Option.noConfusion h2
      | some vs2 =>
        rw [hrec] at h2
        have h4 : some (p :: vs2) = some vs := h2
        rw [← Option.some.inj h4]
        exact ⟨rfl, by simp⟩

theorem simRun_append (g : Grid) (partner : List (Pos × Pos)) :
    ∀ (ms1 : List String) (p q : Pos) (vs1 vs2 : List Pos) (ms2 : List String),
      simRun g partner p ms1 = some vs1 → vs1.getLast? = some q →
      simRun g partner q ms2 = some vs2 →
      simRun g partner p (ms1 ++ ms2) = some (vs1.dropLast ++ vs2) := by
  intro ms1
  induction ms1 with
  | nil =>
    intro p q vs1 vs2 ms2 h1 hlast h2
    have hv : vs1 = [p] := (Option.some.inj h1).symm
    subst hv
    have hq : q = p := by
      rw [show ([p] : List Pos).getLast? = some p from rfl] at hlast
      exact (Option.some.inj hlast).symm
    subst hq
    rw [List.nil_append]
    simpa using h2
  | cons s ms1 ih =>
    intro p q vs1 vs2 ms2 h1 hlast h2
    unfold simRun at h1
    cases hland : landAt g partner (p.1 + (moveDelta s).1, p.2 + (moveDelta s).2) with
    | none =>
      rw [hland] at h1
      exact Option.noConfusion h1
    | some r =>
      rw [hland] at h1
      have h3 : Option.map (fun vs2 => p :: vs2) (simRun g partner r ms1) = some vs1 := h1
      clear h1
      cases hrec : simRun g partner r ms1 with
      | none =>
        rw [hrec] at h3
        exact Option.noConfusion h3
      | some vs3 =>
        rw [hrec] at h3
        have h4 : some (p :: vs3) = some vs1 := h3
        have hv : vs1 = p :: vs3 := (Option.some.inj h4).symm
        subst hv
        have hvne : vs3 ≠ [] := (simRun_head g partner ms1 r vs3 hrec).2
        have hlast3 : vs3.getLast? = some q := by
          rcases vs3 with _ | ⟨a, t⟩
          · exact absurd rfl hvne
          · rwa [List.getLast?_cons_cons] at hlast
        have hih := ih r q vs3 vs2 ms2 hrec hlast3 h2
        rw [List.cons_append]
        unfold simRun
        rw [hland]
        show Option.map (fun vs4 => p :: vs4) (simRun g partner r (ms1 ++ ms2)) =
          some ((p :: vs3).dropLast ++ vs2)
        rw [hih, List.dropLast_cons_of_ne_nil hvne]
        rfl

theorem mem_dropLast_append {vs1 vs2 : List Pos} {q x : Pos}
    (hlast : vs1.getLast? = some q) (hhead : vs2.head? = some q)
    (hx : x ∈ vs1) : x ∈ vs1.dropLast ++ vs2 := by
  rw [← List.dropLast_append_getLast? q hlast] at hx
  rcases List.mem_append.mp hx with h1 | h1
  · exact List.mem_append_left _ h1
  · rw [List.mem_singleton] at h1
    subst h1
    exact List.mem_append_right _ (List.mem_of_mem_head? hhead)

theorem Replay_simRun {g : Grid} {partner : List (Pos × Pos)} :
    ∀ {p q : Pos} {cs : List Char}, Replay g partner p cs q →
      ∃ vs, simRun g partner p (cs.flatMap dirName) = some vs ∧
        vs.head? = some p ∧ vs.getLast? = some q := by
  intro p q cs h
  induction h with
  | nil p => exact ⟨[p], rfl, rfl, rfl⟩
  | cons hs hrep ih =>
    rename_i p2 q2 r2 mv ms
    obtain ⟨vs, hsim, hhead, hlast⟩ := ih
    obtain ⟨d, hd, hmv, hland⟩ := hs
    have hvne : vs ≠ [] := by
      intro he
      rw [he] at hhead
      exact Option.noConfusion hhead
    have hlast2 : ∀ x : Pos, (x :: vs).getLast? = some r2 := by
      intro x
      rcases vs with _ | ⟨a, t⟩
      · exact absurd rfl hvne
      · rwa [List.getLast?_cons_cons]
    rcases List.mem_cons.mp hd with rfl | hd2
    · have hmv2 : mv = 'U' := hmv.symm
      subst hmv2
      refine ⟨p2 :: vs, ?_, rfl, hlast2 p2⟩
      rw [show (('U' : Char) :: ms).flatMap dirName = "up" :: ms.flatMap dirName from rfl]
      unfold simRun
      rw [show (p2.1 + (moveDelta "up").1, p2.2 + (moveDelta "up").2) =
        (p2.1 + ((-1 : Int), (0 : Int), 'U').1,
         p2.2 + ((-1 : Int), (0 : Int), 'U').2.1) from rfl]
      rw [hland]
      show Option.map (fun vs2 => p2 :: vs2) (simRun g partner q2 (ms.flatMap dirName)) =
        some (p2 :: vs)
      rw [hsim]
      rfl
    rcases List.mem_cons.mp hd2 with rfl | hd3
    · have hmv2 : mv = 'D' := hmv.symm
      subst hmv2
      refine ⟨p2 :: vs, ?_, rfl, hlast2 p2⟩
      rw [show (('D' : Char) :: ms).flatMap dirName = "down" :: ms.flatMap dirName from rfl]
      unfold simRun
      rw [show (p2.1 + (moveDelta "down").1, p2.2 + (moveDelta "down").2) =
        (p2.1 + ((1 : Int), (0 : Int), 'D').1,
         p2.2 + ((1 : Int), (0 : Int), 'D').2.1) from rfl]
      rw [hland]
      show Option.map (fun vs2 => p2 :: vs2) (simRun g partner q2 (ms.flatMap dirName)) =
        some (p2 :: vs)
      rw [hsim]
      rfl
    rcases List.mem_cons.mp hd3 with rfl | hd4
    · have hmv2 : mv = 'L' := hmv.symm
      subst hmv2
      refine ⟨p2 :: vs, ?_, rfl, hlast2 p2⟩
      rw [show (('L' : Char) :: ms).flatMap dirName = "left" :: ms.flatMap dirName from rfl]
      unfold simRun
      rw [show (p2.1 + (moveDelta "left").1, p2.2 + (moveDelta "left").2) =
        (p2.1 + ((0 : Int), (-1 : Int), 'L').1,
         p2.2 + ((0 : Int), (-1 : Int), 'L').2.1) from rfl]
      rw [hland]
      show Option.map (fun vs2 => p2 :: vs2) (simRun g partner q2 (ms.flatMap dirName)) =
        some (p2 :: vs)
      rw [hsim]
      rfl
    rcases List.mem_cons.mp hd4 with rfl | hd5
    · have hmv2 : mv = 'R' := hmv.symm
      subst hmv2
      refine ⟨p2 :: vs, ?_, rfl, hlast2 p2⟩
      rw [show (('R' : Char) :: ms).flatMap dirName = "right" :: ms.flatMap dirName from rfl]
      unfold simRun
      rw [show (p2.1 + (moveDelta "right").1, p2.2 + (moveDelta "right").2) =
        (p2.1 + ((0 : Int), (1 : Int), 'R').1,
         p2.2 + ((0 : Int), (1 : Int), 'R').2.1) from rfl]
      rw [hland]
      show Option.map (fun vs2 => p2 :: vs2) (simRun g partner q2 (ms.flatMap dirName)) =
        some (p2 :: vs)
      rw [hsim]
      rfl
    simp at hd5

theorem sim_chain (g : Grid) (partner : List (Pos × Pos)) (points : List Pos)
    (mp : List ((Nat × Nat) × List Char)) :
    ∀ (ord : List Nat) (a : Nat) (pa : Pos), points.get? a = some pa →
      (∀ ab ∈ (a :: ord).zip ord, ∃ px py seg,
        points.get? ab.1 = some px ∧ points.get? ab.2 = some py ∧
        dget? mp ab = some seg ∧ Replay g partner px seg py) →
      ∃ vs, simRun g partner pa (((a :: ord).zip ord).flatMap
          (fun ab => ((dget? mp ab).getD []).flatMap dirName)) = some vs ∧
        ∀ k ∈ a :: ord, ∀ pk, points.get? k = some pk → pk ∈ vs := by
  intro ord
  induction ord with
  | nil =>
    intro a pa hpa _
    refine ⟨[pa], rfl, ?_⟩
    intro k hk pk hpk
    rw [List.mem_singleton] at hk
    subst hk
    rw [hpa] at hpk
    rw [← Option.some.inj hpk]
    simp
  | cons b ord ih =>
    intro a pa hpa hgood
    have hpair : ((a :: b :: ord).zip (b :: ord)) = (a, b) :: ((b :: ord).zip ord) := rfl
    obtain ⟨px, py, seg, hpx, hpy, hseg, hrep⟩ := hgood (a, b)
      (by rw [hpair]; exact List.mem_cons_self _ _)
    have hpxa : px = pa := by
      rw [hpa] at hpx
      exact (Option.some.inj hpx).symm
    rw [hpxa] at hrep
    obtain ⟨vs1, hsim1, hhead1, hlast1⟩ := Replay_simRun hrep
    obtain ⟨vs2, hsim2, hmem2⟩ := ih b py hpy
      (fun ab hab => hgood ab (by rw [hpair]; exact List.mem_cons_of_mem _ hab))
    have hhead2 : vs2.head? = some py := (simRun_head g partner _ py vs2 hsim2).1
    have happ := simRun_append g partner (seg.flatMap dirName) pa py vs1 vs2 _
      hsim1 hlast1 hsim2
    refine ⟨vs1.dropLast ++ vs2, ?_, ?_⟩
    · rw [hpair, List.flatMap_cons, hseg]
      rw [show ((some seg).getD ([] : List Char)) = seg from rfl]
      exact happ
    · intro k hk pk hpk
      rcases List.mem_cons.mp hk with rfl | hk2
      · rw [hpa] at hpk
        rw [← Option.some.inj hpk]
        exact mem_dropLast_append hlast1 hhead2 (List.mem_of_mem_head? hhead1)
      · exact List.mem_append_right _ (hmem2 k hk2 pk hpk)

theorem foldl_add_map {α : Type} (f : α → Nat) :
    ∀ (ps : List α) (acc : Nat),
      ps.foldl (fun s ab => s + f ab) acc = acc + (ps.map f).sum := by
  intro ps
  induction ps with
  | nil => intro acc; simp
  | cons x ps ih =>
    intro acc
    rw [List.foldl_cons, ih, List.map_cons, List.sum_cons]
    omega

theorem pathCost_eq_sum (d : List (List Nat)) (l : List Nat) :
    pathCost d l = ((l.zip l.tail).map (fun ab => matGet d ab.1 ab.2)).sum := by
  unfold pathCost
  rw [foldl_add_map]
  omega

theorem sum_ge_of_mem_INF (L : List Nat) (hmem : INF ∈ L) (hall : ∀ x ∈ L, 1 ≤ x)
    (hlen : 2 ≤ L.length) : INF + 1 ≤ L.sum := by
  obtain ⟨L1, L2, rfl⟩ := List.append_of_mem hmem
  rw [List.sum_append, List.sum_cons]
  have hlen2 : 1 ≤ L1.length + L2.length := by
    rw [List.length_append, List.length_cons] at hlen
    omega
  have hpos : 1 ≤ L1.sum + L2.sum := by
    rcases Nat.eq_zero_or_pos L1.length with h0 | hp
    · have hne : L2 ≠ [] := by
        intro he
        rw [he] at hlen2
        simp at hlen2
        omega
      obtain ⟨y, t, rfl⟩ := List.exists_cons_of_ne_nil hne
      have h1 := hall y (by simp)
      rw [List.sum_cons]
      omega
    · obtain ⟨y, t, rfl⟩ := List.exists_cons_of_ne_nil (List.length_pos.mp hp)
      have h1 := hall y (by simp)
      rw [List.sum_cons]
      omega
  omega

theorem zip_tail_ne {l : List Nat} (hnd : l.Nodup) :
    ∀ ab ∈ l.zip l.tail, ab.1 ≠ ab.2 := by
  induction l with
  | nil => intro ab h; simp at h
  | cons a t ih =>
    intro ab h
    cases t with
    | nil => simp at h
    | cons b t2 =>
      rw [show (a :: b :: t2).zip ((a :: b :: t2).tail) =
        (a, b) :: ((b :: t2).zip t2) from rfl] at h
      rcases List.mem_cons.mp h with rfl | hmem
      · intro he
        have he2 : a = b := he
        rw [he2] at hnd
        exact (List.nodup_cons.mp hnd).1 (List.mem_cons_self b t2)
      · exact ih (List.nodup_cons.mp hnd).2 ab hmem

theorem heldKarp_cost_le (dist : List (List Nat)) (c : Nat) (order : List Nat)
    (h : _held_karp_tsp dist = some (.ok (c, order))) : c ≤ INF := by
  rw [held_karp_eq2] at h
  by_cases hbe :
      (hkBest (hkDP dist dist.length (1 <<< dist.length)) dist.length).2 = dist.length
  · rw [if_pos hbe] at h
    simp at h
  · rw [if_neg hbe] at h
    cases hrec : hkRecon (hkDP dist dist.length (1 <<< dist.length)) (dist.length + 1)
        ((1 <<< dist.length) - 1)
        (((hkBest (hkDP dist dist.length (1 <<< dist.length)) dist.length).2 : Nat) : Int)
        [] with
    | none =>
      rw [hrec] at h
      simp at h
    | some o =>
      rw [hrec] at h
      simp only [Option.some.injEq, Except.ok.injEq, Prod.mk.injEq] at h
      obtain ⟨hc1, _⟩ := h
      rw [← hc1]
      rcases hkBest_fold_le (hkDP dist dist.length (1 <<< dist.length))
          ((1 <<< dist.length) - 1) (List.range dist.length) (INF, dist.length) with
        hlt | ⟨heq, _⟩
      · exact Nat.le_of_lt hlt
      · exact Nat.le_of_eq heq

theorem points_nodup (g : Grid) (s : Pos) (hs : s ∈ occs g (scanCells g) "S") :
    (s :: occs g (scanCells g) "F").Nodup := by
  rw [List.nodup_cons]
  refine ⟨?_, occs_nodup g "F"⟩
  intro hmem
  rw [mem_occs] at hs hmem
  obtain ⟨rc1, h1, hc1, he1⟩ := hs
  obtain ⟨rc2, h2, hc2, he2⟩ := hmem
  have hrc : rc1 = rc2 := posOf_inj (he1.symm.trans he2)
  rw [hrc] at hc1
  exact absurd (hc1.symm.trans hc2) (by decide)

theorem solve_ok_inv (g : Grid) (ms : List String)
    (h : solve_grid_to_moves g = some (.ok ms)) :
    ∃ kp partner dm c order,
      _find_key_points g = some (.ok kp) ∧
      _teleport_partner_map kp.2.2 = .ok partner ∧
      _pairwise_shortest_paths g (kp.1 :: kp.2.1) partner = some dm ∧
      (((List.range (kp.1 :: kp.2.1).length).drop 1).any
        (fun i => decide (INF ≤ matGet dm.1 0 i))) = false ∧
      _held_karp_tsp dm.1 = some (.ok (c, order)) ∧
      ms = (order.zip order.tail).flatMap
        (fun ab => ((dget? dm.2 ab).getD []).flatMap dirName) := by
  unfold solve_grid_to_moves at h
  cases hfk : _find_key_points g with
  | none => rw [hfk] at h; simp at h
  | some r1 =>
    rw [hfk] at h
    cases r1 with
    | error e => simp at h
    | ok kp =>
      simp only [] at h
      cases htp : _teleport_partner_map kp.2.2 with
      | error e => rw [htp] at h; simp at h
      | ok partner =>
        rw [htp] at h
        simp only [] at h
        cases hpw : _pairwise_shortest_paths g (kp.1 :: kp.2.1) partner with
        | none => rw [hpw] at h; simp at h
        | some dm =>
          rw [hpw] at h
          simp only [] at h
          by_cases hcond : (((List.range (kp.1 :: kp.2.1).length).drop 1).any
              (fun i => decide (INF ≤ matGet dm.1 0 i))) = true
          · rw [if_pos hcond] at h
            simp at h
          · rw [if_neg hcond] at h
            cases hhk : _held_karp_tsp dm.1 with
            | none => rw [hhk] at h; simp at h
            | some r2 =>
              rw [hhk] at h
              cases r2 with
              | error e => simp at h
              | ok co =>
                simp only [] at h
                cases hfold : (co.2.zip co.2.tail).foldlM (fun moves ab =>
                    match dget? dm.2 ab with
                    | none => none
                    | some segment => some (moves ++ segment.flatMap dirName))
                    ([] : List String) with
                | none => rw [hfold] at h; simp at h
                | some ms2 =>
                  rw [hfold] at h
                  simp only [Option.some.injEq, Except.ok.injEq] at h
                  have hmsv : ms = (co.2.zip co.2.tail).flatMap
                      (fun ab => ((dget? dm.2 ab).getD []).flatMap dirName) := by
                    rw [← h]
                    have h2 := assemble_inv dm.2 (co.2.zip co.2.tail) [] ms2 hfold
                    rw [h2]
                    simp
                  refine ⟨kp, partner, dm, co.1, co.2, rfl, htp, hpw, ?_, hhk, hmsv⟩
                  rcases Bool.eq_false_or_eq_true (((List.range
                      (kp.1 :: kp.2.1).length).drop 1).any
                      (fun i => decide (INF ≤ matGet dm.1 0 i))) with hget | hget
                  · exact absurd hget hcond
                  · exact hget

theorem pairVal_ne (dist : List (Pos × Nat)) (i : Nat) (jq : Nat × Pos)
    (h : i ≠ jq.1) :
    pairVal dist i jq = match dget? dist jq.2 with
      | some dv => if dv < INF then dv else INF
      | none => INF := by
  unfold pairVal
  rw [if_neg h]

/-- C1: on a structurally valid grid, a successful `Solve` produces a move
list whose step-by-step simulation from the start cell is legal throughout —
every step lands on an in-bounds, non-blocked cell (`simRun` returns `none`
otherwise), with entry onto a teleport cell relocating to its partner — and
the visited positions include every flag cell. -/
theorem C1_round_trip (g : Grid) (hv : StructValid g) (ms : List String)
    (h : solve_grid_to_moves g = some (.ok ms)) :
    ∃ kp partner vs,
      _find_key_points g = some (.ok kp) ∧
      _teleport_partner_map kp.2.2 = .ok partner ∧
      (∃ rc ∈ scanCells g, cellAt g rc = "S" ∧ kp.1 = posOf rc) ∧
      simRun g partner kp.1 ms = some vs ∧
      (∀ p : Pos, (∃ rc ∈ scanCells g, cellAt g rc = "F" ∧ p = posOf rc) → p ∈ vs) := by
  have hre : Rect g := hv.2.2.1
  obtain ⟨kp, partner, dm, c, order, hfk, htp, hpw, hcheck, hhk, hmsv⟩ := solve_ok_inv g ms h
  obtain ⟨hst, hflags, htps⟩ := find_key_points_inv g hre kp hfk
  have hsmem : kp.1 ∈ occs g (scanCells g) "S" := by
    rcases scanFold_start_mem g (scanCells g) ⟨none, [], []⟩ with h1 | ⟨p, hp, h1⟩
    · rw [hst] at h1
      exact absurd h1 (by simp)
    · rw [hst] at h1
      rw [Option.some.inj h1]
      exact hp
  have hWF : PartnerWF g partner := by
    refine partnerWF_of_run g hre partner ?_
    rw [← htps]
    exact htp
  obtain ⟨dm1, mp1, hpweq, hlen1, hrows⟩ := pairwise_run (kp.1 :: kp.2.1) hre hWF
  have hdm : dm = (dm1, mp1) := by
    rw [hpweq] at hpw
    exact (Option.some.inj hpw).symm
  obtain ⟨hn2, hhead, hnd, hperm, hcost, hmin⟩ := heldKarp_ok dm.1 c order hhk
  have hcle : c ≤ INF := heldKarp_cost_le dm.1 c order hhk
  have hpnodup : (kp.1 :: kp.2.1).Nodup := by
    rw [hflags]
    exact points_nodup g kp.1 hsmem
  have hn : dm.1.length = (kp.1 :: kp.2.1).length := by
    rw [hdm]
    exact hlen1
  have hedge : ∀ ab ∈ order.zip order.tail,
      (matGet dm.1 ab.1 ab.2 = INF) ∨
      (∃ px py seg, (kp.1 :: kp.2.1).get? ab.1 = some px ∧
        (kp.1 :: kp.2.1).get? ab.2 = some py ∧
        dget? dm.2 ab = some seg ∧ Replay g partner px seg py ∧
        1 ≤ matGet dm.1 ab.1 ab.2 ∧ matGet dm.1 ab.1 ab.2 < INF) := by
    intro ab hab
    have hne := zip_tail_ne hnd ab hab
    obtain ⟨hm1, hm2⟩ := zip_tail_mem order ab hab
    have ha : ab.1 < (kp.1 :: kp.2.1).length := by
      have h2 := List.mem_range.mp (hperm.mem_iff.mp hm1)
      omega
    have hb : ab.2 < (kp.1 :: kp.2.1).length := by
      have h2 := List.mem_range.mp (hperm.mem_iff.mp hm2)
      omega
    obtain ⟨px, hga⟩ : ∃ px, (kp.1 :: kp.2.1).get? ab.1 = some px :=
      ⟨_, List.get?_eq_get ha⟩
    obtain ⟨py, hgb⟩ : ∃ py, (kp.1 :: kp.2.1).get? ab.2 = some py :=
      ⟨_, List.get?_eq_get hb⟩
    have hpxy : px ≠ py := by
      intro he
      apply hne
      have h1 := hga
      have h2 := hgb
      rw [List.get?_eq_getElem?] at h1 h2
      obtain ⟨hb1, he1⟩ := List.getElem?_eq_some_iff.mp h1
      obtain ⟨hb2, he2⟩ := List.getElem?_eq_some_iff.mp h2
      rw [← he] at he2
      exact (List.Nodup.getElem_inj_iff hpnodup).mp (he1.trans he2.symm)
    obtain ⟨dist, parent, hbfs, hinv, hrel, hrowk, hsegs⟩ :=
      hrows ab.1 (ab.1, px) (by
        rw [enum_get?, hga]
        rfl)
    have hmat : matGet dm.1 ab.1 ab.2 = pairVal dist ab.1 (ab.2, py) := by
      rw [hdm]
      show matGet dm1 ab.1 ab.2 = _
      unfold matGet
      rw [getD_of_get? _ _ _ _ hrowk]
      have hgm : ((kp.1 :: kp.2.1).enum.map (pairVal dist (ab.1, px).1)).get? ab.2 =
          some (pairVal dist (ab.1, px).1 (ab.2, py)) := by
        rw [List.get?_eq_getElem?, List.getElem?_map, ← List.get?_eq_getElem?]
        rw [enum_get?, hgb]
        rfl
      exact getD_of_get? _ _ _ _ hgm
    have hval : pairVal dist ab.1 (ab.2, py) =
        match dget? dist py with
        | some dv => if dv < INF then dv else INF
        | none => INF := pairVal_ne dist ab.1 (ab.2, py) hne
    cases hdf : dget? dist py with
    | none =>
      left
      rw [hdf] at hval
      rw [hmat]
      exact hval
    | some dv =>
      rw [hdf] at hval
      have hval2 : pairVal dist ab.1 (ab.2, py) = if dv < INF then dv else INF := hval
      by_cases hlt : dv < INF
      · rw [if_pos hlt] at hval2
        right
        have hdv1 : 1 ≤ dv := by
          rcases hinv.sound py dv hdf with hI | ⟨_, hpath⟩
          · rw [hI] at hlt
            exact absurd hlt (lt_irrefl _)
          · by_contra hz
            push_neg at hz
            have hz0 : dv = 0 := by omega
            rw [hz0] at hpath
            exact hpxy (FPathN.zero_eq hpath)
        obtain ⟨seg, hseg, hspec⟩ := hsegs (ab.2, py) (by
          have hgmem : (kp.1 :: kp.2.1).enum.get? ab.2 = some (ab.2, py) := by
            rw [enum_get?, hgb]
            rfl
          exact List.get?_mem hgmem)
        rcases hspec with ⟨hij, _⟩ | ⟨_, hgd | ⟨hpv, _⟩⟩
        · exact absurd hij hne
        · obtain ⟨dv2, _, _, hrecon⟩ := hgd
          obtain ⟨ms2, hms2, hrep⟩ := reconstruct_moves_run hinv py dv hdf hlt
          have hrecon2 : _reconstruct_moves parent (ab.1, px).2 py = some seg := hrecon
          have hmseq : seg = ms2 := Option.some.inj (hrecon2.symm.trans hms2)
          have hrep2 : Replay g partner px seg py := by
            rw [hmseq]
            exact hrep
          refine ⟨px, py, seg, hga, hgb, ?_, hrep2, ?_, ?_⟩
          · rw [hdm]
            exact hseg
          · rw [hmat, hval2]
            exact hdv1
          · rw [hmat, hval2]
            exact hlt
        · exfalso
          have hpv2 : pairVal dist ab.1 (ab.2, py) = INF := hpv
          rw [hval2] at hpv2
          rw [hpv2] at hlt
          exact absurd hlt (lt_irrefl _)
      · left
        rw [if_neg hlt] at hval2
        rw [hmat]
        exact hval2
  have hgood : ∀ ab ∈ order.zip order.tail, ∃ px py seg,
      (kp.1 :: kp.2.1).get? ab.1 = some px ∧ (kp.1 :: kp.2.1).get? ab.2 = some py ∧
      dget? dm.2 ab = some seg ∧ Replay g partner px seg py := by
    intro ab hab
    rcases hedge ab hab with hINF | ⟨px, py, seg, h1, h2, h3, h4, _, _⟩
    · exfalso
      rcases Nat.lt_or_ge dm.1.length 3 with hn3 | hn3
      · have hn2e : dm.1.length = 2 := by omega
        have horder : order = [0, 1] := by
          have hlen2 : order.length = 2 := by
            rw [hperm.length_eq, List.length_range, hn2e]
          rcases order with _ | ⟨o0, t⟩
          · rw [List.length_nil] at hlen2
            omega
          · have ho0 : o0 = 0 := by simpa using hhead
            subst ho0
            rcases t with _ | ⟨o1, t2⟩
            · rw [List.length_singleton] at hlen2
              omega
            · rcases t2 with _ | ⟨o2, t3⟩
              · have h1mem : 1 ∈ ([0, o1] : List Nat) :=
                  hperm.mem_iff.mpr (by rw [hn2e]; decide)
                rcases List.mem_cons.mp h1mem with h1 | h1
                · exact absurd h1 (by decide)
                · rw [List.mem_singleton] at h1
                  rw [← h1]
              · rw [List.length_cons, List.length_cons, List.length_cons] at hlen2
                omega
        have hab2 : ab = (0, 1) := by
          rw [horder] at hab
          simpa using hab
        rw [List.any_eq_false] at hcheck
        have h1d : (1 : Nat) ∈ (List.range (kp.1 :: kp.2.1).length).drop 1 := by
          rw [← hn, hn2e]
          decide
        have hnotge := hcheck 1 h1d
        simp at hnotge
        rw [hab2] at hINF
        have hINF2 : matGet dm.1 0 1 = INF := hINF
        omega
      · have hsum : pathCost dm.1 order =
            ((order.zip order.tail).map (fun ab2 => matGet dm.1 ab2.1 ab2.2)).sum :=
          pathCost_eq_sum _ _
        have hmemL : INF ∈ (order.zip order.tail).map
            (fun ab2 => matGet dm.1 ab2.1 ab2.2) :=
          List.mem_map.mpr ⟨ab, hab, hINF⟩
        have hallL : ∀ x ∈ (order.zip order.tail).map
            (fun ab2 => matGet dm.1 ab2.1 ab2.2), 1 ≤ x := by
          intro x hx
          obtain ⟨ab2, hab2, rfl⟩ := List.mem_map.mp hx
          rcases hedge ab2 hab2 with hI | ⟨_, _, _, _, _, _, _, h1, _⟩
          · rw [hI]
            unfold INF
            norm_num
          · exact h1
        have hlenL : 2 ≤ ((order.zip order.tail).map
            (fun ab2 => matGet dm.1 ab2.1 ab2.2)).length := by
          rw [List.length_map, List.length_zip, List.length_tail]
          have hol : order.length = dm.1.length := by
            rw [hperm.length_eq, List.length_range]
          omega
        have hge := sum_ge_of_mem_INF _ hmemL hallL hlenL
        rw [hcost, hsum] at hcle
        omega
    · exact ⟨px, py, seg, h1, h2, h3, h4⟩
  cases order with
  | nil => exact absurd hhead (by simp)
  | cons o0 ord2 =>
    have ho0 : o0 = 0 := by simpa using hhead
    subst ho0
    obtain ⟨vs, hsim, hcover⟩ := sim_chain g partner (kp.1 :: kp.2.1) dm.2 ord2 0 kp.1
      rfl (by
        intro ab hab
        exact hgood ab hab)
    refine ⟨kp, partner, vs, hfk, htp, ?_, ?_, ?_⟩
    · rw [mem_occs] at hsmem
      exact hsmem
    · rw [hmsv]
      exact hsim
    · intro p hp
      have hpf : p ∈ kp.2.1 := by
        rw [hflags, mem_occs]
        exact hp
      obtain ⟨nf, hnf⟩ := List.get_of_mem hpf
      have hget : (kp.1 :: kp.2.1).get? ((nf : Nat) + 1) = some p := by
        rw [List.get?_cons_succ, List.get?_eq_get nf.2]
        exact congrArg some hnf
      have hkmem : ((nf : Nat) + 1) ∈ (0 :: ord2 : List Nat) := by
        refine hperm.mem_iff.mpr (List.mem_range.mpr ?_)
        rw [hn, List.length_cons]
        have h2 := nf.2
        omega
      exact hcover _ hkmem p hget

/-- Witness for C1: on the concrete grid [["S", "1", "F"]] the solver returns
["right", "right"], whose simulation from the start visits the flag. -/
theorem C1_round_trip_witness :
    ∃ kp partner vs,
      _find_key_points [["S", "1", "F"]] = some (.ok kp) ∧
      _teleport_partner_map kp.2.2 = .ok partner ∧
      (∃ rc ∈ scanCells [["S", "1", "F"]],
        cellAt [["S", "1", "F"]] rc = "S" ∧ kp.1 = posOf rc) ∧
      simRun [["S", "1", "F"]] partner kp.1 ["right", "right"] = some vs ∧
      (∀ p : Pos, (∃ rc ∈ scanCells [["S", "1", "F"]],
        cellAt [["S", "1", "F"]] rc = "F" ∧ p = posOf rc) → p ∈ vs) :=
  C1_round_trip [["S", "1", "F"]]
    (by
      refine ⟨by decide, by decide, by unfold Rect; decide, by decide, by decide,
        by decide, ?_⟩
      intro t ht
      left
      have h1 : "S" ≠ t := by
        intro he
        rw [← he] at ht
        exact absurd ht (by decide)
      have h2 : "1" ≠ t := by
        intro he
        rw [← he] at ht
        exact absurd ht (by decide)
      have h3 : "F" ≠ t := by
        intro he
        rw [← he] at ht
        exact absurd ht (by decide)
      show List.count t ["S", "1", "F"] = 0
      simp [List.count_cons, h1, h2, h3])
    ["right", "right"] (by rfl)

/-! ### Pigeonhole shortening of folded paths -/

theorem dup_split {α : Type} (l : List α) (hnd : ¬ l.Nodup) :
    ∃ (x : α) (A B C : List α), l = A ++ x :: (B ++ x :: C) := by
  obtain ⟨x, hdup⟩ := List.exists_duplicate_iff_not_nodup.mpr hnd
  have hsub := List.duplicate_iff_sublist.mp hdup
  rw [List.cons_sublist_iff] at hsub
  obtain ⟨r1, r2, heq, hx1, hsub2⟩ := hsub
  rw [List.cons_sublist_iff] at hsub2
  obtain ⟨r3, r4, heq2, hx3, _⟩ := hsub2
  obtain ⟨s1, t1, heq3⟩ := List.append_of_mem hx1
  obtain ⟨s3, t3, heq4⟩ := List.append_of_mem hx3
  refine ⟨x, s1, t1 ++ s3, t3 ++ r4, ?_⟩
  rw [heq, heq3, heq2, heq4]
  simp

theorem chain_shorten {α : Type} (R : α → α → Prop) :
    ∀ n : Nat, ∀ l : List α, l.length ≤ n → List.Chain' R l →
      ∃ l2 : List α, List.Chain' R l2 ∧ l2.Nodup ∧ l2.length ≤ l.length ∧
        l2.head? = l.head? ∧ l2.getLast? = l.getLast? ∧ ∀ y ∈ l2, y ∈ l := by
  intro n
  induction n with
  | zero =>
    intro l hl hch
    refine ⟨l, hch, ?_, Nat.le_refl _, rfl, rfl, fun y hy => hy⟩
    rw [List.length_eq_zero.mp (Nat.le_zero.mp hl)]
    exact List.nodup_nil
  | succ n ih =>
    intro l hl hch
    by_cases hnd : l.Nodup
    · exact ⟨l, hch, hnd, Nat.le_refl _, rfl, rfl, fun y hy => hy⟩
    · obtain ⟨x, A, B, C, hsplit⟩ := dup_split l hnd
      have hch0 : List.Chain' R (A ++ ((x :: B) ++ (x :: C))) := by
        rw [show A ++ ((x :: B) ++ (x :: C)) = A ++ x :: (B ++ x :: C) by simp]
        rw [← hsplit]
        exact hch
      rw [List.chain'_append] at hch0
      obtain ⟨hA, hBC, hlink⟩ := hch0
      rw [List.chain'_append] at hBC
      obtain ⟨hB, hC, _⟩ := hBC
      have hch1 : List.Chain' R (A ++ (x :: C)) := by
        rw [List.chain'_append]
        refine ⟨hA, hC, ?_⟩
        intro a hxa y hy
        refine hlink a hxa y ?_
        show ((x :: B) ++ (x :: C)).head? = some y
        exact hy
      have hlenbound : (A ++ (x :: C)).length + B.length + 1 = l.length := by
        rw [hsplit]
        simp only [List.length_append, List.length_cons]
        omega
      have hlen2 : (A ++ (x :: C)).length ≤ n := by
        omega
      obtain ⟨l2, h1, h2, h3, h4, h5, h6⟩ := ih (A ++ (x :: C)) hlen2 hch1
      refine ⟨l2, h1, h2, ?_, ?_, ?_, ?_⟩
      · omega
      · rw [h4, hsplit]
        cases A with
        | nil => rfl
        | cons a A2 => rfl
      · rw [h5, hsplit]
        rw [List.getLast?_append_cons A x C, List.getLast?_append_cons A x (B ++ x :: C)]
        exact (List.getLast?_append_cons (x :: B) x C).symm
      · intro y hy
        have hy2 := h6 y hy
        rw [hsplit]
        simp only [List.mem_append, List.mem_cons] at hy2 ⊢
        tauto

theorem FPathN_toTrace {g : Grid} {partner : List (Pos × Pos)} :
    ∀ {p q : Pos} {n : Nat}, FPathN g partner p q n →
      ∃ l : List Pos, List.Chain' (FStep g partner) l ∧ l.length = n + 1 ∧
        l.head? = some p ∧ l.getLast? = some q := by
  intro p q n h
  induction h with
  | refl p => exact ⟨[p], List.chain'_singleton p, rfl, rfl, rfl⟩
  | step hs hp ih =>
    rename_i p2 q2 r2 n2
    obtain ⟨l, hch, hlen, hhd, hlast⟩ := ih
    refine ⟨p2 :: l, List.chain'_cons'.mpr ⟨?_, hch⟩, ?_, rfl, ?_⟩
    · intro y hy
      have h2 : some q2 = some y := by
        rw [← hhd]
        exact hy
      rw [← Option.some.inj h2]
      exact hs
    · rw [List.length_cons, hlen]
    · have hne : l ≠ [] := by
        intro he
        rw [he] at hlen
        simp at hlen
      obtain ⟨a, t, heq⟩ := List.exists_cons_of_ne_nil hne
      rw [heq, List.getLast?_cons_cons, ← heq]
      exact hlast

theorem trace_toFPathN {g : Grid} {partner : List (Pos × Pos)} :
    ∀ (l : List Pos) (p q : Pos), List.Chain' (FStep g partner) l →
      l.head? = some p → l.getLast? = some q →
      FPathN g partner p q (l.length - 1) := by
  intro l
  induction l with
  | nil =>
    intro p q _ hh _
    exact absurd hh (by simp)
  | cons a t ih =>
    intro p q hch hh hlast
    have hap : a = p := by simpa using hh
    subst hap
    cases t with
    | nil =>
      have haq : a = q := by simpa using hlast
      subst haq
      exact FPathN.refl a
    | cons b t2 =>
      rw [List.chain'_cons] at hch
      obtain ⟨hstep, hch2⟩ := hch
      have hrest := ih b q hch2 rfl (by
        have h2 : (a :: b :: t2).getLast? = (b :: t2).getLast? := List.getLast?_cons_cons
        rw [← h2]
        exact hlast)
      simp only [List.length_cons, Nat.add_sub_cancel] at hrest ⊢
      exact FPathN.step hstep hrest

theorem trace_inbounds {g : Grid} {partner : List (Pos × Pos)}
    (hpw : PartnerWF g partner) :
    ∀ (l : List Pos), List.Chain' (FStep g partner) l →
      ∀ p0, l.head? = some p0 → _in_bounds p0.1 p0.2 g = true →
      ∀ p ∈ l, _in_bounds p.1 p.2 g = true := by
  intro l
  induction l with
  | nil =>
    intro _ p0 hh
    exact absurd hh (by simp)
  | cons a t ih =>
    intro hch p0 hh h0 p hp
    have hap : a = p0 := by simpa using hh
    rcases List.mem_cons.mp hp with rfl | hpt
    · rw [hap]
      exact h0
    · cases t with
      | nil => exact absurd hpt (by simp)
      | cons b t2 =>
        rw [List.chain'_cons] at hch
        obtain ⟨hstep, hch2⟩ := hch
        obtain ⟨d, hd, hland⟩ := hstep
        have hb := (landAt_inv hpw hland).1
        exact ih hch2 b rfl hb p hpt

theorem nodup_pos_card (g : Grid) (l : List Pos) (hnd : l.Nodup)
    (hin : ∀ p ∈ l, _in_bounds p.1 p.2 g = true) :
    l.length ≤ g.length * (g.headD []).length := by
  have hsub : l ⊆ (scanCells g).map posOf := by
    intro p hp
    obtain ⟨rc, hrc, hpe⟩ := exists_scan_of_inBounds (hin p hp)
    exact List.mem_map.mpr ⟨rc, hrc, hpe.symm⟩
  have hle := List.Subperm.length_le (List.Nodup.subperm hnd hsub)
  rw [List.length_map, scanCells_length] at hle
  exact hle

theorem FPathN_shorten {g : Grid} {partner : List (Pos × Pos)}
    (hpw : PartnerWF g partner) {p q : Pos} {n : Nat}
    (hin : _in_bounds p.1 p.2 g = true) (h : FPathN g partner p q n) :
    ∃ n2, n2 ≤ n ∧ n2 < g.length * (g.headD []).length ∧ FPathN g partner p q n2 := by
  obtain ⟨l, hch, hlen, hhd, hlast⟩ := FPathN_toTrace h
  obtain ⟨l2, hch2, hnd2, hle2, hhd2, hlast2, hmem2⟩ :=
    chain_shorten (FStep g partner) l.length l (Nat.le_refl _) hch
  have hin2 : ∀ x ∈ l2, _in_bounds x.1 x.2 g = true := by
    intro x hx
    exact trace_inbounds hpw l hch p hhd hin x (hmem2 x hx)
  have hcard := nodup_pos_card g l2 hnd2 hin2
  have hne : l2 ≠ [] := by
    intro he
    rw [he, hhd] at hhd2
    simp at hhd2
  have hpos : 0 < l2.length := List.length_pos.mpr hne
  refine ⟨l2.length - 1, ?_, ?_, ?_⟩
  · omega
  · omega
  · exact trace_toFPathN l2 p q hch2 (hhd2.trans hhd) (hlast2.trans hlast)

/-- C2: for every rectangular grid whose key-point extraction and teleport
pairing succeed and whose cell count stays below the sentinel, the pairwise
engine succeeds and its matrix entry (i, j) is: 0 on the diagonal; the
minimum number of unit-cost folded moves (each axis move costs 1, entry onto
a teleport cell relocating to its partner at no extra cost) from key point i
to key point j when j is reachable from i; and the sentinel `INF` when j is
unreachable from i. -/
theorem C2_pairwise_matrix (g : Grid)
    (kp : Pos × List Pos × List (Tile × List Pos)) (partner : List (Pos × Pos))
    (hre : Rect g) (hfk : _find_key_points g = some (.ok kp))
    (htp : _teleport_partner_map kp.2.2 = .ok partner)
    (hsize : g.length * (g.headD []).length ≤ INF) :
    ∃ dm mp, _pairwise_shortest_paths g (kp.1 :: kp.2.1) partner = some (dm, mp) ∧
      ∀ i j pi pj, (kp.1 :: kp.2.1).get? i = some pi →
        (kp.1 :: kp.2.1).get? j = some pj →
        (i = j → matGet dm i j = 0) ∧
        (i ≠ j →
          ((∃ nmin, FPathN g partner pi pj nmin ∧
              (∀ n2, FPathN g partner pi pj n2 → nmin ≤ n2) ∧
              matGet dm i j = nmin) ∨
            (¬ FReach g partner pi pj ∧ matGet dm i j = INF))) := by
  obtain ⟨hst, hflags, htps⟩ := find_key_points_inv g hre kp hfk
  have hsmem : kp.1 ∈ occs g (scanCells g) "S" := by
    rcases scanFold_start_mem g (scanCells g) ⟨none, [], []⟩ with h1 | ⟨p, hp, h1⟩
    · rw [hst] at h1
      exact absurd h1 (by simp)
    · rw [hst] at h1
      rw [Option.some.inj h1]
      exact hp
  have hWF : PartnerWF g partner := by
    refine partnerWF_of_run g hre partner ?_
    rw [← htps]
    exact htp
  have hkpin : ∀ p ∈ kp.1 :: kp.2.1, _in_bounds p.1 p.2 g = true := by
    intro p hp
    rcases List.mem_cons.mp hp with rfl | hf
    · rw [mem_occs] at hsmem
      obtain ⟨rc, hrc, _, he⟩ := hsmem
      rw [he]
      exact inBounds_posOf hrc
    · rw [hflags, mem_occs] at hf
      obtain ⟨rc, hrc, _, he⟩ := hf
      rw [he]
      exact inBounds_posOf hrc
  obtain ⟨dm, mp, hpweq, hlen1, hrows⟩ := pairwise_run (kp.1 :: kp.2.1) hre hWF
  refine ⟨dm, mp, hpweq, ?_⟩
  intro i j pi pj hgi hgj
  have hpmem : pi ∈ kp.1 :: kp.2.1 := List.get?_mem hgi
  obtain ⟨dist, parent, hbfs, hinv, hrel, hrowk, hsegs⟩ :=
    hrows i (i, pi) (by
      rw [enum_get?, hgi]
      rfl)
  have hmat : matGet dm i j = pairVal dist i (j, pj) := by
    unfold matGet
    rw [getD_of_get? _ _ _ _ hrowk]
    have hgm : ((kp.1 :: kp.2.1).enum.map (pairVal dist (i, pi).1)).get? j =
        some (pairVal dist (i, pi).1 (j, pj)) := by
      rw [List.get?_eq_getElem?, List.getElem?_map, ← List.get?_eq_getElem?]
      rw [enum_get?, hgj]
      rfl
    exact getD_of_get? _ _ _ _ hgm
  refine ⟨?_, ?_⟩
  · intro heq
    subst heq
    rw [hmat]
    unfold pairVal
    rw [if_pos rfl]
  · intro hne
    have hval : pairVal dist i (j, pj) =
        match dget? dist pj with
        | some dv => if dv < INF then dv else INF
        | none => INF := pairVal_ne dist i (j, pj) hne
    cases hdf : dget? dist pj with
    | none =>
      right
      have hkeys := hinv.keys pj
      rw [hdf] at hkeys
      have hnk : ¬ ((_in_bounds pj.1 pj.2 g = true ∧
          _is_drivable (tileAtP g pj) = true) ∨ pj = (i, pi).2) := by
        intro hcon
        have h2 := hkeys.mpr hcon
        simp at h2
      constructor
      · rintro ⟨n2, hp2⟩
        cases n2 with
        | zero =>
          have h2 := FPathN.zero_eq hp2
          exact hnk (Or.inr h2.symm)
        | succ m =>
          obtain ⟨w, hw, hws⟩ := FPathN.snoc_inv hp2
          obtain ⟨d, hd, hland⟩ := hws
          exact hnk (Or.inl (landAt_inv hWF hland))
      · rw [hmat]
        rw [hdf] at hval
        exact hval
    | some dv =>
      rw [hdf] at hval
      have hval2 : pairVal dist i (j, pj) = if dv < INF then dv else INF := hval
      by_cases hlt : dv < INF
      · left
        rcases hinv.sound pj dv hdf with hI | ⟨_, hpath⟩
        · rw [hI] at hlt
          exact absurd hlt (lt_irrefl _)
        · refine ⟨dv, hpath, ?_, ?_⟩
          · intro n2 hp2
            obtain ⟨n3, hle3, hlt3, hp3⟩ := FPathN_shorten hWF (hkpin pi hpmem) hp2
            have hlt4 : n3 < INF := lt_of_lt_of_le hlt3 hsize
            obtain ⟨dv2, hdv2, hle4⟩ := bfs_complete hinv.src0 hrel n3 hlt4 pj hp3
            have hde : dv2 = dv := Option.some.inj (hdv2.symm.trans hdf)
            omega
          · rw [hmat, hval2, if_pos hlt]
      · right
        have hdINF : dv = INF := by
          rcases hinv.sound pj dv hdf with hI | ⟨hlt2, _⟩
          · exact hI
          · exact absurd hlt2 hlt
        constructor
        · rintro ⟨n2, hp2⟩
          obtain ⟨n3, hle3, hlt3, hp3⟩ := FPathN_shorten hWF (hkpin pi hpmem) hp2
          have hlt4 : n3 < INF := lt_of_lt_of_le hlt3 hsize
          obtain ⟨dv2, hdv2, hle4⟩ := bfs_complete hinv.src0 hrel n3 hlt4 pj hp3
          have hde : dv2 = dv := Option.some.inj (hdv2.symm.trans hdf)
          omega
        · rw [hmat, hval2, if_neg hlt]

/-- Witness for C2 at the grid [["S", "F"]]: its two key points are
(0, 0) and (0, 1) and the pairwise engine's matrix satisfies the minimality
characterisation. -/
theorem C2_pairwise_matrix_witness :
    ∃ dm mp, _pairwise_shortest_paths [["S", "F"]]
        [((0 : Int), (0 : Int)), ((0 : Int), (1 : Int))] [] = some (dm, mp) ∧
      ∀ i j pi pj,
        ([((0 : Int), (0 : Int)), ((0 : Int), (1 : Int))] : List Pos).get? i = some pi →
        ([((0 : Int), (0 : Int)), ((0 : Int), (1 : Int))] : List Pos).get? j = some pj →
        (i = j → matGet dm i j = 0) ∧
        (i ≠ j →
          ((∃ nmin, FPathN [["S", "F"]] [] pi pj nmin ∧
              (∀ n2, FPathN [["S", "F"]] [] pi pj n2 → nmin ≤ n2) ∧
              matGet dm i j = nmin) ∨
            (¬ FReach [["S", "F"]] [] pi pj ∧ matGet dm i j = INF))) :=
  C2_pairwise_matrix [["S", "F"]]
    (((0 : Int), (0 : Int)), [((0 : Int), (1 : Int))], []) []
    (by unfold Rect; decide) (by rfl) (by rfl) (by decide)


end GridCar
